import Mathlib

/-!
# Verification of the parallelefs session engine

A shallow embedding of the per-connection session engine of the
parallelefs daemon (the dirTree / speculativeFile / session code in the
Go sources), together with theorems checking the natural-language
specification against it.

The on-disk filesystem is modelled as an association list from absolute
paths (lists of segments, the root being the empty list) to entries.
Each entry is a regular file (content and permission bits) or a
directory (permission bits).  File handles are modelled as numeric
identifiers tracked in the session state, with a flag recording whether
they are still open.  The background open of a speculative file is
resolved eagerly: the code resolves it deterministically from the
filesystem state at speculation time, and all later reads of the future
see exactly that cached record.
-/

set_option linter.unusedVariables false

abbrev Seg := String

/-- An absolute path, as the list of its segments; the filesystem root
is the empty list.  The Go engine splits absolute paths on the slash in
the same way. -/
abbrev FPath := List Seg

/-- One on-disk object: a regular file with its byte content and its
permission bits, or a directory with its permission bits. -/
inductive Entry where
  | file (content : List Nat) (perm : Nat)
  | dir (perm : Nat)
deriving DecidableEq, Repr

/-! ## Association-list helpers for the session's tracking maps -/

/-- Look up a key in an association list. -/
def alookup {κ α : Type} [DecidableEq κ] (l : List (κ × α)) (k : κ) : Option α :=
  match l.find? (fun kv => kv.1 = k) with
  | some kv => some kv.2
  | none => none

/-- Map assignment: replace the value at a key, or append a new binding. -/
def aset {κ α : Type} [DecidableEq κ] (l : List (κ × α)) (k : κ) (a : α) :
    List (κ × α) :=
  if (l.find? (fun kv => kv.1 = k)).isSome then
    l.map (fun kv => if kv.1 = k then (k, a) else kv)
  else
    l ++ [(k, a)]

/-- In-place update of an existing binding (mutation through a held
pointer in the Go code); absent keys are untouched. -/
def areplace {κ α : Type} [DecidableEq κ] (l : List (κ × α)) (k : κ) (a : α) :
    List (κ × α) :=
  l.map (fun kv => if kv.1 = k then (k, a) else kv)

/-- Map deletion. -/
def aremove {κ α : Type} [DecidableEq κ] (l : List (κ × α)) (k : κ) :
    List (κ × α) :=
  l.filter (fun kv => ¬ kv.1 = k)

/-- The on-disk state: a finite association list from paths to entries.
The root directory itself is implicit (it always exists and never has an
entry of its own). -/
abbrev FS := List (FPath × Entry)

namespace FS

/-- Look up the entry stored at a path (stat). -/
def get (fs : FS) (p : FPath) : Option Entry :=
  alookup fs p

/-- Store an entry at a path, replacing any previous entry there. -/
def set (fs : FS) (p : FPath) (e : Entry) : FS :=
  aset fs p e

/-- Remove the entry at a path (unlink / rmdir). -/
def erase (fs : FS) (p : FPath) : FS :=
  aremove fs p

/-- If q is a direct child of p, its final segment. -/
def childName? : FPath → FPath → Option Seg
  | [], [n] => some n
  | a :: as, b :: bs => if a = b then childName? as bs else none
  | _, _ => none

/-- The names readdir returns for directory p: the final segments of the
entries lying directly below p, in storage order. -/
def childNames (fs : FS) (p : FPath) : List Seg :=
  fs.filterMap (fun kv => childName? p kv.1)

/-- Whether a directory exists at p; the root always does. -/
def isDirB (fs : FS) (p : FPath) : Bool :=
  match p with
  | [] => true
  | _ =>
    match fs.get p with
    | some (Entry.dir _) => true
    | _ => false

/-- Whether p is a proper prefix of q (q lies strictly below p). -/
def strictBelow (p q : FPath) : Bool :=
  p.isPrefixOf q && decide (p.length < q.length)

/-- Remove the whole subtree rooted at p, including p itself. -/
def eraseTree (fs : FS) (p : FPath) : FS :=
  fs.filter (fun kv => ¬ (kv.1 = p ∨ strictBelow p kv.1 = true))

end FS

/-- POSIX create-time permission masking: the mode requested by the
syscall with the process umask bits (low 9) cleared. -/
def applyUmask (mode umask : Nat) : Nat :=
  mode &&& (0o777 ^^^ (umask &&& 0o777))

/-- The low 9 permission bits of a requested mode, as set by chmod. -/
def low9 (m : Nat) : Nat := m % 512

-- Sanity checks on the path and filesystem helpers.
example : FS.childName? ["a"] ["a", "b"] = some "b" := by decide
example : FS.childName? ["a"] ["a", "b", "c"] = none := by decide
example : FS.childName? [] ["b"] = some "b" := by decide
example : applyUmask 0o666 0o022 = 0o644 := by decide
example : low9 0o660 = 0o660 := by decide

/-! ## The session state

The Go session owns a speculative directory tree (dirTree nodes holding
childDirs, childFiles and a speculative flag) and a list of opened file
handles.  The tree is embedded flat: a dirTree node whose absolute path
is p appears as the binding p ↦ speculative in dirs, and a
speculativeFile registered under it as the binding (file path) ↦
FutFile in files.  Child lookup in a node map is then lookup of
(node path ++ [segment]). -/

/-- The resolved outcome of a background open (futureFile): an error, or
an open handle with the whether-newly-created flag. -/
structure FutFile where
  err : Bool
  isNew : Bool
  handle : Nat
deriving DecidableEq, Repr

/-- The per-connection session state, together with the modelled
operating-system state it acts on (the filesystem, the table of open
handles, and the process umask). -/
structure Sess where
  fs : FS
  dirs : List (FPath × Bool)
  files : List (FPath × FutFile)
  handles : List (Nat × Bool)
  nextHandle : Nat
  openFiles : List Nat
  finalized : Bool
  umask : Nat
deriving DecidableEq, Repr

/-- A fresh session: an empty tree whose root node is non-speculative. -/
def freshSession (fs0 : FS) (umask : Nat) : Sess :=
  { fs := fs0, dirs := [([], false)], files := [], handles := [],
    nextHandle := 0, openFiles := [], finalized := false, umask := umask }

/-- The speculative flag of the tree node at p, if p is tracked. -/
def Sess.dirFlag (s : Sess) (p : FPath) : Option Bool :=
  alookup s.dirs p

/-- The registered speculativeFile at p, if any. -/
def Sess.specFile (s : Sess) (p : FPath) : Option FutFile :=
  alookup s.files p

/-- Allocate a fresh open file handle. -/
def Sess.alloc (s : Sess) : Sess × Nat :=
  ({ s with handles := s.handles ++ [(s.nextHandle, true)],
            nextHandle := s.nextHandle + 1 }, s.nextHandle)

/-- Mark a handle closed. -/
def Sess.closeH (s : Sess) (h : Nat) : Sess :=
  { s with handles := areplace s.handles h false }

/-! ## Modelled system calls -/

/-- os.Open / os.OpenFile(path, O_WRONLY, _): succeeds exactly when a
regular file already exists at the path; the content is untouched. -/
def osOpenWrite (s : Sess) (p : FPath) : Sess × Option Nat :=
  match s.fs.get p with
  | some (Entry.file _ _) =>
    let (s1, h) := s.alloc
    (s1, some h)
  | _ => (s, none)

/-- os.OpenFile(path, O_WRONLY | O_CREATE, mode): opens an existing
regular file, fails on a directory, and otherwise creates an empty file
under the umask-masked mode provided the parent directory exists. -/
def osOpenCreate (s : Sess) (p : FPath) (mode : Nat) : Sess × Option Nat :=
  match s.fs.get p with
  | some (Entry.file _ _) =>
    let (s1, h) := s.alloc
    (s1, some h)
  | some (Entry.dir _) => (s, none)
  | none =>
    if p ≠ [] ∧ s.fs.isDirB p.dropLast then
      let (s1, h) := s.alloc
      ({ s1 with fs := s1.fs.set p (Entry.file [] (applyUmask mode s.umask)) },
       some h)
    else (s, none)

/-- os.Mkdir(path, mode): creates a single directory; the parent must
already exist and nothing may sit at the path. -/
def osMkdir (fs : FS) (p : FPath) (mode umask : Nat) : Option FS :=
  if p = [] then none
  else
    match fs.get p with
    | some _ => none
    | none =>
      if fs.isDirB p.dropLast then
        some (fs.set p (Entry.dir (applyUmask mode umask)))
      else none

/-- Write the given bytes through a write-only handle freshly positioned
at offset zero: the prefix of the file is overwritten. -/
def fsWriteAt (fs : FS) (p : FPath) (data : List Nat) : FS :=
  match fs.get p with
  | some (Entry.file old pm) =>
    fs.set p (Entry.file (data ++ old.drop data.length) pm)
  | _ => fs

/-- truncateFile: the deferred truncation of copyFile / createFile.
Omitted when the previous length does not exceed the bytes written. -/
def truncateFile (fs : FS) (p : FPath) (oldBytes written : Nat) : FS :=
  if oldBytes ≤ written then fs
  else
    match fs.get p with
    | some (Entry.file c pm) => fs.set p (Entry.file (c.take written) pm)
    | _ => fs

/-! ## The speculative directory tree (dirTree methods) -/

/-- createDirTree: stat the child path; if nothing is there, mkdir it
with mode 0755 and make a node carrying the requested speculative flag;
if a directory already exists, make a non-speculative node; a file in
the way is an error (none).  The caller registers the returned flag. -/
def createDirTree (s : Sess) (cur : FPath) (name : Seg) (speculate : Bool) :
    Sess × Option Bool :=
  let path := cur ++ [name]
  match s.fs.get path with
  | none =>
    match osMkdir s.fs path 0o755 s.umask with
    | none => (s, none)
    | some fs1 => ({ s with fs := fs1 }, some speculate)
  | some (Entry.dir _) => (s, some false)
  | some (Entry.file _ _) => (s, none)

/-- dirTree.speculateFile: register a speculativeFile under the node at
cur and run its background open, resolved eagerly: first try the open
without create (isNew := false); otherwise open with create under mode
0666 (isNew := true); if both fail the future carries the error. -/
def speculateFile (s : Sess) (cur : FPath) (name : Seg) : Sess :=
  let path := cur ++ [name]
  match osOpenWrite s path with
  | (s1, some h) =>
    { s1 with files := aset s1.files path ⟨false, false, h⟩ }
  | (s1, none) =>
    match osOpenCreate s1 path 0o666 with
    | (s2, some h) =>
      { s2 with files := aset s2.files path ⟨false, true, h⟩ }
    | (s2, none) =>
      { s2 with files := aset s2.files path ⟨true, false, 0⟩ }

/-- dirTree.addFileInternal: walk the remaining segments from the node
at cur, creating missing interior directories as speculative nodes via
createDirTree; at the leaf reuse an existing speculativeFile or start a
new one.  The Bool records success; on error the mutations already made
are kept (the Go tree is updated in place). -/
def addFileInternal : Sess → FPath → List Seg → Sess × Bool
  | s, _, [] => (s, false)
  | s, cur, [n] =>
    match alookup s.files (cur ++ [n]) with
    | some _ => (s, true)
    | none => (speculateFile s cur n, true)
  | s, cur, n :: m :: rest =>
    match alookup s.dirs (cur ++ [n]) with
    | some _ => addFileInternal s (cur ++ [n]) (m :: rest)
    | none =>
      match createDirTree s cur n true with
      | (s1, none) => (s1, false)
      | (s1, some flag) =>
        addFileInternal { s1 with dirs := aset s1.dirs (cur ++ [n]) flag }
          (cur ++ [n]) (m :: rest)

/-- dirTree.mkDirInternal: refuse to cross a speculative node; when the
next segment is untracked issue one os.Mkdir on the whole remaining tail
(mode 0755); at a tracked target flip a speculative node to real and
fail on a non-speculative one. -/
def mkDirInternal : Sess → FPath → List Seg → Sess × Bool
  | s, _, [] => (s, false)
  | s, cur, n :: rest =>
    if alookup s.dirs cur = some true then (s, false)
    else
      match alookup s.dirs (cur ++ [n]) with
      | none =>
        match osMkdir s.fs (cur ++ n :: rest) 0o755 s.umask with
        | some fs1 => ({ s with fs := fs1 }, true)
        | none => (s, false)
      | some flag =>
        match rest with
        | [] =>
          if flag then
            ({ s with dirs := areplace s.dirs (cur ++ [n]) false }, true)
          else (s, false)
        | m :: rest2 => mkDirInternal s (cur ++ [n]) (m :: rest2)

/-- dirTree.findDirInternal: walk tracked child nodes only; the result
is the path of the found node. -/
def findDirInternal : Sess → FPath → List Seg → Option FPath
  | _, _, [] => none
  | s, cur, [n] =>
    match alookup s.dirs (cur ++ [n]) with
    | some _ => some (cur ++ [n])
    | none => none
  | s, cur, n :: m :: rest =>
    match alookup s.dirs (cur ++ [n]) with
    | some _ => findDirInternal s (cur ++ [n]) (m :: rest)
    | none => none

/-- dirTree.useSpeculativeFile: walk towards the file; when the leaf
lookup succeeds, take the future, drop the registration and mark the
parent non-speculative; every node whose child lookup succeeded is
marked non-speculative on the way back up, even when the deeper lookup
failed and nothing was consumed. -/
def useSpeculativeFile : Sess → FPath → List Seg → Sess × Option FutFile
  | s, _, [] => (s, none)
  | s, cur, [n] =>
    match alookup s.files (cur ++ [n]) with
    | none => (s, none)
    | some fut =>
      ({ s with files := aremove s.files (cur ++ [n]),
                dirs := areplace s.dirs cur false }, some fut)
  | s, cur, n :: m :: rest =>
    match alookup s.dirs (cur ++ [n]) with
    | none => (s, none)
    | some _ =>
      let (s1, fut) := useSpeculativeFile s (cur ++ [n]) (m :: rest)
      ({ s1 with dirs := areplace s1.dirs cur false }, fut)

/-- dirTree.logicalList: read the on-disk names; a name tracked as a
speculative child directory is omitted, a name tracked as a child
speculativeFile whose future is isNew is omitted, everything else is
kept. -/
def logicalList (s : Sess) (p : FPath) : Option (List Seg) :=
  if s.fs.isDirB p then
    some ((FS.childNames s.fs p).filter (fun n =>
      match alookup s.dirs (p ++ [n]) with
      | some flag => !flag
      | none =>
        match alookup s.files (p ++ [n]) with
        | some fut => !fut.isNew
        | none => true))
  else none

/-- concurrentRemove, net effect: stat; a non-directory, or any target
without the recursive flag, goes through os.Remove (a directory must be
empty); a directory removed recursively takes its whole subtree. -/
def concurrentRemove (fs : FS) (p : FPath) (recursive : Bool) : Option FS :=
  match fs.get p with
  | none => none
  | some (Entry.file _ _) => some (fs.erase p)
  | some (Entry.dir _) =>
    if recursive then some (fs.eraseTree p)
    else if (FS.childNames fs p).isEmpty then some (fs.erase p)
    else none

/-- dirTree.delete: a speculative node refuses; a logically empty node
is marked speculative so cleanup removes it; otherwise, with the
recursive flag, child nodes are deleted recursively, child
speculativeFiles are marked isNew so cleanup unlinks them, and unmanaged
names are removed on disk, after which the node is marked speculative.
The fuel only bounds the recursion depth; callers pass more fuel than
the tracked tree is deep. -/
def treeDelete : Nat → Sess → FPath → Bool → Sess × Bool
  | 0, s, _, _ => (s, false)
  | fuel + 1, s, p, recursive =>
    if s.dirFlag p = some true then (s, false)
    else
      match logicalList s p with
      | none => (s, false)
      | some names =>
        if names.isEmpty then
          ({ s with dirs := areplace s.dirs p true }, true)
        else if !recursive then (s, false)
        else
          let step := fun (acc : Sess × Bool) (n : Seg) =>
            let (s0, ok0) := acc
            match alookup s0.dirs (p ++ [n]) with
            | some _ =>
              let (s1, succ) := treeDelete fuel s0 (p ++ [n]) true
              (s1, ok0 && succ)
            | none =>
              match alookup s0.files (p ++ [n]) with
              | some fut =>
                ({ s0 with files :=
                    (areplace s0.files (p ++ [n]) { fut with isNew := true }) },
                 ok0)
              | none =>
                match concurrentRemove s0.fs (p ++ [n]) true with
                | some fs1 => ({ s0 with fs := fs1 }, ok0)
                | none => (s0, false)
          let (s1, allOk) := names.foldl step (s, true)
          if allOk then ({ s1 with dirs := areplace s1.dirs p true }, true)
          else (s1, false)

/-- speculativeFile.disposeUnused on the registration at q: an errored
future is only logged; an isNew future unlinks the created file and then
closes the handle (a failing unlink leaves the handle open and reports
the error); a pre-existing file is just closed. -/
def disposeUnused (s : Sess) (q : FPath) (fut : FutFile) : Sess × Bool :=
  if fut.err then (s, true)
  else if fut.isNew then
    match s.fs.get q with
    | none => (s, false)
    | some _ => ((Sess.closeH { s with fs := s.fs.erase q } fut.handle), true)
  else (s.closeH fut.handle, true)

/-- One errgroup task of dirTree.clean for a child speculativeFile:
dispose it and fold the error into the running flag. -/
def disposeStep (acc : Sess × Bool) (kv : FPath × FutFile) : Sess × Bool :=
  let (s0, ok0) := acc
  let (s1, ok1) := disposeUnused s0 kv.1 kv.2
  (s1, ok0 && ok1)

/-- The tail of dirTree.clean at node p, after the child tasks have been
joined without error: clear both child maps, then, if this node is still
speculative, remove its directory on disk when that directory is empty
(a directory that vanished is fine, anything that is not a directory is
an error); the root is never removed.  Non-speculative nodes are left
alone. -/
def cleanTail (s : Sess) (p : FPath) : Sess × Bool :=
  let sc := { s with
    files := s.files.filter (fun kv => ¬ (FS.childName? p kv.1).isSome),
    dirs := s.dirs.filter (fun kv => ¬ (FS.childName? p kv.1).isSome) }
  if sc.dirFlag p = some true then
    match p, FS.get sc.fs p with
    | [], _ => (sc, true)
    | _ :: _, none => (sc, true)
    | _ :: _, some (Entry.file _ _) => (sc, false)
    | _ :: _, some (Entry.dir _) =>
      if (FS.childNames sc.fs p).isEmpty then
        ({ sc with fs := FS.erase sc.fs p }, true)
      else (sc, true)
  else (sc, true)

/-- dirTree.clean at the node p: dispose every child speculativeFile,
clean every child directory node, and only then clear both child maps
and handle this node itself (cleanTail); on any child error stop before
the tail and report it.  Fuel bounds the recursion depth; callers pass
more fuel than the tracked tree is deep. -/
def clean : Nat → Sess → FPath → Sess × Bool
  | 0, s, _ => (s, false)
  | fuel + 1, s, p =>
    let fileKids := s.files.filter (fun kv => (FS.childName? p kv.1).isSome)
    let dirKids := s.dirs.filterMap
      (fun kv => if (FS.childName? p kv.1).isSome then some kv.1 else none)
    let ab := fileKids.foldl disposeStep (s, true)
    let bb := dirKids.foldl (fun acc q =>
      let (s0, ok0) := acc
      let (s1, ok1) := clean fuel s0 q
      (s1, ok0 && ok1)) ab
    if !bb.2 then (bb.1, false)
    else cleanTail bb.1 p

/-! ## The session engine (session methods) -/

/-- session.findSpeculativeDir: the root matches the bare path,
otherwise walk the tree. -/
def sessFindDir (s : Sess) (p : FPath) : Option FPath :=
  match p with
  | [] => some []
  | _ :: _ => findDirInternal s [] p

/-- session.findSpeculativeFile: split off the final segment, find the
parent node, and look the name up in its child files (keyed here by the
full path); the future is resolved by the lookup itself. -/
def sessFindFile (s : Sess) (p : FPath) : Option FutFile :=
  match p.getLast? with
  | none => none
  | some _ =>
    match sessFindDir s p.dropLast with
    | none => none
    | some _ => alookup s.files p

/-- session.useSpeculativeFile: nothing to consume at the root. -/
def sessUseFile (s : Sess) (p : FPath) : Sess × Option FutFile :=
  match p with
  | [] => (s, none)
  | _ :: _ => useSpeculativeFile s [] p

/-- session.addSpeculativeFile / session.speculateFile: the root is an
error; the response of the speculate request is true in every case. -/
def sessSpeculate (s : Sess) (p : FPath) : Sess :=
  match p with
  | [] => s
  | _ :: _ => (addFileInternal s [] p).1

/-- session.createDest: consume a speculation when one is registered
(its recorded error fails the request); otherwise open the destination
directly, creating it under mode 0666 when absent. -/
def sessCreateDest (s : Sess) (p : FPath) : Sess × Option Nat :=
  match sessUseFile s p with
  | (s1, some fut) => if fut.err then (s1, none) else (s1, some fut.handle)
  | (s1, none) => osOpenCreate s1 p 0o666

/-- session.createFile: acquire the destination handle, retain it in
openFiles, stat the previous length, write the content in one call and
truncate back to the bytes written when the file was longer. -/
def sessCreate (s : Sess) (content : List Nat) (p : FPath) : Sess × Bool :=
  match sessCreateDest s p with
  | (s1, none) => (s1, false)
  | (s1, some h) =>
    let s2 := { s1 with openFiles := s1.openFiles ++ [h] }
    match s2.fs.get p with
    | some (Entry.file oldC _) =>
      let s3 := { s2 with fs := fsWriteAt s2.fs p content }
      let s4 := { s3 with fs := truncateFile s3.fs p oldC.length content.length }
      (s4, true)
    | _ => (s2, false)

/-- session.copyFile: open the source for read, acquire the destination
handle, retain both in openFiles, then stream the source content and
truncate back to the bytes written when the destination was longer. -/
def sessCopy (s : Sess) (src p : FPath) : Sess × Bool :=
  match osOpenWrite s src with
  | (s1, none) => (s1, false)
  | (s1, some hsrc) =>
    let s2 := { s1 with openFiles := s1.openFiles ++ [hsrc] }
    match sessCreateDest s2 p with
    | (s3, none) => (s3, false)
    | (s3, some hdest) =>
      let s4 := { s3 with openFiles := s3.openFiles ++ [hdest] }
      match s4.fs.get p, s4.fs.get src with
      | some (Entry.file oldC _), some (Entry.file srcC _) =>
        let s5 := { s4 with fs := fsWriteAt s4.fs p srcC }
        let s6 := { s5 with fs := truncateFile s5.fs p oldC.length srcC.length }
        (s6, true)
      | _, _ => (s4, false)

/-- session.existence: a registered speculativeFile answers by its isNew
flag, a tracked directory node by its speculative flag, anything else by
an on-disk stat. -/
def sessExistence (s : Sess) (p : FPath) : Bool :=
  match sessFindFile s p with
  | some fut => !fut.isNew
  | none =>
    match sessFindDir s p with
    | some d =>
      match s.dirFlag d with
      | some flag => !flag
      | none => true
    | none => (s.fs.get p).isSome

/-- session.mkdir / session.mkSpeculativeDir: the root already exists;
otherwise run the tree walk. -/
def sessMkdir (s : Sess) (p : FPath) : Sess × Bool :=
  match p with
  | [] => (s, false)
  | _ :: _ => mkDirInternal s [] p

/-- session.listDir: a tracked directory node lists logically, an
untracked path reads the on-disk directory. -/
def sessListDir (s : Sess) (p : FPath) : Option (List Seg) :=
  match sessFindDir s p with
  | some d => logicalList s d
  | none =>
    if s.fs.isDirB p then some (FS.childNames s.fs p) else none

/-- The fuel given to the tree recursions: every descent steps to a
distinct tracked node strictly below, so the tracked-node count bounds
the depth. -/
def sessFuel (s : Sess) : Nat := s.dirs.length + 1

/-- session.delete (shared by delete and delete_recursive): a
registered speculativeFile answers false when isNew and otherwise marks
the cached future isNew so that cleanup unlinks; a tracked directory
node delegates to the tree; anything else is stat plus
concurrentRemove. -/
def sessDelete (s : Sess) (p : FPath) (recursive : Bool) : Sess × Bool :=
  match sessFindFile s p with
  | some fut =>
    if fut.isNew then (s, false)
    else ({ s with files := areplace s.files p { fut with isNew := true } }, true)
  | none =>
    match sessFindDir s p with
    | some d => treeDelete (sessFuel s) s d recursive
    | none =>
      match s.fs.get p with
      | none => (s, false)
      | some _ =>
        match concurrentRemove s.fs p recursive with
        | some fs1 => ({ s with fs := fs1 }, true)
        | none => (s, false)

/-- The fuel given to cleanup: one more than the longest tracked path,
so the recursion from the root never runs out. -/
def cleanFuel (s : Sess) : Nat :=
  (s.dirs.map (fun kv => kv.1.length)).foldr max 0 + 1

/-- session.finalize: idempotent; runs the tree cleanup from the root,
errors being logged only. -/
def sessFinalize (s : Sess) : Sess :=
  if s.finalized then s
  else
    let (s1, _) := clean (cleanFuel s) s []
    { s1 with finalized := true }

/-! ## Requests -/

/-- The eight request kinds of the line protocol, after decoding and
path normalization. -/
inductive Req where
  | copy (src dest : FPath)
  | create (content : List Nat) (dest : FPath)
  | speculate (dest : FPath)
  | existence (dest : FPath)
  | mkdir (dest : FPath)
  | listdir (dest : FPath)
  | del (dest : FPath)
  | delRec (dest : FPath)
deriving DecidableEq, Repr

/-- The state transition of one request (the response value aside). -/
def stepReq (s : Sess) : Req → Sess
  | Req.copy src dest => (sessCopy s src dest).1
  | Req.create c dest => (sessCreate s c dest).1
  | Req.speculate dest => sessSpeculate s dest
  | Req.existence _ => s
  | Req.mkdir dest => (sessMkdir s dest).1
  | Req.listdir _ => s
  | Req.del dest => (sessDelete s dest false).1
  | Req.delRec dest => (sessDelete s dest true).1

/-- Run a request sequence. -/
def runReqs (s : Sess) (rs : List Req) : Sess :=
  rs.foldl stepReq s

/-! ## Basic lemmas about the map and filesystem helpers -/

theorem alookup_nil {κ α : Type} [DecidableEq κ] (k : κ) :
    alookup ([] : List (κ × α)) k = none := rfl

theorem alookup_cons {κ α : Type} [DecidableEq κ] (kv : κ × α)
    (l : List (κ × α)) (k : κ) :
    alookup (kv :: l) k = if kv.1 = k then some kv.2 else alookup l k := by
  by_cases h : kv.1 = k <;> simp [alookup, List.find?, h]

theorem alookup_append {κ α : Type} [DecidableEq κ] (l1 l2 : List (κ × α))
    (k : κ) :
    alookup (l1 ++ l2) k =
      match alookup l1 k with
      | some a => some a
      | none => alookup l2 k := by
  induction l1 with
  | nil => simp [alookup_nil]
  | cons kv l ih =>
    by_cases h : kv.1 = k <;> simp [alookup_cons, h, ih]

theorem alookup_isSome_iff_find? {κ α : Type} [DecidableEq κ]
    (l : List (κ × α)) (k : κ) :
    (alookup l k).isSome = (l.find? (fun kv => kv.1 = k)).isSome := by
  unfold alookup
  cases l.find? (fun kv => kv.1 = k) <;> simp

theorem alookup_mapReplace {κ α : Type} [DecidableEq κ] (l : List (κ × α))
    (k : κ) (a : α) (k' : κ) :
    alookup (l.map (fun kv => if kv.1 = k then (k, a) else kv)) k' =
      if k' = k then (alookup l k).map (fun _ => a) else alookup l k' := by
  induction l with
  | nil => by_cases h : k' = k <;> simp [alookup_nil, h]
  | cons kv l ih =>
    by_cases h1 : kv.1 = k
    · by_cases h2 : k' = k
      · subst h2
        simp [alookup_cons, h1, ih]
      · have h3 : ¬ (k : κ) = k' := fun he => h2 he.symm
        have h4 : ¬ kv.1 = k' := by rw [h1]; exact h3
        simp [alookup_cons, h1, h3, h2, ih, h4]
    · by_cases h2 : k' = k
      · subst h2
        simp [alookup_cons, h1, ih]
      · simp [alookup_cons, h1, h2, ih]

theorem alookup_areplace {κ α : Type} [DecidableEq κ] (l : List (κ × α))
    (k : κ) (a : α) (k' : κ) :
    alookup (areplace l k a) k' =
      if k' = k then (alookup l k).map (fun _ => a) else alookup l k' :=
  alookup_mapReplace l k a k'

theorem alookup_aset {κ α : Type} [DecidableEq κ] (l : List (κ × α)) (k : κ)
    (a : α) (k' : κ) :
    alookup (aset l k a) k' = if k' = k then some a else alookup l k' := by
  unfold aset
  by_cases hmem : (l.find? (fun kv => kv.1 = k)).isSome
  · rw [if_pos hmem, alookup_mapReplace]
    by_cases h2 : k' = k
    · subst h2
      rw [if_pos rfl, if_pos rfl]
      rw [← alookup_isSome_iff_find?] at hmem
      cases hv : alookup l k' with
      | none => rw [hv] at hmem; simp at hmem
      | some v => simp
    · rw [if_neg h2, if_neg h2]
  · rw [if_neg hmem, alookup_append]
    have hnone : alookup l k = none := by
      rw [← alookup_isSome_iff_find?] at hmem
      cases hv : alookup l k with
      | none => rfl
      | some v => rw [hv] at hmem; simp at hmem
    by_cases h2 : k' = k
    · subst h2
      rw [hnone]
      simp [alookup_cons]
    · have h3 : ¬ (k : κ) = k' := fun he => h2 he.symm
      cases hv : alookup l k' with
      | none => simp [alookup_cons, h2, h3, alookup_nil]
      | some v => rw [if_neg h2]

theorem alookup_aremove {κ α : Type} [DecidableEq κ] (l : List (κ × α))
    (k : κ) (k' : κ) :
    alookup (aremove l k) k' = if k' = k then none else alookup l k' := by
  induction l with
  | nil => by_cases h : k' = k <;> simp [aremove, alookup_nil, h]
  | cons kv l ih =>
    unfold aremove at ih ⊢
    rw [List.filter_cons]
    by_cases h1 : kv.1 = k
    · have hd : (decide ¬ kv.1 = k) = false := by simp [h1]
      rw [hd]
      simp only [Bool.false_eq_true, if_false]
      by_cases h2 : k' = k
      · subst h2
        rw [ih]
        simp
      · have h4 : ¬ kv.1 = k' := by rw [h1]; exact fun he => h2 he.symm
        rw [ih, alookup_cons, if_neg h4]
    · have hd : (decide ¬ kv.1 = k) = true := by simp [h1]
      rw [hd]
      simp only [if_true]
      by_cases h2 : k' = k
      · subst h2
        rw [alookup_cons, if_neg h1, ih]
        simp
      · rw [alookup_cons, ih, if_neg h2, if_neg h2, alookup_cons]

theorem FS.get_eq_alookup (fs : FS) (p : FPath) : FS.get fs p = alookup fs p :=
  rfl

theorem FS.set_eq_aset (fs : FS) (p : FPath) (e : Entry) :
    FS.set fs p e = aset fs p e := rfl

theorem FS.erase_eq_aremove (fs : FS) (p : FPath) :
    FS.erase fs p = aremove fs p := rfl

theorem FS.get_set (fs : FS) (p : FPath) (e : Entry) (q : FPath) :
    FS.get (FS.set fs p e) q = if q = p then some e else FS.get fs q := by
  rw [FS.get_eq_alookup, FS.set_eq_aset, alookup_aset, FS.get_eq_alookup]

theorem FS.get_erase (fs : FS) (p : FPath) (q : FPath) :
    FS.get (FS.erase fs p) q = if q = p then none else FS.get fs q := by
  rw [FS.get_eq_alookup, FS.erase_eq_aremove, alookup_aremove, FS.get_eq_alookup]

theorem FS.childName?_eq_some {p q : FPath} {n : Seg} :
    FS.childName? p q = some n ↔ q = p ++ [n] := by
  induction p generalizing q with
  | nil =>
    cases q with
    | nil => simp [FS.childName?]
    | cons b bs =>
      cases bs with
      | nil => simp [FS.childName?]
      | cons c cs => simp [FS.childName?]
  | cons a as ih =>
    cases q with
    | nil => simp [FS.childName?]
    | cons b bs =>
      by_cases h : a = b
      · subst h
        simp [FS.childName?, ih]
      · have h2 : ¬ (b = a) := fun he => h he.symm
        simp [FS.childName?, h, h2]

theorem FS.childName?_isSome_iff {p q : FPath} :
    (FS.childName? p q).isSome = true ↔ ∃ n, q = p ++ [n] := by
  cases hc : FS.childName? p q with
  | none =>
    simp only [Option.isSome_none, Bool.false_eq_true, false_iff]
    intro ⟨n, hn⟩
    rw [FS.childName?_eq_some.mpr hn] at hc
    cases hc
  | some n =>
    simp only [Option.isSome_some, true_iff]
    exact ⟨n, FS.childName?_eq_some.mp hc⟩

theorem FS.mem_childNames {fs : FS} {p : FPath} {n : Seg} :
    n ∈ FS.childNames fs p ↔ ∃ kv, kv ∈ fs ∧ kv.1 = p ++ [n] := by
  unfold FS.childNames
  rw [List.mem_filterMap]
  constructor
  · intro ⟨kv, hmem, hcn⟩
    exact ⟨kv, hmem, FS.childName?_eq_some.mp hcn⟩
  · intro ⟨kv, hmem, hk⟩
    exact ⟨kv, hmem, FS.childName?_eq_some.mpr hk⟩

theorem FS.get_isSome_iff_exists {fs : FS} {p : FPath} :
    (FS.get fs p).isSome = true ↔ ∃ kv, kv ∈ fs ∧ kv.1 = p := by
  rw [FS.get_eq_alookup]
  unfold alookup
  cases hf : fs.find? (fun kv => kv.1 = p) with
  | none =>
    constructor
    · intro h
      simp at h
    · intro ⟨kv, hmem, hk⟩
      have := List.find?_eq_none.mp hf kv hmem
      simp [hk] at this
  | some kv =>
    constructor
    · intro _
      have hmem := List.mem_of_find?_eq_some hf
      have hp := List.find?_some hf
      simp only [decide_eq_true_eq] at hp
      exact ⟨kv, hmem, hp⟩
    · intro _
      simp

theorem FS.mem_childNames_iff_get {fs : FS} {p : FPath} {n : Seg} :
    n ∈ FS.childNames fs p ↔ (FS.get fs (p ++ [n])).isSome = true := by
  rw [FS.mem_childNames, FS.get_isSome_iff_exists]

/-- Prefix test on paths. -/
def isPre : FPath → FPath → Bool
  | [], _ => true
  | _ :: _, [] => false
  | a :: as, b :: bs => if a = b then isPre as bs else false

theorem isPre_iff {p q : FPath} : isPre p q = true ↔ ∃ r, q = p ++ r := by
  induction p generalizing q with
  | nil =>
    constructor
    · intro _
      exact ⟨q, rfl⟩
    · intro _
      rfl
  | cons a as ih =>
    cases q with
    | nil =>
      constructor
      · intro h
        exact absurd h (by simp [isPre])
      · intro ⟨r, hr⟩
        simp at hr
    | cons b bs =>
      by_cases hab : a = b
      · subst hab
        have hred : isPre (a :: as) (a :: bs) = isPre as bs := by
          simp [isPre]
        rw [hred, ih]
        constructor
        · intro ⟨r, hr⟩
          exact ⟨r, by rw [hr]; rfl⟩
        · intro ⟨r, hr⟩
          refine ⟨r, ?_⟩
          injection hr with h1 h2
      · have hred : isPre (a :: as) (b :: bs) = false := by
          simp [isPre, hab]
        rw [hred]
        constructor
        · intro h
          exact absurd h (by decide)
        · intro ⟨r, hr⟩
          injection hr with h1 h2
          exact absurd h1.symm hab

theorem isPre_refl (p : FPath) : isPre p p = true :=
  isPre_iff.mpr ⟨[], by simp⟩

theorem isPre_append (p r : FPath) : isPre p (p ++ r) = true :=
  isPre_iff.mpr ⟨r, rfl⟩

theorem isPre_trans {p q r : FPath} (h1 : isPre p q = true)
    (h2 : isPre q r = true) : isPre p r = true := by
  obtain ⟨u, hu⟩ := isPre_iff.mp h1
  obtain ⟨v, hv⟩ := isPre_iff.mp h2
  exact isPre_iff.mpr ⟨u ++ v, by rw [hv, hu, List.append_assoc]⟩

theorem isPre_length_le {p q : FPath} (h : isPre p q = true) :
    p.length ≤ q.length := by
  obtain ⟨r, hr⟩ := isPre_iff.mp h
  subst hr
  simp

theorem isPre_eq_of_length {p q : FPath} (h : isPre p q = true)
    (hl : q.length ≤ p.length) : q = p := by
  obtain ⟨r, hr⟩ := isPre_iff.mp h
  subst hr
  simp at hl
  simp [hl]

theorem isPre_cases {p q : FPath} (h : isPre p q = true) :
    q = p ∨ ∃ n, isPre (p ++ [n]) q = true := by
  obtain ⟨r, hr⟩ := isPre_iff.mp h
  cases r with
  | nil => left; simp [hr]
  | cons n rest =>
    right
    exact ⟨n, isPre_iff.mpr ⟨rest, by simp [hr]⟩⟩

theorem isPre_child_elim {p q : FPath} {n : Seg}
    (h : isPre (p ++ [n]) q = true) : isPre p q = true :=
  isPre_trans (isPre_append p [n]) h

theorem childName?_isPre {p q : FPath} {n : Seg}
    (h : FS.childName? p q = some n) : isPre p q = true := by
  rw [FS.childName?_eq_some.mp h]
  exact isPre_append p [n]

theorem isPre_nil (q : FPath) : isPre [] q = true := rfl

/-- Two different children of p dominate disjoint subtrees. -/
theorem isPre_child_disjoint {p q : FPath} {n m : Seg} (hnm : n ≠ m)
    (h1 : isPre (p ++ [n]) q = true) : isPre (p ++ [m]) q = false := by
  by_contra hc
  have h2 : isPre (p ++ [m]) q = true := by
    cases hm : isPre (p ++ [m]) q with
    | true => rfl
    | false => exact absurd hm hc
  obtain ⟨r1, hr1⟩ := isPre_iff.mp h1
  obtain ⟨r2, hr2⟩ := isPre_iff.mp h2
  rw [hr1] at hr2
  have hr3 : p ++ ([n] ++ r1) = p ++ ([m] ++ r2) := by
    simpa [List.append_assoc] using hr2
  have hr4 : [n] ++ r1 = [m] ++ r2 := by
    exact List.append_cancel_left hr3
  injection hr4 with h5 h6
  exact hnm h5

/-! ## Record-update projection lemmas -/

@[simp] theorem Sess.fs_upd_openFiles (s : Sess) (x : List Nat) :
    ({ s with openFiles := x } : Sess).fs = s.fs := rfl

@[simp] theorem Sess.dirs_upd_openFiles (s : Sess) (x : List Nat) :
    ({ s with openFiles := x } : Sess).dirs = s.dirs := rfl

@[simp] theorem Sess.files_upd_openFiles (s : Sess) (x : List Nat) :
    ({ s with openFiles := x } : Sess).files = s.files := rfl

@[simp] theorem Sess.umask_upd_openFiles (s : Sess) (x : List Nat) :
    ({ s with openFiles := x } : Sess).umask = s.umask := rfl

@[simp] theorem Sess.fs_upd_fs (s : Sess) (x : FS) :
    ({ s with fs := x } : Sess).fs = x := rfl

@[simp] theorem Sess.dirs_upd_fs (s : Sess) (x : FS) :
    ({ s with fs := x } : Sess).dirs = s.dirs := rfl

@[simp] theorem Sess.files_upd_fs (s : Sess) (x : FS) :
    ({ s with fs := x } : Sess).files = s.files := rfl

@[simp] theorem Sess.umask_upd_fs (s : Sess) (x : FS) :
    ({ s with fs := x } : Sess).umask = s.umask := rfl

@[simp] theorem Sess.fs_alloc (s : Sess) : (Sess.alloc s).1.fs = s.fs := rfl

@[simp] theorem Sess.dirs_alloc (s : Sess) : (Sess.alloc s).1.dirs = s.dirs := rfl

@[simp] theorem Sess.files_alloc (s : Sess) :
    (Sess.alloc s).1.files = s.files := rfl

@[simp] theorem Sess.umask_alloc (s : Sess) :
    (Sess.alloc s).1.umask = s.umask := rfl

/-! ## Stability lemmas for the open calls and the tree walk -/

theorem osOpenWrite_fs (s : Sess) (p : FPath) :
    ((osOpenWrite s p).1).fs = s.fs := by
  unfold osOpenWrite
  cases hg : FS.get s.fs p with
  | none => rfl
  | some e => cases e <;> rfl

theorem osOpenWrite_dirs (s : Sess) (p : FPath) :
    ((osOpenWrite s p).1).dirs = s.dirs := by
  unfold osOpenWrite
  cases hg : FS.get s.fs p with
  | none => rfl
  | some e => cases e <;> rfl

theorem osOpenWrite_files (s : Sess) (p : FPath) :
    ((osOpenWrite s p).1).files = s.files := by
  unfold osOpenWrite
  cases hg : FS.get s.fs p with
  | none => rfl
  | some e => cases e <;> rfl

theorem osOpenCreate_get_stable (s : Sess) (p : FPath) (mode : Nat)
    (q : FPath) (hq : FS.get s.fs q ≠ none) :
    FS.get ((osOpenCreate s p mode).1).fs q = FS.get s.fs q := by
  unfold osOpenCreate
  cases hg : FS.get s.fs p with
  | none =>
    by_cases hpar : p ≠ [] ∧ s.fs.isDirB p.dropLast
    · simp only [hpar, if_true]
      have hqp : q ≠ p := by
        intro he
        rw [he] at hq
        exact hq hg
      simp [hpar.1, FS.get_set, hqp]
    · simp [hpar]
  | some e => cases e <;> simp

theorem osOpenCreate_dirs (s : Sess) (p : FPath) (mode : Nat) :
    ((osOpenCreate s p mode).1).dirs = s.dirs := by
  unfold osOpenCreate
  cases hg : FS.get s.fs p with
  | none =>
    by_cases hpar : p ≠ [] ∧ s.fs.isDirB p.dropLast
    · simp [hpar]
    · simp [hpar]
  | some e => cases e <;> simp

theorem useSpeculativeFile_fs (s : Sess) (cur : FPath) (parts : List Seg) :
    ((useSpeculativeFile s cur parts).1).fs = s.fs := by
  induction parts generalizing s cur with
  | nil => rfl
  | cons n rest ih =>
    cases rest with
    | nil =>
      unfold useSpeculativeFile
      cases hf : alookup s.files (cur ++ [n]) with
      | none => rfl
      | some fut => rfl
    | cons m rest2 =>
      unfold useSpeculativeFile
      cases hd : alookup s.dirs (cur ++ [n]) with
      | none => rfl
      | some flag =>
        simp only []
        have := ih s (cur ++ [n])
        cases hu : useSpeculativeFile s (cur ++ [n]) (m :: rest2) with
        | mk s1 fut =>
          rw [hu] at this
          simpa using this

theorem sessUseFile_fs (s : Sess) (p : FPath) :
    ((sessUseFile s p).1).fs = s.fs := by
  unfold sessUseFile
  cases p with
  | nil => rfl
  | cons a as => exact useSpeculativeFile_fs s [] (a :: as)

theorem sessCreateDest_get_stable (s : Sess) (p : FPath) (q : FPath)
    (hq : FS.get s.fs q ≠ none) :
    FS.get ((sessCreateDest s p).1).fs q = FS.get s.fs q := by
  unfold sessCreateDest
  cases hu : sessUseFile s p with
  | mk s1 futOpt =>
    have hfs1 : s1.fs = s.fs := by
      have := sessUseFile_fs s p
      rw [hu] at this
      simpa using this
    cases futOpt with
    | some fut =>
      by_cases he : fut.err <;> simp [he, hfs1]
    | none =>
      simp only []
      rw [show ((osOpenCreate s1 p 0o666).1).fs.get q = s1.fs.get q from
        osOpenCreate_get_stable s1 p 0o666 q (by rw [hfs1]; exact hq), hfs1]

/-! ## Write-and-truncate lemmas for createFile / copyFile -/

theorem write_truncate_get (fs : FS) (p : FPath) (data oldC : List Nat)
    (pm : Nat) (hg : FS.get fs p = some (Entry.file oldC pm)) :
    FS.get (truncateFile (fsWriteAt fs p data) p oldC.length data.length) p
      = some (Entry.file data pm) := by
  unfold fsWriteAt
  rw [hg]
  unfold truncateFile
  by_cases hle : oldC.length ≤ data.length
  · rw [if_pos hle, FS.get_set, if_pos rfl]
    have hdrop : oldC.drop data.length = [] := List.drop_eq_nil_of_le hle
    rw [hdrop, List.append_nil]
  · rw [if_neg hle, FS.get_set, if_pos rfl, FS.get_set, if_pos rfl]
    have htake : (data ++ oldC.drop data.length).take data.length = data :=
      List.take_left data (oldC.drop data.length)
    rw [htake]

theorem sessCreate_content (s1 : Sess) (p : FPath) (c : List Nat)
    (hr : (sessCreate s1 c p).2 = true) :
    ∃ pm, FS.get ((sessCreate s1 c p).1).fs p = some (Entry.file c pm) := by
  cases hcd : sessCreateDest s1 p with
  | mk sA optH =>
    cases optH with
    | none => simp [sessCreate, hcd] at hr
    | some h =>
      cases hg : FS.get sA.fs p with
      | none => simp [sessCreate, hcd, hg] at hr
      | some e =>
        cases e with
        | dir pm => simp [sessCreate, hcd, hg] at hr
        | file oldC pm =>
          simp only [sessCreate, hcd, Sess.fs_upd_openFiles, hg]
          exact ⟨pm, write_truncate_get sA.fs p c oldC pm hg⟩

theorem sessCopy_content (s1 : Sess) (src p : FPath)
    (hr : (sessCopy s1 src p).2 = true) :
    ∃ srcC pmS pmD, FS.get s1.fs src = some (Entry.file srcC pmS) ∧
      FS.get ((sessCopy s1 src p).1).fs p = some (Entry.file srcC pmD) := by
  cases hop : osOpenWrite s1 src with
  | mk sB optS =>
    cases optS with
    | none => simp [sessCopy, hop] at hr
    | some hsrc =>
      cases hcd : sessCreateDest { sB with openFiles := sB.openFiles ++ [hsrc] } p with
      | mk sC optH =>
        cases optH with
        | none => simp [sessCopy, hop, hcd] at hr
        | some hdest =>
          cases hgp : FS.get sC.fs p with
          | none => simp [sessCopy, hop, hcd, hgp] at hr
          | some e =>
            cases e with
            | dir pm => simp [sessCopy, hop, hcd, hgp] at hr
            | file oldC pmOld =>
              cases hgs : FS.get sC.fs src with
              | none => simp [sessCopy, hop, hcd, hgp, hgs] at hr
              | some es =>
                cases es with
                | dir pmS => simp [sessCopy, hop, hcd, hgp, hgs] at hr
                | file srcC pmS =>
                  -- the source open succeeded, so src held a file already,
                  -- and neither that open nor createDest touched it
                  have hfsB : sB.fs = s1.fs := by
                    have hst := osOpenWrite_fs s1 src
                    rw [hop] at hst
                    simpa using hst
                  have hs1src : ∃ c0 pm0,
                      FS.get s1.fs src = some (Entry.file c0 pm0) := by
                    unfold osOpenWrite at hop
                    cases hg0 : FS.get s1.fs src with
                    | none => rw [hg0] at hop; simp at hop
                    | some e0 =>
                      cases e0 with
                      | file c0 pm0 => exact ⟨c0, pm0, rfl⟩
                      | dir pm0 => rw [hg0] at hop; simp at hop
                  obtain ⟨c0, pm0, hc0⟩ := hs1src
                  have hstable : FS.get sC.fs src = FS.get s1.fs src := by
                    have h1 : FS.get ({ sB with openFiles := sB.openFiles ++ [hsrc] } : Sess).fs src ≠ none := by
                      simp only [Sess.fs_upd_openFiles, hfsB, hc0]
                      exact fun hcon => by cases hcon
                    have hst := sessCreateDest_get_stable
                      { sB with openFiles := sB.openFiles ++ [hsrc] } p src h1
                    rw [hcd] at hst
                    simp only [Sess.fs_upd_openFiles, hfsB] at hst
                    simpa using hst
                  have hsrcEq : FS.get s1.fs src = some (Entry.file srcC pmS) := by
                    rw [← hstable, hgs]
                  simp only [sessCopy, hop, hcd, Sess.fs_upd_openFiles, hgp, hgs]
                  exact ⟨srcC, pmS, pmOld, hsrcEq,
                    write_truncate_get sC.fs p srcC oldC pmOld hgp⟩

/-! ## A frame relation for cleanup

CleanRel p s s' collects what one cleanup pass rooted at p can do to the
state: nothing outside the subtree of p changes, the filesystem only
loses entries, the tracking maps only shrink, and every change to the
filesystem is accounted for by an isNew speculativeFile or a speculative
directory node that was present when the pass started. -/

def CleanRel (p : FPath) (s s' : Sess) : Prop :=
  (∀ q, ¬ isPre p q = true → FS.get s'.fs q = FS.get s.fs q) ∧
  (∀ q, ¬ isPre p q = true → alookup s'.files q = alookup s.files q) ∧
  (∀ q, ¬ isPre p q = true → alookup s'.dirs q = alookup s.dirs q) ∧
  (∀ q, FS.get s'.fs q = FS.get s.fs q ∨ FS.get s'.fs q = none) ∧
  (∀ kv, kv ∈ s'.files → kv ∈ s.files) ∧
  (∀ kv, kv ∈ s'.dirs → kv ∈ s.dirs) ∧
  (∀ q, FS.get s'.fs q ≠ FS.get s.fs q →
    (∃ kv, kv ∈ s.files ∧ kv.1 = q ∧ kv.2.isNew = true ∧ kv.2.err = false) ∨
    (∃ kv, kv ∈ s.dirs ∧ kv.1 = q ∧ kv.2 = true)) ∧
  (∀ q, alookup s'.files q = alookup s.files q ∨ alookup s'.files q = none) ∧
  (∀ q, alookup s'.dirs q = alookup s.dirs q ∨ alookup s'.dirs q = none)

theorem CleanRel.refl (p : FPath) (s : Sess) : CleanRel p s s :=
  ⟨fun _ _ => rfl, fun _ _ => rfl, fun _ _ => rfl, fun _ => Or.inl rfl,
   fun _ h => h, fun _ h => h, fun _ hne => absurd rfl hne,
   fun _ => Or.inl rfl, fun _ => Or.inl rfl⟩

theorem CleanRel.trans {p : FPath} {a b c : Sess} (h1 : CleanRel p a b)
    (h2 : CleanRel p b c) : CleanRel p a c := by
  obtain ⟨f1, l1, d1, m1, sf1, sd1, r1, af1, ad1⟩ := h1
  obtain ⟨f2, l2, d2, m2, sf2, sd2, r2, af2, ad2⟩ := h2
  refine ⟨?_, ?_, ?_, ?_, ?_, ?_, ?_, ?_, ?_⟩
  · intro q hq; rw [f2 q hq, f1 q hq]
  · intro q hq; rw [l2 q hq, l1 q hq]
  · intro q hq; rw [d2 q hq, d1 q hq]
  · intro q
    cases m2 q with
    | inl h => rw [h]; exact m1 q
    | inr h => exact Or.inr h
  · intro kv hkv; exact sf1 kv (sf2 kv hkv)
  · intro kv hkv; exact sd1 kv (sd2 kv hkv)
  · intro q hne
    by_cases hb : FS.get b.fs q = FS.get a.fs q
    · have : FS.get c.fs q ≠ FS.get b.fs q := by rw [hb]; exact hne
      cases r2 q this with
      | inl h =>
        obtain ⟨kv, hmem, hk, hn, he⟩ := h
        exact Or.inl ⟨kv, sf1 kv hmem, hk, hn, he⟩
      | inr h =>
        obtain ⟨kv, hmem, hk, ht⟩ := h
        exact Or.inr ⟨kv, sd1 kv hmem, hk, ht⟩
    · exact r1 q hb
  · intro q
    cases af2 q with
    | inl h => rw [h]; exact af1 q
    | inr h => exact Or.inr h
  · intro q
    cases ad2 q with
    | inl h => rw [h]; exact ad1 q
    | inr h => exact Or.inr h

/-- Widening: what a pass at a child cannot touch includes what a pass
at the parent cannot touch. -/
theorem CleanRel.widen {p : FPath} {n : Seg} {a b : Sess}
    (h : CleanRel (p ++ [n]) a b) : CleanRel p a b := by
  obtain ⟨f1, l1, d1, m1, sf1, sd1, r1, af1, ad1⟩ := h
  have hout : ∀ q : FPath, ¬ isPre p q = true → ¬ isPre (p ++ [n]) q = true :=
    fun q hq hcon => hq (isPre_child_elim hcon)
  exact ⟨fun q hq => f1 q (hout q hq), fun q hq => l1 q (hout q hq),
    fun q hq => d1 q (hout q hq), m1, sf1, sd1, r1, af1, ad1⟩

/-- Fold a step function over a list, carrying a transitive relation
established by each step, together with a side invariant. -/
theorem foldl_rel {β : Type} (P : Sess → Sess → Prop) (I : Sess → Prop)
    (hrefl : ∀ s, P s s)
    (htrans : ∀ {a b c}, P a b → P b c → P a c)
    (l : List β) (step : Sess × Bool → β → Sess × Bool)
    (hstep : ∀ sb x, x ∈ l → I sb.1 → P sb.1 (step sb x).1 ∧ I (step sb x).1) :
    ∀ sb, I sb.1 → P sb.1 (l.foldl step sb).1 ∧ I (l.foldl step sb).1 := by
  induction l with
  | nil => intro sb hI; exact ⟨hrefl _, hI⟩
  | cons x xs ih =>
    intro sb hI
    have hx := hstep sb x (List.mem_cons_self x xs) hI
    have hr := ih (fun sb' y hy hI' => hstep sb' y (List.mem_cons_of_mem x hy) hI')
      (step sb x) hx.2
    exact ⟨htrans hx.1 hr.1, hr.2⟩

/-- disposeUnused leaves the tracking maps alone. -/
theorem disposeUnused_maps (s : Sess) (q : FPath) (fut : FutFile) :
    ((disposeUnused s q fut).1).files = s.files ∧
    ((disposeUnused s q fut).1).dirs = s.dirs ∧
    ((disposeUnused s q fut).1).umask = s.umask := by
  unfold disposeUnused
  by_cases he : fut.err = true
  · rw [if_pos he]
    exact ⟨rfl, rfl, rfl⟩
  · rw [if_neg he]
    by_cases hn : fut.isNew = true
    · rw [if_pos hn]
      cases hg : FS.get s.fs q with
      | none => exact ⟨rfl, rfl, rfl⟩
      | some e => exact ⟨rfl, rfl, rfl⟩
    · rw [if_neg hn]
      exact ⟨rfl, rfl, rfl⟩

/-- The filesystem effect of disposeUnused: at most the erasure of its
own path, and only for a successfully created new file. -/
theorem disposeUnused_fs (s : Sess) (q : FPath) (fut : FutFile) (q' : FPath) :
    FS.get ((disposeUnused s q fut).1).fs q' = FS.get s.fs q' ∨
    (q' = q ∧ fut.isNew = true ∧ fut.err = false ∧
      FS.get ((disposeUnused s q fut).1).fs q' = none) := by
  have hcases : ((disposeUnused s q fut).1).fs = s.fs ∨
      (fut.isNew = true ∧ fut.err = false ∧
        ((disposeUnused s q fut).1).fs = FS.erase s.fs q) := by
    unfold disposeUnused
    by_cases he : fut.err = true
    · rw [if_pos he]
      exact Or.inl rfl
    · rw [if_neg he]
      by_cases hn : fut.isNew = true
      · rw [if_pos hn]
        cases hg : FS.get s.fs q with
        | none => exact Or.inl rfl
        | some e => exact Or.inr ⟨hn, by simpa using he, rfl⟩
      · rw [if_neg hn]
        exact Or.inl rfl
  cases hcases with
  | inl h => exact Or.inl (by rw [h])
  | inr h =>
    obtain ⟨hn, he2, hfs⟩ := h
    by_cases hq : q' = q
    · subst hq
      exact Or.inr ⟨rfl, hn, he2, by rw [hfs, FS.get_erase, if_pos rfl]⟩
    · exact Or.inl (by rw [hfs, FS.get_erase, if_neg hq])

/-- Looking up in a list filtered by a key-only predicate. -/
theorem alookup_filter_key {κ α : Type} [DecidableEq κ] (l : List (κ × α))
    (pred : κ → Bool) (k : κ) :
    alookup (l.filter (fun kv => pred kv.1)) k =
      if pred k = true then alookup l k else none := by
  induction l with
  | nil => by_cases h : pred k = true <;> simp [alookup_nil, h]
  | cons kv l ih =>
    rw [List.filter_cons]
    by_cases hkv : pred kv.1 = true
    · rw [if_pos hkv, alookup_cons, alookup_cons]
      by_cases hk : kv.1 = k
      · rw [if_pos hk, if_pos (hk ▸ hkv), if_pos hk]
      · rw [if_neg hk, if_neg hk, ih]
    · rw [if_neg hkv, ih]
      by_cases hpk : pred k = true
      · rw [if_pos hpk, if_pos hpk, alookup_cons]
        have hk : ¬ kv.1 = k := fun he => hkv (he ▸ hpk)
        rw [if_neg hk]
      · rw [if_neg hpk, if_neg hpk]

/-- The relation established by one disposeStep. -/
theorem disposeStep_rel (p : FPath) (s : Sess) (sb : Sess × Bool)
    (kv : FPath × FutFile) (hkid : (FS.childName? p kv.1).isSome = true)
    (hmem : kv ∈ s.files) (hI : sb.1.files = s.files) :
    CleanRel p sb.1 ((disposeStep sb kv).1) ∧
    ((disposeStep sb kv).1).files = s.files := by
  have hpre : isPre p kv.1 = true := by
    obtain ⟨n, hn⟩ := FS.childName?_isSome_iff.mp hkid
    rw [hn]
    exact isPre_append p [n]
  have hmaps := disposeUnused_maps sb.1 kv.1 kv.2
  have hstep1 : (disposeStep sb kv).1 = (disposeUnused sb.1 kv.1 kv.2).1 := by
    unfold disposeStep
    rfl
  rw [hstep1]
  refine ⟨⟨?_, ?_, ?_, ?_, ?_, ?_, ?_, ?_, ?_⟩, by rw [hmaps.1, hI]⟩
  · intro q hq
    cases disposeUnused_fs sb.1 kv.1 kv.2 q with
    | inl h => exact h
    | inr h => exact absurd (h.1 ▸ hpre) hq
  · intro q _; rw [hmaps.1]
  · intro q _; rw [hmaps.2.1]
  · intro q
    cases disposeUnused_fs sb.1 kv.1 kv.2 q with
    | inl h => exact Or.inl h
    | inr h => exact Or.inr h.2.2.2
  · intro kv2 h2; rw [hmaps.1] at h2; exact h2
  · intro kv2 h2; rw [hmaps.2.1] at h2; exact h2
  · intro q hne
    cases disposeUnused_fs sb.1 kv.1 kv.2 q with
    | inl h => exact absurd h hne
    | inr h =>
      exact Or.inl ⟨kv, hI ▸ hmem, h.1.symm, h.2.1, h.2.2.1⟩
  · intro q; rw [hmaps.1]; exact Or.inl rfl
  · intro q; rw [hmaps.2.1]; exact Or.inl rfl

/-- A successful lookup has a corresponding member. -/
theorem alookup_mem {κ α : Type} [DecidableEq κ] {l : List (κ × α)} {k : κ}
    {a : α} (h : alookup l k = some a) : (k, a) ∈ l := by
  unfold alookup at h
  cases hf : l.find? (fun kv => kv.1 = k) with
  | none => rw [hf] at h; cases h
  | some kv =>
    rw [hf] at h
    have hmem := List.mem_of_find?_eq_some hf
    have hk := List.find?_some hf
    simp only [decide_eq_true_eq] at hk
    cases kv with
    | mk k2 a2 =>
      simp only [] at hk h
      cases h with
      | refl =>
        rw [← hk]
        exact hmem

/-- The child-map clearing performed by cleanTail. -/
theorem cleanTail_files_eq (s : Sess) (p : FPath) :
    ((cleanTail s p).1).files =
      s.files.filter (fun kv => ¬ (FS.childName? p kv.1).isSome) := by
  unfold cleanTail
  by_cases hflag : (({ s with
      files := s.files.filter (fun kv => ¬ (FS.childName? p kv.1).isSome),
      dirs := s.dirs.filter (fun kv => ¬ (FS.childName? p kv.1).isSome) } : Sess).dirFlag p
      = some true)
  · rw [if_pos hflag]
    cases p with
    | nil => rfl
    | cons a as =>
      cases hg : FS.get s.fs (a :: as) with
      | none => rfl
      | some e =>
        cases e with
        | file c pm => rfl
        | dir pm =>
          by_cases hemp : (FS.childNames s.fs (a :: as)).isEmpty = true
          · rw [if_pos hemp]
          · rw [if_neg hemp]
  · rw [if_neg hflag]

theorem cleanTail_dirs_eq (s : Sess) (p : FPath) :
    ((cleanTail s p).1).dirs =
      s.dirs.filter (fun kv => ¬ (FS.childName? p kv.1).isSome) := by
  unfold cleanTail
  by_cases hflag : (({ s with
      files := s.files.filter (fun kv => ¬ (FS.childName? p kv.1).isSome),
      dirs := s.dirs.filter (fun kv => ¬ (FS.childName? p kv.1).isSome) } : Sess).dirFlag p
      = some true)
  · rw [if_pos hflag]
    cases p with
    | nil => rfl
    | cons a as =>
      cases hg : FS.get s.fs (a :: as) with
      | none => rfl
      | some e =>
        cases e with
        | file c pm => rfl
        | dir pm =>
          by_cases hemp : (FS.childNames s.fs (a :: as)).isEmpty = true
          · rw [if_pos hemp]
          · rw [if_neg hemp]
  · rw [if_neg hflag]

theorem cleanTail_fs_eq (s : Sess) (p : FPath) :
    ((cleanTail s p).1).fs = s.fs ∨
    (alookup s.dirs p = some true ∧
      ((cleanTail s p).1).fs = FS.erase s.fs p) := by
  unfold cleanTail
  by_cases hflag : (({ s with
      files := s.files.filter (fun kv => ¬ (FS.childName? p kv.1).isSome),
      dirs := s.dirs.filter (fun kv => ¬ (FS.childName? p kv.1).isSome) } : Sess).dirFlag p
      = some true)
  · have hflag0 : alookup s.dirs p = some true := by
      have hx := hflag
      unfold Sess.dirFlag at hx
      rw [alookup_filter_key s.dirs
        (fun x => ¬ (FS.childName? p x).isSome) p] at hx
      by_cases hcn : ((¬ (FS.childName? p p).isSome : Bool) = true)
      · rw [if_pos hcn] at hx; exact hx
      · rw [if_neg hcn] at hx; cases hx
    rw [if_pos hflag]
    cases p with
    | nil => exact Or.inl rfl
    | cons a as =>
      cases hg : FS.get s.fs (a :: as) with
      | none => exact Or.inl rfl
      | some e =>
        cases e with
        | file c pm => exact Or.inl rfl
        | dir pm =>
          by_cases hemp : (FS.childNames s.fs (a :: as)).isEmpty = true
          · rw [if_pos hemp]
            exact Or.inr ⟨hflag0, rfl⟩
          · rw [if_neg hemp]
            exact Or.inl rfl
  · rw [if_neg hflag]
    exact Or.inl rfl

/-- The relation established by cleanTail. -/
theorem cleanTail_rel (s : Sess) (p : FPath) :
    CleanRel p s ((cleanTail s p).1) := by
  have hkeyout : ∀ q : FPath, ¬ isPre p q = true →
      ((¬ (FS.childName? p q).isSome : Bool) = true) := by
    intro q hq
    cases hcn : (FS.childName? p q).isSome with
    | false => simp [hcn]
    | true =>
      obtain ⟨n, hn⟩ := FS.childName?_isSome_iff.mp hcn
      exact absurd (hn ▸ isPre_append p [n]) hq
  have hfilesq : ∀ q, alookup ((cleanTail s p).1).files q =
      if (¬ (FS.childName? p q).isSome : Bool) = true
      then alookup s.files q else none := by
    intro q
    rw [cleanTail_files_eq]
    exact alookup_filter_key s.files (fun x => ¬ (FS.childName? p x).isSome) q
  have hdirsq : ∀ q, alookup ((cleanTail s p).1).dirs q =
      if (¬ (FS.childName? p q).isSome : Bool) = true
      then alookup s.dirs q else none := by
    intro q
    rw [cleanTail_dirs_eq]
    exact alookup_filter_key s.dirs (fun x => ¬ (FS.childName? p x).isSome) q
  refine ⟨?_, ?_, ?_, ?_, ?_, ?_, ?_, ?_, ?_⟩
  · intro q hq
    cases cleanTail_fs_eq s p with
    | inl h => rw [h]
    | inr h =>
      rw [h.2, FS.get_erase, if_neg (fun he : q = p => hq (he ▸ isPre_refl p))]
  · intro q hq
    rw [hfilesq q, if_pos (hkeyout q hq)]
  · intro q hq
    rw [hdirsq q, if_pos (hkeyout q hq)]
  · intro q
    cases cleanTail_fs_eq s p with
    | inl h => rw [h]; exact Or.inl rfl
    | inr h =>
      rw [h.2, FS.get_erase]
      by_cases hq : q = p
      · rw [if_pos hq]; exact Or.inr rfl
      · rw [if_neg hq]; exact Or.inl rfl
  · intro kv hkv
    rw [cleanTail_files_eq] at hkv
    exact (List.mem_filter.mp hkv).1
  · intro kv hkv
    rw [cleanTail_dirs_eq] at hkv
    exact (List.mem_filter.mp hkv).1
  · intro q hne
    cases cleanTail_fs_eq s p with
    | inl h => exact absurd (by rw [h]) hne
    | inr h =>
      by_cases hq : q = p
      · subst hq
        exact Or.inr ⟨(q, true), alookup_mem h.1, rfl, rfl⟩
      · exact absurd (by rw [h.2, FS.get_erase, if_neg hq]) hne
  · intro q
    rw [hfilesq q]
    by_cases hcn : ((¬ (FS.childName? p q).isSome : Bool) = true)
    · rw [if_pos hcn]; exact Or.inl rfl
    · rw [if_neg hcn]; exact Or.inr rfl
  · intro q
    rw [hdirsq q]
    by_cases hcn : ((¬ (FS.childName? p q).isSome : Bool) = true)
    · rw [if_pos hcn]; exact Or.inl rfl
    · rw [if_neg hcn]; exact Or.inr rfl

/-- The frame relation holds of a whole cleanup pass. -/
theorem clean_rel : ∀ (fuel : Nat) (s : Sess) (p : FPath),
    CleanRel p s ((clean fuel s p).1) := by
  intro fuel
  induction fuel with
  | zero => intro s p; exact CleanRel.refl p s
  | succ fuel ih =>
    intro s p
    have hstep1 : ∀ (sb : Sess × Bool) (kv : FPath × FutFile),
        kv ∈ s.files.filter (fun kv => (FS.childName? p kv.1).isSome) →
        sb.1.files = s.files →
        CleanRel p sb.1 ((disposeStep sb kv).1) ∧
        ((disposeStep sb kv).1).files = s.files := by
      intro sb kv hkv hI
      have hmem := (List.mem_filter.mp hkv).1
      have hkid := (List.mem_filter.mp hkv).2
      exact disposeStep_rel p s sb kv (by simpa using hkid) hmem hI
    have hfold1 := foldl_rel (CleanRel p) (fun s0 => s0.files = s.files)
      (CleanRel.refl p) (fun h1 h2 => CleanRel.trans h1 h2)
      (s.files.filter (fun kv => (FS.childName? p kv.1).isSome))
      disposeStep hstep1 (s, true) rfl
    have hstep2 : ∀ (sb : Sess × Bool) (q : FPath),
        q ∈ s.dirs.filterMap
          (fun kv => if (FS.childName? p kv.1).isSome then some kv.1 else none) →
        True →
        CleanRel p sb.1
          (((fun (acc : Sess × Bool) (q : FPath) =>
            let (s0, ok0) := acc
            let (s1, ok1) := clean fuel s0 q
            (s1, ok0 && ok1)) sb q).1) ∧ True := by
      intro sb q hq _
      obtain ⟨kv, hkvmem, hkv⟩ := List.mem_filterMap.mp hq
      refine ⟨?_, trivial⟩
      by_cases hsome : (FS.childName? p kv.1).isSome = true
      · rw [if_pos hsome] at hkv
        cases hkv with
        | refl =>
          obtain ⟨n, hn⟩ := FS.childName?_isSome_iff.mp hsome
          show CleanRel p sb.1 ((clean fuel sb.1 kv.1).1)
          rw [hn]
          exact CleanRel.widen (ih sb.1 (p ++ [n]))
      · rw [if_neg hsome] at hkv
        cases hkv
    have hfold2 := foldl_rel (CleanRel p) (fun _ => True)
      (CleanRel.refl p) (fun h1 h2 => CleanRel.trans h1 h2)
      (s.dirs.filterMap
        (fun kv => if (FS.childName? p kv.1).isSome then some kv.1 else none))
      (fun (acc : Sess × Bool) (q : FPath) =>
        let (s0, ok0) := acc
        let (s1, ok1) := clean fuel s0 q
        (s1, ok0 && ok1)) hstep2
      ((s.files.filter (fun kv => (FS.childName? p kv.1).isSome)).foldl
        disposeStep (s, true)) trivial
    have hcomb : CleanRel p s
        (((s.dirs.filterMap
          (fun kv => if (FS.childName? p kv.1).isSome then some kv.1 else none)).foldl
          (fun (acc : Sess × Bool) (q : FPath) =>
            let (s0, ok0) := acc
            let (s1, ok1) := clean fuel s0 q
            (s1, ok0 && ok1))
          ((s.files.filter (fun kv => (FS.childName? p kv.1).isSome)).foldl
            disposeStep (s, true))).1) :=
      CleanRel.trans hfold1.1 hfold2.1
    simp only [clean]
    split
    next hok => exact hcomb
    next hok => exact CleanRel.trans hcomb (cleanTail_rel _ p)

/-- The dispose fold can only erase filesystem entries. -/
theorem fold_dispose_mono (kids : List (FPath × FutFile)) :
    ∀ (sb : Sess × Bool) (q : FPath),
      FS.get ((kids.foldl disposeStep sb).1).fs q = FS.get sb.1.fs q ∨
      FS.get ((kids.foldl disposeStep sb).1).fs q = none := by
  induction kids with
  | nil => intro sb q; exact Or.inl rfl
  | cons kv rest ih =>
    intro sb q
    rw [List.foldl_cons]
    have hstep : FS.get ((disposeStep sb kv).1).fs q = FS.get sb.1.fs q ∨
        FS.get ((disposeStep sb kv).1).fs q = none := by
      cases disposeUnused_fs sb.1 kv.1 kv.2 q with
      | inl h => exact Or.inl h
      | inr h => exact Or.inr h.2.2.2
    cases ih (disposeStep sb kv) q with
    | inl h => rw [h]; exact hstep
    | inr h => exact Or.inr h

/-- The dispose fold unlinks every isNew child file it covers. -/
theorem fold_dispose_none (kids : List (FPath × FutFile)) :
    ∀ (sb : Sess × Bool) (q : FPath) (fut : FutFile),
      (q, fut) ∈ kids → fut.isNew = true → fut.err = false →
      FS.get ((kids.foldl disposeStep sb).1).fs q = none := by
  induction kids with
  | nil => intro sb q fut h; cases h
  | cons kv rest ih =>
    intro sb q fut hmem hn he
    rw [List.foldl_cons]
    cases List.mem_cons.mp hmem with
    | inl heq =>
      subst heq
      have h1 : FS.get ((disposeStep sb (q, fut)).1).fs q = none := by
        show FS.get ((disposeUnused sb.1 q fut).1).fs q = none
        unfold disposeUnused
        rw [if_neg (by simp [he]), if_pos hn]
        cases hg : FS.get sb.1.fs q with
        | none => exact hg
        | some e => simp [Sess.closeH, FS.get_erase]
      cases fold_dispose_mono rest (disposeStep sb (q, fut)) q with
      | inl h => rw [h]; exact h1
      | inr h => exact h
    | inr hrest => exact ih (disposeStep sb kv) q fut hrest hn he

/-- The cleanup recursion over tracked children can only erase. -/
theorem fold_clean_mono (fuel : Nat) (L : List FPath) :
    ∀ (sb : Sess × Bool) (q : FPath),
      FS.get ((L.foldl (fun (acc : Sess × Bool) (c : FPath) =>
        let (s0, ok0) := acc
        let (s1, ok1) := clean fuel s0 c
        (s1, ok0 && ok1)) sb).1).fs q = FS.get sb.1.fs q ∨
      FS.get ((L.foldl (fun (acc : Sess × Bool) (c : FPath) =>
        let (s0, ok0) := acc
        let (s1, ok1) := clean fuel s0 c
        (s1, ok0 && ok1)) sb).1).fs q = none := by
  induction L with
  | nil => intro sb q; exact Or.inl rfl
  | cons c rest ih =>
    intro sb q
    rw [List.foldl_cons]
    have hstep := (clean_rel fuel sb.1 c).2.2.2.1 q
    cases ih ((fun (acc : Sess × Bool) (c : FPath) =>
        let (s0, ok0) := acc
        let (s1, ok1) := clean fuel s0 c
        (s1, ok0 && ok1)) sb c) q with
    | inl h =>
      rw [h]
      exact hstep
    | inr h => exact Or.inr h

/-- cleanTail can only erase. -/
theorem cleanTail_fs_mono (s : Sess) (p : FPath) (q : FPath) :
    FS.get ((cleanTail s p).1).fs q = FS.get s.fs q ∨
    FS.get ((cleanTail s p).1).fs q = none :=
  (cleanTail_rel s p).2.2.2.1 q

/-- The dispose fold leaves the tracking maps alone. -/
theorem fold_dispose_maps (kids : List (FPath × FutFile)) :
    ∀ (sb : Sess × Bool),
      ((kids.foldl disposeStep sb).1).files = sb.1.files ∧
      ((kids.foldl disposeStep sb).1).dirs = sb.1.dirs := by
  induction kids with
  | nil => intro sb; exact ⟨rfl, rfl⟩
  | cons kv rest ih =>
    intro sb
    rw [List.foldl_cons]
    have hmaps := disposeUnused_maps sb.1 kv.1 kv.2
    have hr := ih (disposeStep sb kv)
    constructor
    · rw [hr.1]
      exact hmaps.1
    · rw [hr.2]
      exact hmaps.2.1

/-- Cleanup from node p unlinks a tracked isNew speculativeFile at q
whenever the chain of directory nodes from p down to the parent of q is
tracked and the fuel covers the depth. -/
theorem clean_unlinks : ∀ (fuel : Nat) (s : Sess) (p d q : FPath)
    (fut : FutFile),
    isPre p d = true →
    (∀ r, isPre p r = true → isPre r d = true → alookup s.dirs r ≠ none) →
    q.dropLast = d → q ≠ [] →
    alookup s.files q = some fut → fut.isNew = true → fut.err = false →
    d.length - p.length + 1 ≤ fuel →
    FS.get ((clean fuel s p).1).fs q = none := by
  intro fuel
  induction fuel with
  | zero =>
    intro s p d q fut _ _ _ _ _ _ _ hf
    omega
  | succ fuel ih =>
    intro s p d q fut hpd hchain hqd hqne hfq hn he hfuel
    have hqx : q = d ++ [q.getLast hqne] := by
      rw [← hqd]
      exact (List.dropLast_append_getLast hqne).symm
    have hdq : isPre d q = true := isPre_iff.mpr ⟨[q.getLast hqne], hqx⟩
    by_cases hdp : d = p
    · subst hdp
      have hmemfile : (q, fut) ∈ s.files := alookup_mem hfq
      have hsome : FS.childName? d q = some (q.getLast hqne) :=
        FS.childName?_eq_some.mpr hqx
      have hmemkids : (q, fut) ∈ s.files.filter
          (fun kv => (FS.childName? d kv.1).isSome) :=
        List.mem_filter.mpr ⟨hmemfile, by simp [hsome]⟩
      have h1 : FS.get (((s.files.filter
          (fun kv => (FS.childName? d kv.1).isSome)).foldl
          disposeStep (s, true)).1).fs q = none :=
        fold_dispose_none _ (s, true) q fut hmemkids hn he
      have h2 : FS.get (((s.dirs.filterMap
          (fun kv => if (FS.childName? d kv.1).isSome then some kv.1 else none)).foldl
          (fun (acc : Sess × Bool) (c : FPath) =>
            let (s0, ok0) := acc
            let (s1, ok1) := clean fuel s0 c
            (s1, ok0 && ok1))
          ((s.files.filter (fun kv => (FS.childName? d kv.1).isSome)).foldl
            disposeStep (s, true))).1).fs q = none := by
        cases fold_clean_mono fuel _
          ((s.files.filter (fun kv => (FS.childName? d kv.1).isSome)).foldl
            disposeStep (s, true)) q with
        | inl h => rw [h]; exact h1
        | inr h => exact h
      simp only [clean]
      split
      next hok => exact h2
      next hok =>
        cases cleanTail_fs_mono (((s.dirs.filterMap
            (fun kv => if (FS.childName? d kv.1).isSome then some kv.1 else none)).foldl
            (fun (acc : Sess × Bool) (c : FPath) =>
              let (s0, ok0) := acc
              let (s1, ok1) := clean fuel s0 c
              (s1, ok0 && ok1))
            ((s.files.filter (fun kv => (FS.childName? d kv.1).isSome)).foldl
              disposeStep (s, true))).1) d q with
        | inl h => rw [h]; exact h2
        | inr h => exact h
    · -- descend through the tracked child on the chain towards d
      obtain ⟨rest0, hrest0⟩ := isPre_iff.mp hpd
      cases rest0 with
      | nil => exact absurd (by rw [hrest0]; simp) hdp
      | cons n rest1 =>
        have hcd : isPre (p ++ [n]) d = true :=
          isPre_iff.mpr ⟨rest1, by rw [hrest0]; simp⟩
        have hcq : isPre (p ++ [n]) q = true := isPre_trans hcd hdq
        have hdeep : p.length + 1 ≤ d.length := by
          rw [hrest0]
          simp
        have hcdirs : alookup s.dirs (p ++ [n]) ≠ none :=
          hchain (p ++ [n]) (isPre_append p [n]) hcd
        obtain ⟨flag, hflag⟩ : ∃ f, alookup s.dirs (p ++ [n]) = some f := by
          cases hl : alookup s.dirs (p ++ [n]) with
          | none => exact absurd hl hcdirs
          | some f => exact ⟨f, rfl⟩
        have hmemdirs : (p ++ [n], flag) ∈ s.dirs := alookup_mem hflag
        have hcnp : FS.childName? p (p ++ [n]) = some n :=
          FS.childName?_eq_some.mpr rfl
        have hmdk : (p ++ [n]) ∈ s.dirs.filterMap
            (fun kv => if (FS.childName? p kv.1).isSome then some kv.1 else none) :=
          List.mem_filterMap.mpr ⟨(p ++ [n], flag), hmemdirs, by
            simp [hcnp]⟩
        -- the general statement about the dirs fold
        have hfold : ∀ (L : List FPath), (∀ y ∈ L, ∃ m, y = p ++ [m]) →
            ∀ (sb : Sess × Bool), (p ++ [n]) ∈ L →
            (∀ r, isPre (p ++ [n]) r = true → isPre r d = true →
              alookup sb.1.dirs r ≠ none) →
            alookup sb.1.files q = some fut →
            FS.get ((L.foldl (fun (acc : Sess × Bool) (c : FPath) =>
              let (s0, ok0) := acc
              let (s1, ok1) := clean fuel s0 c
              (s1, ok0 && ok1)) sb).1).fs q = none := by
          intro L
          induction L with
          | nil =>
            intro _ sb hmem
            cases hmem
          | cons c0 rest ihL =>
            intro hshape sb hmem hchain2 hfq2
            rw [List.foldl_cons]
            by_cases hcc : c0 = p ++ [n]
            · have hnone : FS.get ((clean fuel sb.1 c0).1).fs q = none := by
                apply ih sb.1 c0 d q fut (by rw [hcc]; exact hcd)
                  (by rw [hcc]; exact hchain2) hqd hqne hfq2 hn he
                rw [hcc]
                simp only [List.length_append, List.length_cons,
                  List.length_nil]
                omega
              cases fold_clean_mono fuel rest
                ((fun (acc : Sess × Bool) (c : FPath) =>
                  let (s0, ok0) := acc
                  let (s1, ok1) := clean fuel s0 c
                  (s1, ok0 && ok1)) sb c0) q with
              | inl h =>
                rw [h]
                exact hnone
              | inr h => exact h
            · obtain ⟨m, hm⟩ := hshape c0 (List.mem_cons_self c0 rest)
              have hnm : m ≠ n := fun hmn => hcc (by rw [hm, hmn])
              have hrel := clean_rel fuel sb.1 c0
              have hchain3 : ∀ r, isPre (p ++ [n]) r = true →
                  isPre r d = true →
                  alookup ((clean fuel sb.1 c0).1).dirs r ≠ none := by
                intro r hr1 hr2
                have hout : ¬ isPre c0 r = true := by
                  have hdisj := isPre_child_disjoint
                    (fun hx => hnm hx.symm) hr1
                  rw [hm]
                  simp [hdisj]
                rw [hrel.2.2.1 r hout]
                exact hchain2 r hr1 hr2
              have hfq3 : alookup ((clean fuel sb.1 c0).1).files q = some fut := by
                have houtq : ¬ isPre c0 q = true := by
                  have hdisj := isPre_child_disjoint
                    (fun hx => hnm hx.symm) hcq
                  rw [hm]
                  simp [hdisj]
                rw [hrel.2.1 q houtq]
                exact hfq2
              have hmem2 : (p ++ [n]) ∈ rest := by
                cases List.mem_cons.mp hmem with
                | inl h => exact absurd h.symm hcc
                | inr h => exact h
              exact ihL (fun y hy => hshape y (List.mem_cons_of_mem c0 hy))
                ((fun (acc : Sess × Bool) (c : FPath) =>
                  let (s0, ok0) := acc
                  let (s1, ok1) := clean fuel s0 c
                  (s1, ok0 && ok1)) sb c0) hmem2 hchain3 hfq3
        -- instantiate at the real dirs fold
        have hshapeAll : ∀ y ∈ s.dirs.filterMap
            (fun kv => if (FS.childName? p kv.1).isSome then some kv.1 else none),
            ∃ m, y = p ++ [m] := by
          intro y hy
          obtain ⟨kv, hkvmem, hkv⟩ := List.mem_filterMap.mp hy
          by_cases hsome : (FS.childName? p kv.1).isSome = true
          · rw [if_pos hsome] at hkv
            cases hkv with
            | refl =>
              obtain ⟨m, hm⟩ := FS.childName?_isSome_iff.mp hsome
              exact ⟨m, hm⟩
          · rw [if_neg hsome] at hkv
            cases hkv
        have hmapsAb := fold_dispose_maps
          (s.files.filter (fun kv => (FS.childName? p kv.1).isSome)) (s, true)
        have h2 := hfold
          (s.dirs.filterMap
            (fun kv => if (FS.childName? p kv.1).isSome then some kv.1 else none))
          hshapeAll
          ((s.files.filter (fun kv => (FS.childName? p kv.1).isSome)).foldl
            disposeStep (s, true))
          hmdk
          (by
            intro r hr1 hr2
            rw [hmapsAb.2]
            exact hchain r (isPre_trans (isPre_append p [n]) hr1) hr2)
          (by rw [hmapsAb.1]; exact hfq)
        simp only [clean]
        split
        next hok => exact h2
        next hok =>
          cases cleanTail_fs_mono (((s.dirs.filterMap
              (fun kv => if (FS.childName? p kv.1).isSome then some kv.1 else none)).foldl
              (fun (acc : Sess × Bool) (c : FPath) =>
                let (s0, ok0) := acc
                let (s1, ok1) := clean fuel s0 c
                (s1, ok0 && ok1))
              ((s.files.filter (fun kv => (FS.childName? p kv.1).isSome)).foldl
                disposeStep (s, true))).1) p q with
          | inl h => rw [h]; exact h2
          | inr h => exact h

/-- All prefixes of a path, as a list (for decidable side conditions). -/
def prefixes : FPath → List FPath
  | [] => [[]]
  | a :: as => [] :: (prefixes as).map (fun r => a :: r)

theorem mem_prefixes {r d : FPath} : r ∈ prefixes d ↔ isPre r d = true := by
  induction d generalizing r with
  | nil =>
    cases r with
    | nil => simp [prefixes, isPre]
    | cons b bs => simp [prefixes, isPre]
  | cons a as ih =>
    cases r with
    | nil => simp [prefixes, isPre]
    | cons b bs =>
      simp only [prefixes, List.mem_cons, List.mem_map]
      constructor
      · intro h
        cases h with
        | inl h => cases h
        | inr h =>
          obtain ⟨r', hr', he⟩ := h
          cases he with
          | refl =>
            have : isPre bs as = true := ih.mp hr'
            simp [isPre, this]
      · intro h
        by_cases hab : b = a
        · subst hab
          have hred : isPre (b :: bs) (b :: as) = isPre bs as := by
            simp [isPre]
          rw [hred] at h
          exact Or.inr ⟨bs, ih.mpr h, rfl⟩
        · have : isPre (b :: bs) (a :: as) = false := by
            simp [isPre, hab]
          rw [this] at h
          cases h

theorem mem_key_length_le {l : List (FPath × Bool)} {k : FPath} {v : Bool}
    (hmem : (k, v) ∈ l) :
    k.length ≤ (l.map (fun kv => kv.1.length)).foldr max 0 := by
  induction l with
  | nil => cases hmem
  | cons kv rest ih =>
    rw [List.map_cons, List.foldr_cons]
    cases List.mem_cons.mp hmem with
    | inl he =>
      have : k.length = kv.1.length := by rw [← he]
      rw [this]
      exact le_max_left _ _
    | inr hr => exact le_trans (ih hr) (le_max_right _ _)

/-- The finalization pass satisfies the cleanup frame relation (rooted
at the tree root, so only the shrinking components carry content). -/
theorem sessFinalize_rel (s : Sess) : CleanRel [] s (sessFinalize s) := by
  unfold sessFinalize
  by_cases hf : s.finalized = true
  · rw [if_pos hf]
    exact CleanRel.refl [] s
  · rw [if_neg hf]
    exact clean_rel (cleanFuel s) s []

/-- Finalization keeps a filesystem entry that is neither a pending new
speculative file nor a speculative directory node. -/
theorem sessFinalize_fs_keep (s : Sess) (q : FPath)
    (hfile : ∀ kv, kv ∈ s.files → kv.1 = q →
      ¬ (kv.2.isNew = true ∧ kv.2.err = false))
    (hdir : ∀ kv, kv ∈ s.dirs → kv.1 = q → kv.2 ≠ true) :
    FS.get (sessFinalize s).fs q = FS.get s.fs q := by
  have h := (sessFinalize_rel s).2.2.2.2.2.2.1
  by_contra hne
  cases h q hne with
  | inl h2 =>
    obtain ⟨kv, hm, hk, hn2, he2⟩ := h2
    exact hfile kv hm hk ⟨hn2, he2⟩
  | inr h2 =>
    obtain ⟨kv, hm, hk, ht⟩ := h2
    exact hdir kv hm hk ht

/-- Finalization unlinks a registered isNew speculativeFile whose parent
chain of directory nodes is tracked. -/
theorem sessFinalize_unlinks (s : Sess) (q : FPath) (fut : FutFile)
    (hfin : s.finalized = false)
    (hchain : ∀ r, r ∈ prefixes q.dropLast → alookup s.dirs r ≠ none)
    (hqne : q ≠ [])
    (hfq : alookup s.files q = some fut)
    (hn : fut.isNew = true) (he : fut.err = false) :
    FS.get (sessFinalize s).fs q = none := by
  unfold sessFinalize
  rw [if_neg (by simp [hfin])]
  show FS.get ((clean (cleanFuel s) s []).1).fs q = none
  apply clean_unlinks (cleanFuel s) s [] q.dropLast q fut (isPre_nil _)
    (fun r _ hr2 => hchain r (mem_prefixes.mpr hr2)) rfl hqne hfq hn he
  have hd := hchain q.dropLast (mem_prefixes.mpr (isPre_refl _))
  obtain ⟨f, hfd⟩ : ∃ f, alookup s.dirs q.dropLast = some f := by
    cases hl : alookup s.dirs q.dropLast with
    | none => exact absurd hl hd
    | some f => exact ⟨f, rfl⟩
  have hlen := mem_key_length_le (alookup_mem hfd)
  unfold cleanFuel
  omega

/-- Unpacking a successful findSpeculativeFile. -/
theorem sessFindFile_files {s : Sess} {p : FPath} {fut : FutFile}
    (h : sessFindFile s p = some fut) : alookup s.files p = some fut := by
  unfold sessFindFile at h
  cases hl : p.getLast? with
  | none => rw [hl] at h; cases h
  | some x =>
    rw [hl] at h
    cases hd : sessFindDir s p.dropLast with
    | none => rw [hd] at h; cases h
    | some d => rw [hd] at h; exact h

/-- findDirInternal reads the dirs map only. -/
theorem findDirInternal_congr (s s' : Sess) (hd : s'.dirs = s.dirs) :
    ∀ (parts : List Seg) (cur : FPath),
      findDirInternal s' cur parts = findDirInternal s cur parts := by
  intro parts
  induction parts with
  | nil => intro cur; rfl
  | cons n rest ih =>
    intro cur
    cases rest with
    | nil =>
      unfold findDirInternal
      rw [hd]
    | cons m rest2 =>
      unfold findDirInternal
      rw [hd]
      cases alookup s.dirs (cur ++ [n]) with
      | none => rfl
      | some flag => exact ih (cur ++ [n])

theorem sessFindDir_congr (s s' : Sess) (hd : s'.dirs = s.dirs) (p : FPath) :
    sessFindDir s' p = sessFindDir s p := by
  unfold sessFindDir
  cases p with
  | nil => rfl
  | cons a as => exact findDirInternal_congr s s' hd (a :: as) []

/-! ## Shared concrete states for the witnesses -/

/-- A small on-disk state: a directory holding two regular files. -/
def fsW : FS :=
  [ (["w"], Entry.dir 0o755),
    (["w", "t.txt"], Entry.file [1, 2, 3, 4] 0o644),
    (["w", "s.txt"], Entry.file [9] 0o600) ]

/-- A fresh session over fsW with the usual 022 umask. -/
def sW : Sess := freshSession fsW 0o022

/-- sW after speculating the pre-existing file /w/t.txt. -/
def sSpecW : Sess := sessSpeculate sW ["w", "t.txt"]

/-! ## Claims -/

/-- C2: for every speculate(P) followed by create(P, c) or copy(S, P)
that responds true, the file at P afterwards contains exactly c
(respectively a byte-identical copy of S); its final size is the number
of bytes written, the handler truncating whenever the bytes written fall
short of the previous length. -/
theorem claim2_speculation_fulfillment (s : Sess) (p src : FPath)
    (c : List Nat) :
    ((sessCreate (sessSpeculate s p) c p).2 = true →
      ∃ pm, FS.get ((sessCreate (sessSpeculate s p) c p).1).fs p =
        some (Entry.file c pm)) ∧
    ((sessCopy (sessSpeculate s p) src p).2 = true →
      ∃ srcC pmS pmD,
        FS.get (sessSpeculate s p).fs src = some (Entry.file srcC pmS) ∧
        FS.get ((sessCopy (sessSpeculate s p) src p).1).fs p =
          some (Entry.file srcC pmD)) :=
  ⟨fun hr => sessCreate_content (sessSpeculate s p) p c hr,
   fun hr => sessCopy_content (sessSpeculate s p) src p hr⟩

theorem claim2_witness :
    (∃ pm, FS.get ((sessCreate (sessSpeculate sW ["w", "t.txt"]) [5, 6]
        ["w", "t.txt"]).1).fs ["w", "t.txt"] = some (Entry.file [5, 6] pm)) ∧
    (∃ srcC pmS pmD,
      FS.get (sessSpeculate sW ["w", "d.txt"]).fs ["w", "s.txt"] =
        some (Entry.file srcC pmS) ∧
      FS.get ((sessCopy (sessSpeculate sW ["w", "d.txt"]) ["w", "s.txt"]
        ["w", "d.txt"]).1).fs ["w", "d.txt"] = some (Entry.file srcC pmD)) :=
  ⟨(claim2_speculation_fulfillment sW ["w", "t.txt"] ["w", "s.txt"] [5, 6]).1
      (by decide),
   (claim2_speculation_fulfillment sW ["w", "d.txt"] ["w", "s.txt"] [5, 6]).2
      (by decide)⟩

/-- C7: for a delete or delete_recursive on a path carrying a registered
speculativeFile: a resolved future with isNew answers false and nothing
changes; otherwise the request answers true, flips only the cached
future to isNew, leaves the on-disk file in place, and a later
finalization unlinks it. -/
theorem claim7_delete_of_speculated (s : Sess) (p : FPath) (fut : FutFile)
    (recursive : Bool) (hreg : sessFindFile s p = some fut) :
    (fut.isNew = true → sessDelete s p recursive = (s, false)) ∧
    (fut.isNew = false →
      (sessDelete s p recursive).2 = true ∧
      ((sessDelete s p recursive).1).fs = s.fs ∧
      alookup ((sessDelete s p recursive).1).files p =
        some { fut with isNew := true } ∧
      (fut.err = false → s.finalized = false →
        (∀ r, r ∈ prefixes p.dropLast → alookup s.dirs r ≠ none) →
        p ≠ [] →
        FS.get (sessFinalize ((sessDelete s p recursive).1)).fs p = none)) := by
  have hfiles := sessFindFile_files hreg
  constructor
  · intro hnew
    simp [sessDelete, hreg, hnew]
  · intro hnew
    have hres : sessDelete s p recursive =
        ({ s with files := areplace s.files p { fut with isNew := true } },
         true) := by
      simp [sessDelete, hreg, hnew]
    have hlook : alookup (areplace s.files p { fut with isNew := true }) p =
        some { fut with isNew := true } := by
      rw [alookup_areplace, if_pos rfl, hfiles]
      rfl
    refine ⟨by rw [hres], by rw [hres], by rw [hres]; exact hlook, ?_⟩
    intro herr hfin hchain hpne
    rw [hres]
    exact sessFinalize_unlinks _ p { fut with isNew := true } hfin hchain hpne
      hlook rfl herr

theorem claim7_witness :
    (sessDelete sSpecW ["w", "t.txt"] false).2 = true ∧
    FS.get (sessFinalize ((sessDelete sSpecW ["w", "t.txt"] false).1)).fs
      ["w", "t.txt"] = none := by
  have h := claim7_delete_of_speculated sSpecW ["w", "t.txt"]
    ⟨false, false, 0⟩ false (by decide)
  have h2 := h.2 (by decide)
  exact ⟨h2.1, h2.2.2.2 (by decide) (by decide) (by decide) (by decide)⟩

/-- C9, evaluated at the failing input: a single copy request followed
by finalization.  The copy succeeds and appends both acquired handles
(the source and the destination) to the session's openFiles list, but
finalization only runs the tree cleanup, so both handles are still open
afterwards — the session never closes the handles it retains, contrary
to the claim that every acquired handle is closed by the end of
finalization. -/
theorem claim9_openFiles_never_closed :
    (sessCopy sW ["w", "s.txt"] ["w", "d.txt"]).2 = true ∧
    (sessFinalize ((sessCopy sW ["w", "s.txt"] ["w", "d.txt"]).1)).openFiles
      = [0, 1] ∧
    alookup (sessFinalize
      ((sessCopy sW ["w", "s.txt"] ["w", "d.txt"]).1)).handles 0 = some true ∧
    alookup (sessFinalize
      ((sessCopy sW ["w", "s.txt"] ["w", "d.txt"]).1)).handles 1 = some true := by
  decide

/-- The claim's keep-predicate for listdir on a tracked directory d: a
child tracked as a speculative directory node is omitted, a child whose
registered speculativeFile resolved as isNew is omitted, every other
on-disk entry is kept. -/
def listKeep (s : Sess) (d : FPath) (n : Seg) : Bool :=
  (match alookup s.dirs (d ++ [n]) with
   | some true => false
   | _ => true) &&
  (match alookup s.files (d ++ [n]) with
   | some fut => !fut.isNew
   | none => true)

/-- C8: a listdir on a path tracked as a DirNode responds with exactly
the on-disk entries of that directory, except that a child DirNode whose
speculative flag is true is omitted and a child speculativeFile whose
resolved future isNew is omitted; every other on-disk entry, including a
speculated file that pre-existed, is included.  (The hypothesis hdisj
rules out a name tracked both as a child node and as a child file, where
the engine would consult only the node.) -/
theorem claim8_listdir_logical (s : Sess) (p d : FPath)
    (hfind : sessFindDir s p = some d)
    (hdir : FS.isDirB s.fs d = true)
    (hdisj : ∀ n, n ∈ FS.childNames s.fs d →
      (alookup s.dirs (d ++ [n])).isSome = true →
      alookup s.files (d ++ [n]) = none) :
    sessListDir s p = some ((FS.childNames s.fs d).filter (listKeep s d)) ∧
    ∀ n : Seg, n ∈ (FS.childNames s.fs d).filter (listKeep s d) ↔
      ((FS.get s.fs (d ++ [n])).isSome = true ∧
       alookup s.dirs (d ++ [n]) ≠ some true ∧
       ∀ fut, alookup s.files (d ++ [n]) = some fut → fut.isNew = false) := by
  have hcong : (FS.childNames s.fs d).filter (fun n =>
      match alookup s.dirs (d ++ [n]) with
      | some flag => !flag
      | none =>
        match alookup s.files (d ++ [n]) with
        | some fut => !fut.isNew
        | none => true) = (FS.childNames s.fs d).filter (listKeep s d) := by
    apply List.filter_congr
    intro n hn
    cases hdl : alookup s.dirs (d ++ [n]) with
    | none =>
      cases hfl : alookup s.files (d ++ [n]) with
      | none => simp [listKeep, hdl, hfl]
      | some fut => simp [listKeep, hdl, hfl]
    | some flag =>
      cases flag with
      | true => simp [listKeep, hdl]
      | false =>
        have hf := hdisj n hn (by rw [hdl]; rfl)
        simp [listKeep, hdl, hf]
  constructor
  · have h1 : sessListDir s p = logicalList s d := by
      unfold sessListDir
      rw [hfind]
    have h2 : logicalList s d = some ((FS.childNames s.fs d).filter (fun n =>
        match alookup s.dirs (d ++ [n]) with
        | some flag => !flag
        | none =>
          match alookup s.files (d ++ [n]) with
          | some fut => !fut.isNew
          | none => true)) := by
      unfold logicalList
      rw [if_pos hdir]
    rw [h1, h2, hcong]
  · intro n
    rw [List.mem_filter, FS.mem_childNames_iff_get]
    cases hdl : alookup s.dirs (d ++ [n]) with
    | some flag =>
      cases flag with
      | true => simp [listKeep, hdl]
      | false =>
        cases hfl : alookup s.files (d ++ [n]) with
        | none => simp [listKeep, hdl, hfl]
        | some fut => simp [listKeep, hdl, hfl]
    | none =>
      cases hfl : alookup s.files (d ++ [n]) with
      | none => simp [listKeep, hdl, hfl]
      | some fut => simp [listKeep, hdl, hfl]

/-- sSpecW after additionally speculating the absent file /w/new.txt. -/
def sListW : Sess := sessSpeculate sSpecW ["w", "new.txt"]

theorem claim8_witness :
    sessListDir sListW ["w"] =
      some ((FS.childNames sListW.fs ["w"]).filter (listKeep sListW ["w"])) ∧
    sessListDir sListW ["w"] = some ["t.txt", "s.txt"] := by
  have h := claim8_listdir_logical sListW ["w"] ["w"] (by decide) (by decide)
    (by decide)
  exact ⟨h.1, h.1.trans (by decide)⟩

/-! ## Speculative-flag dynamics (claim C4) -/

theorem createDirTree_dirs (s : Sess) (cur : FPath) (n : Seg) (sp : Bool) :
    ((createDirTree s cur n sp).1).dirs = s.dirs := by
  cases hget : FS.get s.fs (cur ++ [n]) with
  | none =>
    cases hmk : osMkdir s.fs (cur ++ [n]) 0o755 s.umask with
    | none => simp [createDirTree, hget, hmk]
    | some fs1 => simp [createDirTree, hget, hmk]
  | some e => cases e <;> simp [createDirTree, hget]

theorem speculateFile_dirs (s : Sess) (cur : FPath) (n : Seg) :
    (speculateFile s cur n).dirs = s.dirs := by
  have h1 := osOpenWrite_dirs s (cur ++ [n])
  cases hw : osOpenWrite s (cur ++ [n]) with
  | mk s1 r =>
    rw [hw] at h1
    cases r with
    | some h =>
      simp only [speculateFile, hw]
      exact h1
    | none =>
      have h2 := osOpenCreate_dirs s1 (cur ++ [n]) 0o666
      cases hc : osOpenCreate s1 (cur ++ [n]) 0o666 with
      | mk s2 r2 =>
        rw [hc] at h2
        cases r2 with
        | some h =>
          simp only [speculateFile, hw, hc]
          rw [h2, h1]
        | none =>
          simp only [speculateFile, hw, hc]
          rw [h2, h1]

/-- Speculation never turns a node's false flag back on. -/
theorem addFileInternal_flag : ∀ (parts : List Seg) (s : Sess) (cur q : FPath),
    alookup s.dirs q = some false →
    alookup ((addFileInternal s cur parts).1).dirs q = some false
  | [], _, _, _, h => h
  | [n], s, cur, q, h => by
    cases hf : alookup s.files (cur ++ [n]) with
    | some fut => simpa [addFileInternal, hf] using h
    | none =>
      simp only [addFileInternal, hf]
      rw [speculateFile_dirs]
      exact h
  | n :: m :: rest, s, cur, q, h => by
    cases hd : alookup s.dirs (cur ++ [n]) with
    | some f =>
      have hrec := addFileInternal_flag (m :: rest) s (cur ++ [n]) q h
      simpa [addFileInternal, hd] using hrec
    | none =>
      cases hc : createDirTree s cur n true with
      | mk s1 r =>
        have hdirs : s1.dirs = s.dirs := by
          have hx := createDirTree_dirs s cur n true
          rw [hc] at hx
          exact hx
        cases r with
        | none =>
          simp only [addFileInternal, hd, hc]
          rw [hdirs]
          exact h
        | some flag =>
          have hq : alookup (aset s1.dirs (cur ++ [n]) flag) q = some false := by
            rw [alookup_aset]
            by_cases hqe : q = cur ++ [n]
            · exfalso
              rw [hqe] at h
              rw [h] at hd
              cases hd
            · rw [if_neg hqe, hdirs]
              exact h
          have hrec := addFileInternal_flag (m :: rest)
            { s1 with dirs := aset s1.dirs (cur ++ [n]) flag } (cur ++ [n]) q hq
          simpa [addFileInternal, hd, hc] using hrec

/-- Consuming a speculation never turns a node's false flag back on
(it only writes false flags). -/
theorem useSpeculativeFile_flag : ∀ (parts : List Seg) (s : Sess)
    (cur q : FPath), alookup s.dirs q = some false →
    alookup (((useSpeculativeFile s cur parts)).1).dirs q = some false
  | [], _, _, _, h => h
  | [n], s, cur, q, h => by
    unfold useSpeculativeFile
    cases hf : alookup s.files (cur ++ [n]) with
    | none => exact h
    | some fut =>
      show alookup (areplace s.dirs cur false) q = some false
      rw [alookup_areplace]
      by_cases hq : q = cur
      · rw [if_pos hq, ← hq, h]
        rfl
      · rw [if_neg hq]
        exact h
  | n :: m :: rest, s, cur, q, h => by
    unfold useSpeculativeFile
    cases hd : alookup s.dirs (cur ++ [n]) with
    | none => exact h
    | some flag =>
      have hrec := useSpeculativeFile_flag (m :: rest) s (cur ++ [n]) q h
      cases hu : useSpeculativeFile s (cur ++ [n]) (m :: rest) with
      | mk s1 fut =>
        rw [hu] at hrec
        show alookup (areplace s1.dirs cur false) q = some false
        rw [alookup_areplace]
        by_cases hq : q = cur
        · rw [if_pos hq, ← hq, hrec]
          rfl
        · rw [if_neg hq]
          exact hrec

/-- An explicit mkdir never turns a node's false flag back on. -/
theorem mkDirInternal_flag : ∀ (parts : List Seg) (s : Sess) (cur q : FPath),
    alookup s.dirs q = some false →
    alookup ((mkDirInternal s cur parts).1).dirs q = some false
  | [], _, _, _, h => h
  | n :: rest, s, cur, q, h => by
    unfold mkDirInternal
    by_cases hcur : alookup s.dirs cur = some true
    · rw [if_pos hcur]
      exact h
    · rw [if_neg hcur]
      cases hd : alookup s.dirs (cur ++ [n]) with
      | none =>
        cases hmk : osMkdir s.fs (cur ++ n :: rest) 0o755 s.umask with
        | some fs1 => exact h
        | none => exact h
      | some flag =>
        cases rest with
        | nil =>
          cases flag with
          | true =>
            show alookup (areplace s.dirs (cur ++ [n]) false) q = some false
            rw [alookup_areplace]
            by_cases hq : q = cur ++ [n]
            · rw [if_pos hq, hd]
              rfl
            · rw [if_neg hq]
              exact h
          | false => exact h
        | cons m rest2 => exact mkDirInternal_flag (m :: rest2) s (cur ++ [n]) q h

theorem sessUseFile_flag (s : Sess) (p q : FPath)
    (h : alookup s.dirs q = some false) :
    alookup ((sessUseFile s p).1).dirs q = some false := by
  unfold sessUseFile
  cases p with
  | nil => exact h
  | cons a as => exact useSpeculativeFile_flag (a :: as) s [] q h

theorem sessCreateDest_flag (s : Sess) (p q : FPath)
    (h : alookup s.dirs q = some false) :
    alookup ((sessCreateDest s p).1).dirs q = some false := by
  have h1 := sessUseFile_flag s p q h
  cases hu : sessUseFile s p with
  | mk s1 r =>
    rw [hu] at h1
    cases r with
    | some fut =>
      have hred : (sessCreateDest s p).1 = s1 := by
        unfold sessCreateDest
        rw [hu]
        show (if fut.err = true then (s1, (none : Option Nat))
            else (s1, some fut.handle)).1 = s1
        by_cases he : fut.err = true
        · rw [if_pos he]
        · rw [if_neg he]
      rw [hred]
      exact h1
    | none =>
      have hred : (sessCreateDest s p).1 = (osOpenCreate s1 p 0o666).1 := by
        unfold sessCreateDest
        rw [hu]
      rw [hred, osOpenCreate_dirs]
      exact h1

theorem sessCreate_flag (s : Sess) (c : List Nat) (p q : FPath)
    (h : alookup s.dirs q = some false) :
    alookup ((sessCreate s c p).1).dirs q = some false := by
  have h1 := sessCreateDest_flag s p q h
  cases hcd : sessCreateDest s p with
  | mk sA optH =>
    rw [hcd] at h1
    cases optH with
    | none =>
      simp only [sessCreate, hcd]
      exact h1
    | some hd =>
      cases hg : FS.get sA.fs p with
      | none =>
        simp only [sessCreate, hcd, Sess.fs_upd_openFiles, hg]
        exact h1
      | some e =>
        cases e with
        | dir pm =>
          simp only [sessCreate, hcd, Sess.fs_upd_openFiles, hg]
          exact h1
        | file oldC pm =>
          simp only [sessCreate, hcd, Sess.fs_upd_openFiles, hg]
          exact h1

theorem sessCopy_flag (s : Sess) (src p q : FPath)
    (h : alookup s.dirs q = some false) :
    alookup ((sessCopy s src p).1).dirs q = some false := by
  have hw := osOpenWrite_dirs s src
  cases hop : osOpenWrite s src with
  | mk sB optS =>
    rw [hop] at hw
    have hB : alookup sB.dirs q = some false := by
      rw [show sB.dirs = s.dirs from hw]
      exact h
    cases optS with
    | none =>
      simp only [sessCopy, hop]
      exact hB
    | some hsrc =>
      have h1 := sessCreateDest_flag
        { sB with openFiles := sB.openFiles ++ [hsrc] } p q hB
      cases hcd : sessCreateDest { sB with openFiles := sB.openFiles ++ [hsrc] } p with
      | mk sC optH =>
        rw [hcd] at h1
        cases optH with
        | none =>
          simp only [sessCopy, hop, hcd]
          exact h1
        | some hdest =>
          cases hgp : FS.get sC.fs p with
          | none =>
            simp only [sessCopy, hop, hcd, Sess.fs_upd_openFiles, hgp]
            exact h1
          | some e =>
            cases e with
            | dir pm =>
              simp only [sessCopy, hop, hcd, Sess.fs_upd_openFiles, hgp]
              exact h1
            | file oldC pmOld =>
              cases hgs : FS.get sC.fs src with
              | none =>
                simp only [sessCopy, hop, hcd, Sess.fs_upd_openFiles, hgp, hgs]
                exact h1
              | some es =>
                cases es with
                | dir pmS =>
                  simp only [sessCopy, hop, hcd, Sess.fs_upd_openFiles, hgp, hgs]
                  exact h1
                | file srcC pmS =>
                  simp only [sessCopy, hop, hcd, Sess.fs_upd_openFiles, hgp, hgs]
                  exact h1

theorem sessSpeculate_flag (s : Sess) (p q : FPath)
    (h : alookup s.dirs q = some false) :
    alookup (sessSpeculate s p).dirs q = some false := by
  unfold sessSpeculate
  cases p with
  | nil => exact h
  | cons a as => exact addFileInternal_flag (a :: as) s [] q h

theorem sessMkdir_flag (s : Sess) (p q : FPath)
    (h : alookup s.dirs q = some false) :
    alookup ((sessMkdir s p).1).dirs q = some false := by
  unfold sessMkdir
  cases p with
  | nil => exact h
  | cons a as => exact mkDirInternal_flag (a :: as) s [] q h

/-- C4 counterexample: after speculate /a/f the node /a is tracked
speculative; mkdir /a flips its flag to false; a later delete /a finds
the directory logically empty (its only entry is the isNew speculated
file, which listing omits) and sets the flag back to true.  The flag
does not stay false for the rest of the session. -/
theorem claim4_counterexample :
    Sess.dirFlag (runReqs sW [Req.speculate ["a", "f"], Req.mkdir ["a"]]) ["a"]
      = some false ∧
    Sess.dirFlag (runReqs sW [Req.speculate ["a", "f"], Req.mkdir ["a"],
      Req.del ["a"]]) ["a"] = some true := by
  decide

/-- C4 (amended): once a DirNode's speculative flag is false it stays
false under every request except delete / delete_recursive (which can
re-mark a logically empty directory speculative), and finalization
either keeps the false flag or drops the node altogether — it never
turns the flag true. -/
theorem claim4_flag_monotone (s : Sess) (q : FPath)
    (hflag : s.dirFlag q = some false) :
    (∀ r : Req, (∀ d, r ≠ Req.del d) → (∀ d, r ≠ Req.delRec d) →
      (stepReq s r).dirFlag q = some false) ∧
    ((sessFinalize s).dirFlag q = some false ∨
      (sessFinalize s).dirFlag q = none) := by
  have h : alookup s.dirs q = some false := hflag
  constructor
  · intro r hdel hdelr
    cases r with
    | copy src dest => exact sessCopy_flag s src dest q h
    | create c dest => exact sessCreate_flag s c dest q h
    | speculate dest => exact sessSpeculate_flag s dest q h
    | existence dest => exact h
    | mkdir dest => exact sessMkdir_flag s dest q h
    | listdir dest => exact h
    | del dest => exact absurd rfl (hdel dest)
    | delRec dest => exact absurd rfl (hdelr dest)
  · cases (sessFinalize_rel s).2.2.2.2.2.2.2.2 q with
    | inl h2 =>
      refine Or.inl ?_
      show alookup (sessFinalize s).dirs q = some false
      rw [h2]
      exact h
    | inr h2 => exact Or.inr h2

theorem claim4_witness :
    Sess.dirFlag (stepReq (runReqs sW [Req.speculate ["a", "f"],
      Req.mkdir ["a"]]) (Req.speculate ["a", "g"])) ["a"] = some false :=
  (claim4_flag_monotone (runReqs sW [Req.speculate ["a", "f"],
      Req.mkdir ["a"]]) ["a"] (by decide)).1 (Req.speculate ["a", "g"])
    (fun d h => Req.noConfusion h) (fun d h => Req.noConfusion h)

/-! ## Mkdir promotion (claim C5) -/

theorem mem_areplace_value {κ α : Type} [DecidableEq κ] {l : List (κ × α)}
    {k : κ} {a : α} {kv : κ × α} (hmem : kv ∈ areplace l k a)
    (hk : kv.1 = k) : kv.2 = a := by
  unfold areplace at hmem
  obtain ⟨kv0, hkv0, heq⟩ := List.mem_map.mp hmem
  by_cases h0 : kv0.1 = k
  · rw [if_pos h0] at heq
    rw [← heq]
  · rw [if_neg h0] at heq
    rw [heq] at h0
    exact absurd hk h0

theorem ne_append_cons (cur : FPath) (n : Seg) (rest : List Seg) :
    cur ≠ cur ++ n :: rest := by
  intro he
  have he2 : cur ++ [] = cur ++ n :: rest := by
    rw [List.append_nil]
    exact he
  have h3 := List.append_cancel_left he2
  exact List.noConfusion h3

theorem append_singleton_ne (cur : FPath) (n m : Seg) (rest : List Seg) :
    cur ++ [n] ≠ cur ++ n :: m :: rest := by
  intro he
  have h3 := List.append_cancel_left he
  injection h3 with _ h4
  exact List.noConfusion h4

/-- The walk of mkDirInternal towards a tracked speculative node whose
tracked ancestors are all non-speculative: it reaches the node, flips
its flag to false and succeeds, changing nothing else. -/
theorem mkDirInternal_promote : ∀ (parts : List Seg) (s : Sess) (cur : FPath),
    parts ≠ [] →
    alookup s.dirs (cur ++ parts) = some true →
    (∀ r, isPre cur r = true → isPre r (cur ++ parts) = true →
      r ≠ cur ++ parts → alookup s.dirs r = some false) →
    mkDirInternal s cur parts =
      ({ s with dirs := areplace s.dirs (cur ++ parts) false }, true)
  | [], _, _, hne, _, _ => absurd rfl hne
  | [n], s, cur, _, htarget, hmid => by
    have hcur : alookup s.dirs cur = some false :=
      hmid cur (isPre_refl cur) (isPre_append cur [n]) (ne_append_cons cur n [])
    unfold mkDirInternal
    rw [if_neg (by rw [hcur]; intro hcon; cases hcon)]
    rw [htarget]
    rfl
  | n :: m :: rest, s, cur, _, htarget, hmid => by
    have hassoc : (cur ++ [n]) ++ (m :: rest) = cur ++ (n :: m :: rest) := by
      simp
    have hcur : alookup s.dirs cur = some false :=
      hmid cur (isPre_refl cur) (isPre_append cur _) (ne_append_cons cur n _)
    have hchild : alookup s.dirs (cur ++ [n]) = some false :=
      hmid (cur ++ [n]) (isPre_append cur [n])
        (by rw [← hassoc]; exact isPre_append _ _)
        (append_singleton_ne cur n m rest)
    unfold mkDirInternal
    rw [if_neg (by rw [hcur]; intro hcon; cases hcon)]
    rw [hchild]
    show mkDirInternal s (cur ++ [n]) (m :: rest) =
      ({ s with dirs := areplace s.dirs (cur ++ (n :: m :: rest)) false }, true)
    rw [← hassoc]
    exact mkDirInternal_promote (m :: rest) s (cur ++ [n])
      (fun h => List.noConfusion h)
      (by rw [hassoc]; exact htarget)
      (fun r h1 h2 h3 => hmid r (isPre_trans (isPre_append cur [n]) h1)
        (by rw [← hassoc] at *; exact h2) (by rw [← hassoc] at *; exact h3))

/-- C5: a mkdir on a path P tracked as a speculative DirNode, with every
tracked ancestor non-speculative (and no pending new speculativeFile
registered at P itself), flips the node to non-speculative and responds
true, and the on-disk directory at P survives finalization. -/
theorem claim5_mkdir_promotion (s : Sess) (p : FPath) (pm : Nat)
    (hp : p ≠ [])
    (htarget : alookup s.dirs p = some true)
    (hanc : ∀ r, r ∈ prefixes p → r ≠ p → alookup s.dirs r = some false)
    (hfile : ∀ kv, kv ∈ s.files → kv.1 = p →
      ¬ (kv.2.isNew = true ∧ kv.2.err = false))
    (hdisk : FS.get s.fs p = some (Entry.dir pm)) :
    (sessMkdir s p).2 = true ∧
    Sess.dirFlag ((sessMkdir s p).1) p = some false ∧
    FS.get (sessFinalize ((sessMkdir s p).1)).fs p = some (Entry.dir pm) := by
  cases p with
  | nil => exact absurd rfl hp
  | cons a as =>
    have hmk := mkDirInternal_promote (a :: as) s []
      (fun h => List.noConfusion h) htarget
      (fun r _ h2 h3 => hanc r (mem_prefixes.mpr h2) h3)
    have hres : sessMkdir s (a :: as) =
        ({ s with dirs := areplace s.dirs (a :: as) false }, true) := by
      unfold sessMkdir
      exact hmk
    refine ⟨by rw [hres], ?_, ?_⟩
    · rw [hres]
      show alookup (areplace s.dirs (a :: as) (false : Bool)) (a :: as)
        = some false
      rw [alookup_areplace, if_pos rfl, htarget]
      rfl
    · rw [hres]
      have hkeep := sessFinalize_fs_keep
        { s with dirs := areplace s.dirs (a :: as) false } (a :: as)
        (fun kv hm hk => hfile kv hm hk)
        (fun kv hm hk => by
          have hv := mem_areplace_value hm hk
          intro hcon
          rw [hv] at hcon
          cases hcon)
      rw [hkeep]
      exact hdisk

/-- sW after speculating the file /w/sub/x.txt two levels down: the
intermediate node /w/sub is created on disk and tracked speculative. -/
def sMkW : Sess := sessSpeculate sW ["w", "sub", "x.txt"]

theorem claim5_witness :
    (sessMkdir sMkW ["w", "sub"]).2 = true ∧
    Sess.dirFlag ((sessMkdir sMkW ["w", "sub"]).1) ["w", "sub"] = some false ∧
    FS.get (sessFinalize ((sessMkdir sMkW ["w", "sub"]).1)).fs ["w", "sub"] =
      some (Entry.dir 0o755) :=
  claim5_mkdir_promotion sMkW ["w", "sub"] 0o755 (by decide) (by decide)
    (by decide) (by decide) (by decide)

/-! ## The unconsumed-speculation walk (claim C10) -/

theorem isPre_antisymm {p q : FPath} (h1 : isPre p q = true)
    (h2 : isPre q p = true) : p = q :=
  (isPre_eq_of_length h1 (isPre_length_le h2)).symm

theorem isPre_step {cur r : FPath} {a : Seg} {tail : List Seg}
    (h1 : isPre cur r = true) (hne : r ≠ cur)
    (h2 : isPre r (cur ++ a :: tail) = true) :
    isPre (cur ++ [a]) r = true := by
  cases isPre_cases h1 with
  | inl he => exact absurd he hne
  | inr hx =>
    obtain ⟨x, hx⟩ := hx
    by_cases hxa : x = a
    · rw [hxa] at hx
      exact hx
    · exfalso
      have h3 : isPre (cur ++ [x]) (cur ++ a :: tail) = true := isPre_trans hx h2
      have h4 : isPre (cur ++ [a]) (cur ++ a :: tail) = true := by
        have he : cur ++ a :: tail = (cur ++ [a]) ++ tail := by simp
        rw [he]
        exact isPre_append _ _
      have h5 := isPre_child_disjoint (fun he => hxa he.symm) h4
      rw [h3] at h5
      cases h5

/-- The walk of useSpeculativeFile when the leaf lookup fails: no future
is consumed, the filesystem and the file registrations are untouched,
but every node through which the walk descended (every tracked node
strictly above the leaf's parent) has had its speculative flag set to
false; no flag is ever set to true. -/
theorem useSpeculativeFile_miss : ∀ (parents : List Seg) (leaf : Seg)
    (s : Sess) (cur : FPath),
    (∀ r, isPre cur r = true → isPre r (cur ++ parents) = true →
      alookup s.dirs r ≠ none) →
    alookup s.files (cur ++ (parents ++ [leaf])) = none →
    (useSpeculativeFile s cur (parents ++ [leaf])).2 = none ∧
    ((useSpeculativeFile s cur (parents ++ [leaf])).1).fs = s.fs ∧
    ((useSpeculativeFile s cur (parents ++ [leaf])).1).files = s.files ∧
    (∀ r, isPre cur r = true → isPre r (cur ++ parents) = true →
      r ≠ cur ++ parents →
      alookup ((useSpeculativeFile s cur (parents ++ [leaf])).1).dirs r =
        (alookup s.dirs r).map (fun _ => false)) ∧
    (∀ kv, kv ∈ ((useSpeculativeFile s cur (parents ++ [leaf])).1).dirs →
      isPre cur kv.1 = true → isPre kv.1 (cur ++ parents) = true →
      kv.1 ≠ cur ++ parents → kv.2 = false) ∧
    (∀ r, alookup ((useSpeculativeFile s cur (parents ++ [leaf])).1).dirs r =
        alookup s.dirs r ∨
      alookup ((useSpeculativeFile s cur (parents ++ [leaf])).1).dirs r =
        (alookup s.dirs r).map (fun _ => false))
  | [], leaf, s, cur, htrack, hfile => by
    simp only [List.nil_append] at hfile
    simp only [List.nil_append, List.append_nil]
    have hres : useSpeculativeFile s cur [leaf] = (s, none) := by
      unfold useSpeculativeFile
      rw [hfile]
    rw [hres]
    refine ⟨rfl, rfl, rfl, ?_, ?_, ?_⟩
    · intro r h1 h2 hne
      exact absurd (isPre_antisymm h1 h2).symm hne
    · intro kv hm h1 h2 hne
      exact absurd (isPre_antisymm h1 h2).symm hne
    · intro r
      exact Or.inl rfl
  | a :: parents, leaf, s, cur, htrack, hfile => by
    have hassoc : cur ++ (a :: parents) = (cur ++ [a]) ++ parents := by simp
    have hchild : alookup s.dirs (cur ++ [a]) ≠ none := by
      apply htrack (cur ++ [a]) (isPre_append cur [a])
      rw [hassoc]
      exact isPre_append _ _
    obtain ⟨flag, hflag⟩ : ∃ f, alookup s.dirs (cur ++ [a]) = some f := by
      cases hl : alookup s.dirs (cur ++ [a]) with
      | none => exact absurd hl hchild
      | some f => exact ⟨f, rfl⟩
    have hfile2 : alookup s.files ((cur ++ [a]) ++ (parents ++ [leaf]))
        = none := by
      rw [List.append_assoc]
      exact hfile
    have ih := useSpeculativeFile_miss parents leaf s (cur ++ [a])
      (fun r h1 h2 => htrack r (isPre_trans (isPre_append cur [a]) h1)
        (by rw [hassoc]; exact h2))
      hfile2
    simp only [List.cons_append]
    cases hpp : parents ++ [leaf] with
    | nil => exact absurd hpp (by simp)
    | cons m rest =>
      rw [hpp] at ih
      cases hu : useSpeculativeFile s (cur ++ [a]) (m :: rest) with
      | mk s1 futo =>
        rw [hu] at ih
        obtain ⟨m1, m2, m3, m4, m5, m6⟩ := ih
        have hres : useSpeculativeFile s cur (a :: m :: rest) =
            ({ s1 with dirs := areplace s1.dirs cur false }, futo) := by
          unfold useSpeculativeFile
          rw [hflag, hu]
        rw [hres]
        refine ⟨m1, m2, m3, ?_, ?_, ?_⟩
        · intro r h1 h2 hne
          show alookup (areplace s1.dirs cur false) r = _
          rw [alookup_areplace]
          by_cases hrc : r = cur
          · subst hrc
            rw [if_pos rfl]
            cases m6 r with
            | inl heq => rw [heq]
            | inr hmap =>
              rw [hmap]
              cases alookup s.dirs r <;> rfl
          · rw [if_neg hrc]
            have h1b : isPre (cur ++ [a]) r = true := isPre_step h1 hrc h2
            have h2b : isPre r ((cur ++ [a]) ++ parents) = true := by
              rw [← hassoc]
              exact h2
            have hneb : r ≠ (cur ++ [a]) ++ parents := by
              rw [← hassoc]
              exact hne
            exact m4 r h1b h2b hneb
        · intro kv hm h1 h2 hne
          have hm2 : kv ∈ areplace s1.dirs cur false := hm
          unfold areplace at hm2
          obtain ⟨kv0, hkv0, heq⟩ := List.mem_map.mp hm2
          by_cases h0 : kv0.1 = cur
          · rw [if_pos h0] at heq
            rw [← heq]
          · rw [if_neg h0] at heq
            subst heq
            have h1b : isPre (cur ++ [a]) kv0.1 = true := isPre_step h1 h0 h2
            have h2b : isPre kv0.1 ((cur ++ [a]) ++ parents) = true := by
              rw [← hassoc]
              exact h2
            have hneb : kv0.1 ≠ (cur ++ [a]) ++ parents := by
              rw [← hassoc]
              exact hne
            exact m5 kv0 hkv0 h1b h2b hneb
        · intro r
          show (alookup (areplace s1.dirs cur false) r = _) ∨
            (alookup (areplace s1.dirs cur false) r = _)
          rw [alookup_areplace]
          by_cases hrc : r = cur
          · subst hrc
            rw [if_pos rfl]
            cases m6 r with
            | inl heq =>
              exact Or.inr (by rw [heq])
            | inr hmap =>
              refine Or.inr ?_
              rw [hmap]
              cases alookup s.dirs r <;> rfl
          · rw [if_neg hrc]
            exact m6 r

theorem osOpenCreate_files (s : Sess) (p : FPath) (mode : Nat) :
    ((osOpenCreate s p mode).1).files = s.files := by
  unfold osOpenCreate
  cases hg : FS.get s.fs p with
  | none =>
    by_cases hpar : p ≠ [] ∧ s.fs.isDirB p.dropLast
    · simp [hpar]
    · simp [hpar]
  | some e => cases e <;> simp

theorem osOpenCreate_get_other (s : Sess) (p : FPath) (mode : Nat)
    (q : FPath) (hne : q ≠ p) :
    FS.get ((osOpenCreate s p mode).1).fs q = FS.get s.fs q := by
  unfold osOpenCreate
  cases hg : FS.get s.fs p with
  | none =>
    by_cases hpar : p ≠ [] ∧ s.fs.isDirB p.dropLast
    · simp [hpar, FS.get_set, hne]
    · simp [hpar]
  | some e => cases e <;> simp

theorem fsWriteAt_get_other (fs : FS) (p : FPath) (data : List Nat)
    (q : FPath) (hne : q ≠ p) : FS.get (fsWriteAt fs p data) q = FS.get fs q := by
  unfold fsWriteAt
  cases hg : FS.get fs p with
  | none => rfl
  | some e =>
    cases e with
    | file old pm => rw [FS.get_set, if_neg hne]
    | dir pm => rfl

theorem truncateFile_get_other (fs : FS) (p : FPath) (ob w : Nat)
    (q : FPath) (hne : q ≠ p) :
    FS.get (truncateFile fs p ob w) q = FS.get fs q := by
  unfold truncateFile
  by_cases hle : ob ≤ w
  · rw [if_pos hle]
  · rw [if_neg hle]
    cases hg : FS.get fs p with
    | none => rfl
    | some e =>
      cases e with
      | file cc pm => rw [FS.get_set, if_neg hne]
      | dir pm => rfl

/-- createDest changes the filesystem at most at the destination and the
tracking maps only through useSpeculativeFile. -/
theorem sessCreateDest_frame (s : Sess) (p q : FPath) (hne : q ≠ p) :
    FS.get ((sessCreateDest s p).1).fs q = FS.get s.fs q ∧
    ((sessCreateDest s p).1).files = ((sessUseFile s p).1).files ∧
    ((sessCreateDest s p).1).dirs = ((sessUseFile s p).1).dirs := by
  cases hu : sessUseFile s p with
  | mk sU futo =>
    have hfsU : sU.fs = s.fs := by
      have hx := sessUseFile_fs s p
      rw [hu] at hx
      exact hx
    cases futo with
    | some fut =>
      have hred : sessCreateDest s p =
          (if fut.err = true then (sU, (none : Option Nat))
           else (sU, some fut.handle)) := by
        unfold sessCreateDest
        rw [hu]
      by_cases he : fut.err = true
      · rw [hred, if_pos he]
        exact ⟨by rw [hfsU], rfl, rfl⟩
      · rw [hred, if_neg he]
        exact ⟨by rw [hfsU], rfl, rfl⟩
    | none =>
      have hred : sessCreateDest s p = osOpenCreate sU p 0o666 := by
        unfold sessCreateDest
        rw [hu]
      rw [hred]
      refine ⟨?_, osOpenCreate_files sU p 0o666, osOpenCreate_dirs sU p 0o666⟩
      rw [osOpenCreate_get_other sU p 0o666 q hne, hfsU]

/-- createFile changes the filesystem at most at the destination and the
tracking maps only through useSpeculativeFile. -/
theorem sessCreate_frame (s : Sess) (c : List Nat) (p q : FPath)
    (hne : q ≠ p) :
    FS.get ((sessCreate s c p).1).fs q = FS.get s.fs q ∧
    ((sessCreate s c p).1).files = ((sessUseFile s p).1).files ∧
    ((sessCreate s c p).1).dirs = ((sessUseFile s p).1).dirs := by
  obtain ⟨hfs, hfiles, hdirs⟩ := sessCreateDest_frame s p q hne
  cases hcd : sessCreateDest s p with
  | mk sA optH =>
    rw [hcd] at hfs hfiles hdirs
    cases optH with
    | none =>
      simp only [sessCreate, hcd]
      exact ⟨hfs, hfiles, hdirs⟩
    | some h =>
      cases hg : FS.get sA.fs p with
      | none =>
        simp only [sessCreate, hcd, Sess.fs_upd_openFiles, hg]
        exact ⟨hfs, hfiles, hdirs⟩
      | some e =>
        cases e with
        | dir pm =>
          simp only [sessCreate, hcd, Sess.fs_upd_openFiles, hg]
          exact ⟨hfs, hfiles, hdirs⟩
        | file oldC pm =>
          simp only [sessCreate, hcd, Sess.fs_upd_openFiles, hg]
          refine ⟨?_, hfiles, hdirs⟩
          rw [truncateFile_get_other _ _ _ _ _ hne, fsWriteAt_get_other _ _ _ _ hne]
          exact hfs

/-- C10: a create on a destination with no registered speculativeFile
but a fully tracked ancestor chain: the handle-acquisition step returns
no future, yet it has set speculative := false on every DirNode through
which the walk descended (every tracked node strictly above the leaf's
parent); the request therefore materializes those directories — their
on-disk entries survive finalization — although no speculation was
consumed. -/
theorem claim10_unconsumed_walk (s : Sess) (parents : FPath) (leaf : Seg)
    (c : List Nat)
    (htrack : ∀ r, r ∈ prefixes parents → alookup s.dirs r ≠ none)
    (hnofile : alookup s.files (parents ++ [leaf]) = none)
    (hnofpre : ∀ kv, kv ∈ s.files → kv.1 ∈ prefixes parents → False) :
    (sessUseFile s (parents ++ [leaf])).2 = none ∧
    (∀ r, r ∈ prefixes parents → r ≠ parents →
      alookup ((sessUseFile s (parents ++ [leaf])).1).dirs r = some false) ∧
    (∀ r, r ∈ prefixes parents → r ≠ parents →
      FS.get (sessFinalize ((sessCreate s c (parents ++ [leaf])).1)).fs r =
        FS.get s.fs r) := by
  have hmiss := useSpeculativeFile_miss parents leaf s []
    (fun r _ h2 => htrack r (mem_prefixes.mpr h2)) hnofile
  obtain ⟨m1, m2, m3, m4, m5, m6⟩ := hmiss
  have hsu : sessUseFile s (parents ++ [leaf]) =
      useSpeculativeFile s [] (parents ++ [leaf]) := by
    cases hpp : parents ++ [leaf] with
    | nil => exact absurd hpp (by simp)
    | cons b bs => rfl
  refine ⟨?_, ?_, ?_⟩
  · rw [hsu]
    exact m1
  · intro r hr hrne
    rw [hsu]
    have h4 := m4 r (isPre_nil r) (mem_prefixes.mp hr) hrne
    rw [h4]
    obtain ⟨f, hf⟩ : ∃ f, alookup s.dirs r = some f := by
      cases hl : alookup s.dirs r with
      | none => exact absurd hl (htrack r hr)
      | some f => exact ⟨f, rfl⟩
    rw [hf]
    rfl
  · intro r hr hrne
    have hrnep : r ≠ parents ++ [leaf] := by
      intro he
      have hle := isPre_length_le (mem_prefixes.mp hr)
      have hlen : r.length = parents.length + 1 := by
        rw [he]
        simp
      omega
    obtain ⟨hfsC, hfilesC, hdirsC⟩ :=
      sessCreate_frame s c (parents ++ [leaf]) r hrnep
    have hkeep := sessFinalize_fs_keep ((sessCreate s c (parents ++ [leaf])).1) r
      (fun kv hm hk => by
        rw [hfilesC, hsu, m3] at hm
        exact absurd (show kv.1 ∈ prefixes parents by rw [hk]; exact hr)
          (fun hc => hnofpre kv hm hc))
      (fun kv hm hk => by
        rw [hdirsC, hsu] at hm
        have hv := m5 kv hm (isPre_nil _)
          (by rw [hk]; exact mem_prefixes.mp hr) (by rw [hk]; exact hrne)
        rw [hv]
        intro hcon
        cases hcon)
    rw [hkeep]
    exact hfsC

theorem claim10_witness :
    (sessUseFile sMkW ["w", "sub", "y.txt"]).2 = none ∧
    alookup ((sessUseFile sMkW ["w", "sub", "y.txt"]).1).dirs ["w"]
      = some false ∧
    FS.get (sessFinalize ((sessCreate sMkW [7] ["w", "sub", "y.txt"]).1)).fs
      ["w"] = some (Entry.dir 0o755) := by
  have h := claim10_unconsumed_walk sMkW ["w", "sub"] "y.txt" [7]
    (by decide) (by decide) (by decide)
  exact ⟨h.1, h.2.1 ["w"] (by decide) (by decide),
    (h.2.2 ["w"] (by decide) (by decide)).trans (by decide)⟩

/-! ## Permission handling (claims C3 and C6)

The request decoder of the engine carries a `perm` field, and the final
test suite pins down chmod semantics for copy, create, speculate and
mkdir, but the perm-applying engine code itself is not among the
repository's files (the engine present here never reads the decoded
permission).  The two definitions below are therefore modelled from the
spec's permission steps rather than translated from code. -/

theorem low9_applyUmask (m u : Nat) :
    low9 (applyUmask m u) = applyUmask m u := by
  have hx : (0o777 : Nat) ^^^ (u &&& 0o777) < 512 := by
    have h1 : (0o777 : Nat) < 2 ^ 9 := by decide
    have h2 : u &&& 0o777 < 2 ^ 9 :=
      Nat.lt_of_le_of_lt (Nat.and_le_right) (by decide)
    exact Nat.xor_lt_two_pow h1 h2
  have hle : applyUmask m u < 512 :=
    Nat.lt_of_le_of_lt (Nat.and_le_right) hx
  exact Nat.mod_eq_of_lt hle

/-- Modelled from the spec: the final permission bits of the destination
file of a create or copy request.  The open inherits an existing file's
bits or creates under the umask-masked 0666 mode; when `perm` was
supplied and the observed bits differ from the requested bits, the
engine chmods to the requested value. -/
def createDestPerm (oldPerm : Option Nat) (reqPerm : Option Nat)
    (umask : Nat) : Nat :=
  let actual := match oldPerm with
    | some old => low9 old
    | none => applyUmask 0o666 umask
  match reqPerm with
  | some req => if actual ≠ low9 req then low9 req else actual
  | none => actual

/-- Modelled from the spec: the final permission bits of the path of a
speculate request.  A pre-existing file's bits are never changed during
speculation (the speculation may be discarded without a real write); a
file newly created by the background open gets the umask-masked 0666
mode and is chmodded to the requested bits when they differ. -/
def speculatePerm (oldPerm : Option Nat) (reqPerm : Option Nat)
    (umask : Nat) : Nat :=
  match oldPerm with
  | some old => low9 old
  | none => createDestPerm none reqPerm umask

/-- C3 counterexample: a speculate carrying perm 0660 on a pre-existing
0606 file leaves the bits at 0606 — the engine does not chmod a
pre-existing file to the requested value, contrary to the claim's
"create, copy, or speculate". -/
theorem claim3_counterexample :
    speculatePerm (some 0o606) (some 0o660) 0o022 = 0o606 ∧
    (0o606 : Nat) ≠ low9 0o660 := by
  decide

/-- C3 (amended): when perm is supplied, a create or copy destination
always ends with exactly the low 9 requested bits (chmodded when the
observed bits differ), and so does a speculate that creates the file;
but a speculate on a pre-existing file never changes the file's bits,
whatever perm was requested. -/
theorem claim3_final_perm (oldPerm : Option Nat) (req umask : Nat) :
    createDestPerm oldPerm (some req) umask = low9 req ∧
    speculatePerm none (some req) umask = low9 req ∧
    (∀ old, speculatePerm (some old) (some req) umask = low9 old) := by
  have hcd : ∀ op : Option Nat, createDestPerm op (some req) umask
      = low9 req := by
    intro op
    cases op with
    | none =>
      show (if applyUmask 0o666 umask ≠ low9 req then low9 req
        else applyUmask 0o666 umask) = low9 req
      by_cases he : applyUmask 0o666 umask ≠ low9 req
      · rw [if_pos he]
      · rw [if_neg he]
        exact not_not.mp he
    | some old =>
      show (if low9 old ≠ low9 req then low9 req else low9 old) = low9 req
      by_cases he : low9 old ≠ low9 req
      · rw [if_pos he]
      · rw [if_neg he]
        exact not_not.mp he
  exact ⟨hcd oldPerm, hcd none, fun old => rfl⟩

/-- Modelled from the spec: the on-disk effect of mkdir's untracked-tail
branch.  Walk the remaining tail; an existing directory is entered, a
file in the way is an error; every missing directory is created, the
intermediates under mode 0755, the leaf under the requested perm (0755
by default), and the leaf is chmodded to the requested bits when the
umask made the actual mode differ. -/
def mkdirTail (fs : FS) (cur : FPath) (tail : List Seg)
    (reqPerm : Option Nat) (umask : Nat) : Option FS :=
  match tail with
  | [] => some fs
  | [n] =>
    match reqPerm with
    | none => osMkdir fs (cur ++ [n]) 0o755 umask
    | some req =>
      match osMkdir fs (cur ++ [n]) req umask with
      | none => none
      | some fs1 =>
        if low9 (applyUmask req umask) ≠ low9 req then
          some (fs1.set (cur ++ [n]) (Entry.dir (low9 req)))
        else some fs1
  | n :: m :: rest =>
    match fs.get (cur ++ [n]) with
    | some (Entry.dir _) => mkdirTail fs (cur ++ [n]) (m :: rest) reqPerm umask
    | some (Entry.file _ _) => none
    | none =>
      match osMkdir fs (cur ++ [n]) 0o755 umask with
      | none => none
      | some fs1 => mkdirTail fs1 (cur ++ [n]) (m :: rest) reqPerm umask

theorem osMkdir_some {fs : FS} {p : FPath} {mode umask : Nat} {fs1 : FS}
    (h : osMkdir fs p mode umask = some fs1) :
    fs1 = FS.set fs p (Entry.dir (applyUmask mode umask)) := by
  unfold osMkdir at h
  by_cases hp : p = []
  · rw [if_pos hp] at h
    cases h
  · rw [if_neg hp] at h
    cases hg : FS.get fs p with
    | some e =>
      rw [hg] at h
      cases h
    | none =>
      rw [hg] at h
      by_cases hd : FS.isDirB fs p.dropLast = true
      · rw [if_pos hd] at h
        injection h with h2
        exact h2.symm
      · rw [if_neg hd] at h
        cases h

theorem isPre_squeeze {cur r : FPath} {n : Seg}
    (h1 : isPre cur r = true) (h2 : isPre r (cur ++ [n]) = true) :
    r = cur ∨ r = cur ++ [n] := by
  by_cases hl : r.length ≤ cur.length
  · exact Or.inl (isPre_eq_of_length h1 hl)
  · refine Or.inr ?_
    have hx : (cur ++ [n]).length = cur.length + 1 := by simp
    have hl2 : (cur ++ [n]).length ≤ r.length := by omega
    exact (isPre_eq_of_length h2 hl2).symm

theorem isPre_child_self_false (cur : FPath) (n : Seg) :
    isPre (cur ++ [n]) cur = false := by
  cases hip : isPre (cur ++ [n]) cur with
  | false => rfl
  | true =>
    have hle := isPre_length_le hip
    have hx : (cur ++ [n]).length = cur.length + 1 := by simp
    omega

theorem isPre_child_false {cur r : FPath} (n : Seg)
    (h : isPre cur r = false) : isPre (cur ++ [n]) r = false := by
  cases hip : isPre (cur ++ [n]) r with
  | false => rfl
  | true =>
    rw [isPre_child_elim hip] at h
    cases h

/-- C6: a successful mkdir tail walk with a requested perm creates the
whole remaining on-disk tail: the leaf directory ends with exactly the
low 9 requested bits (chmodded when the umask-masked creation mode
differs), every previously missing intermediate directory is created
with the umask-masked mode 0755, and nothing outside the tail is
touched. -/
theorem claim6_mkdir_tail : ∀ (tail : List Seg) (fs : FS) (cur : FPath)
    (req umask : Nat) (fs' : FS),
    tail ≠ [] →
    mkdirTail fs cur tail (some req) umask = some fs' →
    FS.get fs' (cur ++ tail) = some (Entry.dir (low9 req)) ∧
    (∀ r, isPre cur r = true → isPre r (cur ++ tail) = true →
      r ≠ cur → r ≠ cur ++ tail → FS.get fs r = none →
      FS.get fs' r = some (Entry.dir (applyUmask 0o755 umask))) ∧
    (∀ r, r = cur ∨ isPre cur r = false → FS.get fs' r = FS.get fs r)
  | [], _, _, _, _, _, hne, _ => absurd rfl hne
  | [n], fs, cur, req, umask, fs', _, h0 => by
    unfold mkdirTail at h0
    have h : (match osMkdir fs (cur ++ [n]) req umask with
        | none => none
        | some fs1 =>
          if low9 (applyUmask req umask) ≠ low9 req then
            some (fs1.set (cur ++ [n]) (Entry.dir (low9 req)))
          else some fs1) = some fs' := h0
    cases hmk : osMkdir fs (cur ++ [n]) req umask with
    | none =>
      rw [hmk] at h
      cases h
    | some fs1 =>
      rw [hmk] at h
      have hif : (if low9 (applyUmask req umask) ≠ low9 req then
          some (fs1.set (cur ++ [n]) (Entry.dir (low9 req)))
          else some fs1) = some fs' := h
      have hfs1 := osMkdir_some hmk
      have hne2 : ∀ r : FPath, r = cur ∨ isPre cur r = false →
          r ≠ cur ++ [n] := by
        intro r hcase
        cases hcase with
        | inl he =>
          rw [he]
          exact ne_append_cons cur n []
        | inr hf =>
          intro he
          rw [he, isPre_append] at hf
          cases hf
      by_cases hc : low9 (applyUmask req umask) ≠ low9 req
      · rw [if_pos hc] at hif
        injection hif with h2
        refine ⟨?_, ?_, ?_⟩
        · rw [← h2, FS.get_set, if_pos rfl]
        · intro r h1 h2b hrc hrt _
          cases isPre_squeeze h1 h2b with
          | inl he => exact absurd he hrc
          | inr he => exact absurd he hrt
        · intro r hcase
          rw [← h2, FS.get_set, if_neg (hne2 r hcase), hfs1,
            FS.get_set, if_neg (hne2 r hcase)]
      · rw [if_neg hc] at hif
        injection hif with h2
        have heq : applyUmask req umask = low9 req := by
          have hnn := not_not.mp hc
          rw [← hnn, low9_applyUmask]
        refine ⟨?_, ?_, ?_⟩
        · rw [← h2, hfs1, FS.get_set, if_pos rfl, heq]
        · intro r h1 h2b hrc hrt _
          cases isPre_squeeze h1 h2b with
          | inl he => exact absurd he hrc
          | inr he => exact absurd he hrt
        · intro r hcase
          rw [← h2, hfs1, FS.get_set, if_neg (hne2 r hcase)]
  | n :: m :: rest, fs, cur, req, umask, fs', _, h => by
    unfold mkdirTail at h
    have hassoc : cur ++ (n :: m :: rest) = (cur ++ [n]) ++ (m :: rest) := by
      simp
    have hcase2 : ∀ r : FPath, r = cur ∨ isPre cur r = false →
        (r = cur ++ [n] ∨ isPre (cur ++ [n]) r = false) ∧ r ≠ cur ++ [n] := by
      intro r hcase
      cases hcase with
      | inl he =>
        subst he
        exact ⟨Or.inr (isPre_child_self_false r n), ne_append_cons r n []⟩
      | inr hf =>
        refine ⟨Or.inr (isPre_child_false n hf), ?_⟩
        intro he
        rw [he, isPre_append] at hf
        cases hf
    cases hg : FS.get fs (cur ++ [n]) with
    | some e =>
      cases e with
      | file cc pm =>
        rw [hg] at h
        cases h
      | dir pm =>
        rw [hg] at h
        have ih := claim6_mkdir_tail (m :: rest) fs (cur ++ [n]) req umask fs'
          (fun hx => List.noConfusion hx) h
        refine ⟨?_, ?_, ?_⟩
        · rw [hassoc]
          exact ih.1
        · intro r h1 h2 hrc hrt hnone
          by_cases hr1 : r = cur ++ [n]
          · rw [hr1, hg] at hnone
            cases hnone
          · have h1b := isPre_step h1 hrc h2
            have h2b : isPre r ((cur ++ [n]) ++ (m :: rest)) = true := by
              rw [← hassoc]
              exact h2
            have hrtb : r ≠ (cur ++ [n]) ++ (m :: rest) := by
              rw [← hassoc]
              exact hrt
            exact ih.2.1 r h1b h2b hr1 hrtb hnone
        · intro r hcase
          exact ih.2.2 r (Or.imp_left id (hcase2 r hcase).1)
    | none =>
      rw [hg] at h
      cases hmk : osMkdir fs (cur ++ [n]) 0o755 umask with
      | none =>
        rw [hmk] at h
        cases h
      | some fs1 =>
        rw [hmk] at h
        have hfs1 := osMkdir_some hmk
        have ih := claim6_mkdir_tail (m :: rest) fs1 (cur ++ [n]) req umask fs'
          (fun hx => List.noConfusion hx) h
        refine ⟨?_, ?_, ?_⟩
        · rw [hassoc]
          exact ih.1
        · intro r h1 h2 hrc hrt hnone
          by_cases hr1 : r = cur ++ [n]
          · have hst := ih.2.2 r (Or.inl hr1)
            rw [hst, hr1, hfs1, FS.get_set, if_pos rfl]
          · have h1b := isPre_step h1 hrc h2
            have h2b : isPre r ((cur ++ [n]) ++ (m :: rest)) = true := by
              rw [← hassoc]
              exact h2
            have hrtb : r ≠ (cur ++ [n]) ++ (m :: rest) := by
              rw [← hassoc]
              exact hrt
            have hnone1 : FS.get fs1 r = none := by
              rw [hfs1, FS.get_set, if_neg hr1]
              exact hnone
            exact ih.2.1 r h1b h2b hr1 hrtb hnone1
        · intro r hcase
          have hst := ih.2.2 r (hcase2 r hcase).1
          rw [hst, hfs1, FS.get_set, if_neg (hcase2 r hcase).2]

theorem claim6_witness :
    FS.get ((mkdirTail fsW [] ["w2", "sub"] (some 0o666) 0o022).getD [])
      ["w2", "sub"] = some (Entry.dir (low9 0o666)) ∧
    FS.get ((mkdirTail fsW [] ["w2", "sub"] (some 0o666) 0o022).getD [])
      ["w2"] = some (Entry.dir (applyUmask 0o755 0o022)) := by
  have h := claim6_mkdir_tail ["w2", "sub"] fsW [] 0o666 0o022
    ((mkdirTail fsW [] ["w2", "sub"] (some 0o666) 0o022).getD [])
    (by decide) (by decide)
  exact ⟨h.1, h.2.1 ["w2"] (by decide) (by decide) (by decide) (by decide)
    (by decide)⟩

/-! ## Speculation purity (claim C1): helper lemmas -/

theorem isPre_isPre : ∀ {a b c : FPath}, isPre a c = true →
    isPre b c = true → a.length ≤ b.length → isPre a b = true
  | [], _, _, _, _, _ => rfl
  | x :: xs, b, c, h1, h2, hl => by
    cases c with
    | nil => cases h1
    | cons z zs =>
      cases b with
      | nil =>
        simp at hl
      | cons y ys =>
        by_cases hxz : x = z
        · subst hxz
          by_cases hyz : y = x
          · subst hyz
            have h1b : isPre xs zs = true := by
              simpa [isPre] using h1
            have h2b : isPre ys zs = true := by
              simpa [isPre] using h2
            have hlb : xs.length ≤ ys.length := by
              simpa using hl
            simpa [isPre] using isPre_isPre h1b h2b hlb
          · have : isPre (y :: ys) (x :: zs) = false := by
              simp [isPre, hyz]
            rw [this] at h2
            cases h2
        · have : isPre (x :: xs) (z :: zs) = false := by
            simp [isPre, hxz]
          rw [this] at h1
          cases h1

theorem isPre_snoc {r cur : FPath} {n : Seg}
    (h : isPre r (cur ++ [n]) = true) :
    r = cur ++ [n] ∨ isPre r cur = true := by
  by_cases hl : (cur ++ [n]).length ≤ r.length
  · exact Or.inl ((isPre_eq_of_length h hl).symm)
  · have hx : (cur ++ [n]).length = cur.length + 1 := by simp
    have hl2 : r.length ≤ cur.length := by omega
    exact Or.inr (isPre_isPre h (isPre_append cur [n]) hl2)

theorem isPre_dropLast {c q : FPath} (h : isPre c q = true) (hne : q ≠ c) :
    isPre c q.dropLast = true := by
  obtain ⟨t, ht⟩ := isPre_iff.mp h
  cases t with
  | nil =>
    rw [List.append_nil] at ht
    exact absurd ht hne
  | cons x xs =>
    subst ht
    have hd : (c ++ x :: xs).dropLast = c ++ (x :: xs).dropLast :=
      List.dropLast_append_of_ne_nil c (by simp)
    rw [hd]
    exact isPre_append _ _

theorem childName?_self (p : FPath) : FS.childName? p p = none := by
  cases hcn : FS.childName? p p with
  | none => rfl
  | some n =>
    have := FS.childName?_eq_some.mp hcn
    have hlen := congrArg List.length this
    simp at hlen

theorem mem_alookup_of_nodup {κ α : Type} [DecidableEq κ]
    {l : List (κ × α)} {kv : κ × α} (hnd : (l.map Prod.fst).Nodup)
    (hmem : kv ∈ l) : alookup l kv.1 = some kv.2 := by
  induction l with
  | nil => cases hmem
  | cons kv0 rest ih =>
    rw [List.map_cons, List.nodup_cons] at hnd
    cases List.mem_cons.mp hmem with
    | inl he =>
      subst he
      rw [alookup_cons, if_pos rfl]
    | inr hr =>
      rw [alookup_cons]
      by_cases hk : kv0.1 = kv.1
      · exfalso
        apply hnd.1
        rw [hk]
        exact List.mem_map.mpr ⟨kv, hr, rfl⟩
      · rw [if_neg hk]
        exact ih hnd.2 hr

theorem nodup_aset {κ α : Type} [DecidableEq κ] (l : List (κ × α)) (k : κ)
    (a : α) (h : (l.map Prod.fst).Nodup) :
    ((aset l k a).map Prod.fst).Nodup := by
  unfold aset
  by_cases hf : (l.find? (fun kv => kv.1 = k)).isSome = true
  · rw [if_pos hf]
    have he : (l.map (fun kv => if kv.1 = k then (k, a) else kv)).map Prod.fst
        = l.map Prod.fst := by
      rw [List.map_map]
      apply List.map_congr_left
      intro kv _
      by_cases hk : kv.1 = k
      · simp [hk]
      · simp [hk]
    rw [he]
    exact h
  · rw [if_neg hf]
    rw [List.map_append]
    refine List.Nodup.append h (List.nodup_singleton k) ?_
    intro x hx hk2
    have hxk : x = k := by simpa using hk2
    obtain ⟨kv, hkvmem, hkv⟩ := List.mem_map.mp hx
    have hnone : l.find? (fun kv => kv.1 = k) = none :=
      Option.not_isSome_iff_eq_none.mp (by simpa using hf)
    have hfk := List.find?_eq_none.mp hnone kv hkvmem
    rw [hkv, hxk] at hfk
    simp at hfk

theorem filterMap_key_sublist {κ α : Type} (l : List (κ × α))
    (pred : κ × α → Bool) :
    (l.filterMap (fun kv => if pred kv then some kv.1 else none)).Sublist
      (l.map Prod.fst) := by
  induction l with
  | nil => exact List.Sublist.refl _
  | cons kv rest ih =>
    rw [List.filterMap_cons, List.map_cons]
    by_cases hp : pred kv = true
    · rw [if_pos hp]
      exact ih.cons₂ kv.1
    · rw [if_neg hp]
      exact ih.cons kv.1

/-- The dispose fold leaves the filesystem alone at every path at which
no covered entry is a successfully created new file. -/
theorem fold_dispose_keep (kids : List (FPath × FutFile)) :
    ∀ (sb : Sess × Bool) (q : FPath),
      (∀ kv, kv ∈ kids → kv.1 = q →
        ¬ (kv.2.isNew = true ∧ kv.2.err = false)) →
      FS.get ((kids.foldl disposeStep sb).1).fs q = FS.get sb.1.fs q := by
  induction kids with
  | nil => intro sb q _; rfl
  | cons kv rest ih =>
    intro sb q hkeep
    rw [List.foldl_cons]
    have hstep : FS.get ((disposeStep sb kv).1).fs q = FS.get sb.1.fs q := by
      cases disposeUnused_fs sb.1 kv.1 kv.2 q with
      | inl h => exact h
      | inr h =>
        exact absurd ⟨h.2.1, h.2.2.1⟩
          (hkeep kv (List.mem_cons_self kv rest) h.1.symm)
    rw [ih (disposeStep sb kv) q
      (fun kv2 hm hk => hkeep kv2 (List.mem_cons_of_mem kv hm) hk), hstep]

/-- The dispose fold succeeds when the covered keys are distinct and
every successfully created new file is still on disk. -/
theorem fold_dispose_ok : ∀ (kids : List (FPath × FutFile)) (sb : Sess × Bool),
    (kids.map Prod.fst).Nodup → sb.2 = true →
    (∀ kv, kv ∈ kids → kv.2.isNew = true → kv.2.err = false →
      FS.get sb.1.fs kv.1 ≠ none) →
    ((kids.foldl disposeStep sb).2) = true := by
  intro kids
  induction kids with
  | nil =>
    intro sb _ hok _
    exact hok
  | cons kv rest ih =>
    intro sb hnd hok hdisk
    rw [List.map_cons, List.nodup_cons] at hnd
    rw [List.foldl_cons]
    have hdu : ((disposeUnused sb.1 kv.1 kv.2).2) = true := by
      unfold disposeUnused
      by_cases he : kv.2.err = true
      · rw [if_pos he]
      · rw [if_neg he]
        by_cases hn : kv.2.isNew = true
        · rw [if_pos hn]
          have hd := hdisk kv (List.mem_cons_self kv rest) hn
            (by cases hx : kv.2.err with
                | false => rfl
                | true => exact absurd hx he)
          cases hg : FS.get sb.1.fs kv.1 with
          | none => exact absurd hg hd
          | some e => rfl
        · rw [if_neg hn]
    have hseq : (disposeStep sb kv).2
        = (sb.2 && (disposeUnused sb.1 kv.1 kv.2).2) := by
      unfold disposeStep
      rfl
    have hsok : (disposeStep sb kv).2 = true := by
      rw [hseq, hok, hdu]
      rfl
    apply ih (disposeStep sb kv) hnd.2 hsok
    intro kv2 hm hn2 he2
    have hne : kv2.1 ≠ kv.1 := by
      intro he
      apply hnd.1
      rw [← he]
      exact List.mem_map.mpr ⟨kv2, hm, rfl⟩
    have hfs : FS.get ((disposeStep sb kv).1).fs kv2.1
        = FS.get sb.1.fs kv2.1 := by
      cases disposeUnused_fs sb.1 kv.1 kv.2 kv2.1 with
      | inl h => exact h
      | inr h => exact absurd h.1 hne
    rw [hfs]
    exact hdisk kv2 (List.mem_cons_of_mem kv hm) hn2 he2

/-- The whole cleanup pass only filters the registration maps. -/
theorem clean_maps_sublist : ∀ (fuel : Nat) (s : Sess) (p : FPath),
    ((clean fuel s p).1).files.Sublist s.files ∧
    ((clean fuel s p).1).dirs.Sublist s.dirs
  | 0, s, p => ⟨List.Sublist.refl _, List.Sublist.refl _⟩
  | fuel + 1, s, p => by
    have hA := fold_dispose_maps
      (s.files.filter (fun kv => (FS.childName? p kv.1).isSome)) (s, true)
    have hfoldB : ∀ (L : List FPath) (sb : Sess × Bool),
        ((L.foldl (fun (acc : Sess × Bool) (c : FPath) =>
          let (s0, ok0) := acc
          let (s1, ok1) := clean fuel s0 c
          (s1, ok0 && ok1)) sb).1).files.Sublist sb.1.files ∧
        ((L.foldl (fun (acc : Sess × Bool) (c : FPath) =>
          let (s0, ok0) := acc
          let (s1, ok1) := clean fuel s0 c
          (s1, ok0 && ok1)) sb).1).dirs.Sublist sb.1.dirs := by
      intro L
      induction L with
      | nil => intro sb; exact ⟨List.Sublist.refl _, List.Sublist.refl _⟩
      | cons c rest ihL =>
        intro sb
        rw [List.foldl_cons]
        have hstep := clean_maps_sublist fuel sb.1 c
        have hr := ihL ((fun (acc : Sess × Bool) (c : FPath) =>
          let (s0, ok0) := acc
          let (s1, ok1) := clean fuel s0 c
          (s1, ok0 && ok1)) sb c)
        exact ⟨hr.1.trans hstep.1, hr.2.trans hstep.2⟩
    have hB := hfoldB (s.dirs.filterMap
      (fun kv => if (FS.childName? p kv.1).isSome then some kv.1 else none))
      ((s.files.filter (fun kv => (FS.childName? p kv.1).isSome)).foldl
        disposeStep (s, true))
    have hB1 : ((s.dirs.filterMap
        (fun kv => if (FS.childName? p kv.1).isSome then some kv.1 else none)).foldl
        (fun (acc : Sess × Bool) (c : FPath) =>
          let (s0, ok0) := acc
          let (s1, ok1) := clean fuel s0 c
          (s1, ok0 && ok1))
        ((s.files.filter (fun kv => (FS.childName? p kv.1).isSome)).foldl
          disposeStep (s, true))).1.files.Sublist s.files :=
      hB.1.trans (by rw [hA.1])
    have hB2 : ((s.dirs.filterMap
        (fun kv => if (FS.childName? p kv.1).isSome then some kv.1 else none)).foldl
        (fun (acc : Sess × Bool) (c : FPath) =>
          let (s0, ok0) := acc
          let (s1, ok1) := clean fuel s0 c
          (s1, ok0 && ok1))
        ((s.files.filter (fun kv => (FS.childName? p kv.1).isSome)).foldl
          disposeStep (s, true))).1.dirs.Sublist s.dirs :=
      hB.2.trans (by rw [hA.2])
    simp only [clean]
    split
    next hok => exact ⟨hB1, hB2⟩
    next hok =>
      rw [cleanTail_files_eq, cleanTail_dirs_eq]
      exact ⟨(List.filter_sublist _).trans hB1,
        (List.filter_sublist _).trans hB2⟩

/-- cleanTail at a non-speculative node does not touch the disk. -/
theorem cleanTail_skip (s : Sess) (p : FPath)
    (hflag : alookup s.dirs p = some false) :
    ((cleanTail s p).1).fs = s.fs := by
  cases cleanTail_fs_eq s p with
  | inl h => exact h
  | inr h =>
    rw [hflag] at h
    cases h.1

/-- cleanTail at a speculative node whose subtree is already clean
removes the node's directory and succeeds. -/
theorem cleanTail_removes (s : Sess) (p : FPath) (hp : p ≠ [])
    (hflag : alookup s.dirs p = some true)
    (hkids : ∀ q, isPre p q = true → q ≠ p → FS.get s.fs q = none)
    (hdisk : FS.get s.fs p = none ∨ ∃ pm, FS.get s.fs p = some (Entry.dir pm)) :
    (cleanTail s p).2 = true ∧
    (∀ q, isPre p q = true → FS.get ((cleanTail s p).1).fs q = none) := by
  have hflagSC : alookup (s.dirs.filter
      (fun kv => ¬ (FS.childName? p kv.1).isSome)) p = some true := by
    rw [alookup_filter_key s.dirs (fun x => ¬ (FS.childName? p x).isSome) p]
    rw [if_pos (by rw [childName?_self]; rfl)]
    exact hflag
  unfold cleanTail
  have hcond : ({ s with
      files := s.files.filter (fun kv => ¬ (FS.childName? p kv.1).isSome),
      dirs := s.dirs.filter (fun kv => ¬ (FS.childName? p kv.1).isSome) } :
      Sess).dirFlag p = some true := hflagSC
  rw [if_pos hcond]
  cases p with
  | nil => exact absurd rfl hp
  | cons a as =>
    have hfs : ({ s with
        files := s.files.filter
          (fun kv => ¬ (FS.childName? (a :: as) kv.1).isSome),
        dirs := s.dirs.filter
          (fun kv => ¬ (FS.childName? (a :: as) kv.1).isSome) } :
        Sess).fs = s.fs := rfl
    rw [hfs]
    cases hdisk with
    | inl hnone =>
      rw [hnone]
      refine ⟨rfl, ?_⟩
      intro q hq
      show FS.get s.fs q = none
      by_cases hqp : q = a :: as
      · rw [hqp]
        exact hnone
      · exact hkids q hq hqp
    | inr hdir =>
      obtain ⟨pm, hdir⟩ := hdir
      rw [hdir]
      have hemp : (FS.childNames s.fs (a :: as)).isEmpty = true := by
        cases hcn : FS.childNames s.fs (a :: as) with
        | nil => rfl
        | cons n ns =>
          exfalso
          have hmem : n ∈ FS.childNames s.fs (a :: as) := by
            rw [hcn]
            exact List.mem_cons_self n ns
          have hsome := FS.mem_childNames_iff_get.mp hmem
          have hnone := hkids ((a :: as) ++ [n]) (isPre_append _ _)
            (fun he => ne_append_cons (a :: as) n [] he.symm)
          rw [hnone] at hsome
          cases hsome
      rw [if_pos hemp]
      refine ⟨rfl, ?_⟩
      intro q hq
      show FS.get (FS.erase s.fs (a :: as)) q = none
      rw [FS.get_erase]
      by_cases hqp : q = a :: as
      · rw [if_pos hqp]
      · rw [if_neg hqp]
        exact hkids q hq hqp

/-- The invariant of a speculative subtree rooted at p during cleanup:
the node is tracked speculative, every on-disk entry strictly below is
accounted for by a tracked speculative node or a pending new file, every
tracked node below is speculative, registrations form tracked chains,
tracked nodes sit on directories (or nothing), pending new files are
still on disk, and the map keys are distinct. -/
def PurgeInv (s : Sess) (p : FPath) : Prop :=
  alookup s.dirs p = some true ∧
  (∀ q, isPre p q = true → q ≠ p → FS.get s.fs q ≠ none →
    alookup s.dirs q = some true ∨
    (∃ fut, alookup s.files q = some fut ∧ fut.isNew = true ∧
      fut.err = false)) ∧
  (∀ q b, isPre p q = true → alookup s.dirs q = some b → b = true) ∧
  (∀ q fut, isPre p q = true → q ≠ p → alookup s.files q = some fut →
    fut.isNew = true → fut.err = false →
    q ≠ [] ∧ isPre p q.dropLast = true ∧
    (∀ r, isPre p r = true → isPre r q.dropLast = true →
      alookup s.dirs r ≠ none)) ∧
  (∀ q, isPre p q = true → alookup s.dirs q ≠ none →
    ∀ r, isPre p r = true → isPre r q = true → alookup s.dirs r ≠ none) ∧
  (∀ q, isPre p q = true → alookup s.dirs q = some true →
    FS.get s.fs q = none ∨ ∃ pm, FS.get s.fs q = some (Entry.dir pm)) ∧
  (∀ q fut, isPre p q = true → q ≠ p → alookup s.files q = some fut →
    fut.isNew = true → fut.err = false → FS.get s.fs q ≠ none) ∧
  (s.files.map Prod.fst).Nodup ∧
  (s.dirs.map Prod.fst).Nodup

/-- PurgeInv survives any transition that keeps the subtree's lookups,
keeps the disk below the root, at most erases the root entry, and only
filters the maps. -/
theorem PurgeInv_stable (s s' : Sess) (p : FPath) (h : PurgeInv s p)
    (h1 : ∀ q, isPre p q = true → alookup s'.dirs q = alookup s.dirs q)
    (h2 : ∀ q, isPre p q = true → alookup s'.files q = alookup s.files q)
    (h3 : ∀ q, isPre p q = true → q ≠ p → FS.get s'.fs q = FS.get s.fs q)
    (h4 : FS.get s'.fs p = FS.get s.fs p ∨ FS.get s'.fs p = none)
    (h5 : s'.files.Sublist s.files)
    (h6 : s'.dirs.Sublist s.dirs) : PurgeInv s' p := by
  obtain ⟨P1, P2, P3, P4, P5, P6, P7, P8, P9⟩ := h
  refine ⟨?_, ?_, ?_, ?_, ?_, ?_, ?_, ?_, ?_⟩
  · rw [h1 p (isPre_refl p)]
    exact P1
  · intro q hq hqp hfs
    rw [h3 q hq hqp] at hfs
    rw [h1 q hq, h2 q hq]
    exact P2 q hq hqp hfs
  · intro q b hq hb
    rw [h1 q hq] at hb
    exact P3 q b hq hb
  · intro q fut hq hqp hf hn he
    rw [h2 q hq] at hf
    obtain ⟨ha, hb, hc⟩ := P4 q fut hq hqp hf hn he
    refine ⟨ha, hb, ?_⟩
    intro r hr1 hr2
    rw [h1 r hr1]
    exact hc r hr1 hr2
  · intro q hq hd r hr1 hr2
    rw [h1 q hq] at hd
    rw [h1 r hr1]
    exact P5 q hq hd r hr1 hr2
  · intro q hq hd
    rw [h1 q hq] at hd
    by_cases hqp : q = p
    · subst hqp
      cases h4 with
      | inl he => rw [he]; exact P6 q hq hd
      | inr he => exact Or.inl he
    · rw [h3 q hq hqp]
      exact P6 q hq hd
  · intro q fut hq hqp hf hn he
    rw [h2 q hq] at hf
    rw [h3 q hq hqp]
    exact P7 q fut hq hqp hf hn he
  · exact P8.sublist (h5.map Prod.fst)
  · exact P9.sublist (h6.map Prod.fst)

/-- PurgeInv restricts to any tracked node inside the subtree. -/
theorem PurgeInv_child (s : Sess) (p c : FPath) (h : PurgeInv s p)
    (hpc : isPre p c = true) (hcflag : alookup s.dirs c = some true) :
    PurgeInv s c := by
  obtain ⟨P1, P2, P3, P4, P5, P6, P7, P8, P9⟩ := h
  have hnep : ∀ q : FPath, isPre c q = true → q ≠ c → q ≠ p := by
    intro q hq hqc he
    subst he
    exact hqc (isPre_antisymm hpc hq)
  refine ⟨hcflag, ?_, ?_, ?_, ?_, ?_, ?_, P8, P9⟩
  · intro q hq hqc hfs
    exact P2 q (isPre_trans hpc hq) (hnep q hq hqc) hfs
  · intro q b hq hb
    exact P3 q b (isPre_trans hpc hq) hb
  · intro q fut hq hqc hf hn he
    obtain ⟨ha, _, hc2⟩ := P4 q fut (isPre_trans hpc hq) (hnep q hq hqc)
      hf hn he
    refine ⟨ha, isPre_dropLast hq hqc, ?_⟩
    intro r hr1 hr2
    exact hc2 r (isPre_trans hpc hr1) hr2
  · intro q hq hd r hr1 hr2
    exact P5 q (isPre_trans hpc hq) hd r (isPre_trans hpc hr1) hr2
  · intro q hq hd
    exact P6 q (isPre_trans hpc hq) hd
  · intro q fut hq hqc hf hn he
    exact P7 q fut (isPre_trans hpc hq) (hnep q hq hqc) hf hn he

/-- The recursive child pass of clean over a list of distinct tracked
speculative children: it succeeds, empties every child's subtree on
disk, and leaves everything outside the children's subtrees alone. -/
theorem purge_fold (fuel : Nat) (p : FPath)
    (ihp : ∀ (s : Sess) (c : FPath), c ≠ [] → PurgeInv s c →
      (∀ kv, kv ∈ s.dirs → isPre c kv.1 = true →
        kv.1.length - c.length < fuel) →
      (clean fuel s c).2 = true ∧
      (∀ q, isPre c q = true → FS.get ((clean fuel s c).1).fs q = none)) :
    ∀ (L : List FPath), (∀ y, y ∈ L → ∃ m, y = p ++ [m]) → L.Nodup →
    ∀ (sb : Sess × Bool),
    (∀ y, y ∈ L → PurgeInv sb.1 y) →
    (∀ y, y ∈ L → ∀ kv, kv ∈ sb.1.dirs → isPre y kv.1 = true →
      kv.1.length - y.length < fuel) →
    (sb.2 = true → ((L.foldl (fun (acc : Sess × Bool) (c : FPath) =>
      let (s0, ok0) := acc
      let (s1, ok1) := clean fuel s0 c
      (s1, ok0 && ok1)) sb).2) = true) ∧
    (∀ y, y ∈ L → ∀ q, isPre y q = true →
      FS.get ((L.foldl (fun (acc : Sess × Bool) (c : FPath) =>
        let (s0, ok0) := acc
        let (s1, ok1) := clean fuel s0 c
        (s1, ok0 && ok1)) sb).1).fs q = none) ∧
    (∀ q, (∀ y, y ∈ L → isPre y q = false) →
      FS.get ((L.foldl (fun (acc : Sess × Bool) (c : FPath) =>
        let (s0, ok0) := acc
        let (s1, ok1) := clean fuel s0 c
        (s1, ok0 && ok1)) sb).1).fs q = FS.get sb.1.fs q ∧
      alookup ((L.foldl (fun (acc : Sess × Bool) (c : FPath) =>
        let (s0, ok0) := acc
        let (s1, ok1) := clean fuel s0 c
        (s1, ok0 && ok1)) sb).1).dirs q = alookup sb.1.dirs q ∧
      alookup ((L.foldl (fun (acc : Sess × Bool) (c : FPath) =>
        let (s0, ok0) := acc
        let (s1, ok1) := clean fuel s0 c
        (s1, ok0 && ok1)) sb).1).files q = alookup sb.1.files q) ∧
    ((L.foldl (fun (acc : Sess × Bool) (c : FPath) =>
      let (s0, ok0) := acc
      let (s1, ok1) := clean fuel s0 c
      (s1, ok0 && ok1)) sb).1).files.Sublist sb.1.files ∧
    ((L.foldl (fun (acc : Sess × Bool) (c : FPath) =>
      let (s0, ok0) := acc
      let (s1, ok1) := clean fuel s0 c
      (s1, ok0 && ok1)) sb).1).dirs.Sublist sb.1.dirs := by
  intro L
  induction L with
  | nil =>
    intro _ _ sb _ _
    exact ⟨fun h => h, fun y hy => absurd hy (by simp),
      fun q _ => ⟨rfl, rfl, rfl⟩, List.Sublist.refl _, List.Sublist.refl _⟩
  | cons c0 rest ihL =>
    intro hshape hnodup sb hinv hfuelb
    obtain ⟨m0, hm0⟩ := hshape c0 (List.mem_cons_self c0 rest)
    have hinv0 := hinv c0 (List.mem_cons_self c0 rest)
    have hc0ne : c0 ≠ [] := by rw [hm0]; simp
    have hres := ihp sb.1 c0 hc0ne hinv0 (hfuelb c0 (List.mem_cons_self c0 rest))
    have hrel := clean_rel fuel sb.1 c0
    have hsubf := (clean_maps_sublist fuel sb.1 c0).1
    have hsubd := (clean_maps_sublist fuel sb.1 c0).2
    have hdisj : ∀ y, y ∈ rest → ∀ q, isPre y q = true →
        isPre c0 q = false := by
      intro y hy q hq
      obtain ⟨my, hmy⟩ := hshape y (List.mem_cons_of_mem c0 hy)
      have hyne : y ≠ c0 := by
        intro he
        rw [he] at hy
        exact (List.nodup_cons.mp hnodup).1 hy
      have hmne : my ≠ m0 := fun hx => hyne (by rw [hmy, hm0, hx])
      rw [hm0]
      exact isPre_child_disjoint hmne (by rw [← hmy]; exact hq)
    have hdisj0 : ∀ q, isPre c0 q = true → ∀ y, y ∈ rest →
        isPre y q = false := by
      intro q hq y hy
      obtain ⟨my, hmy⟩ := hshape y (List.mem_cons_of_mem c0 hy)
      have hyne : y ≠ c0 := by
        intro he
        rw [he] at hy
        exact (List.nodup_cons.mp hnodup).1 hy
      have hmne : m0 ≠ my := fun hx => hyne (by rw [hmy, hm0, hx])
      rw [hmy]
      exact isPre_child_disjoint hmne (by rw [← hm0]; exact hq)
    have hinvR : ∀ y, y ∈ rest →
        PurgeInv ((clean fuel sb.1 c0).1) y := by
      intro y hy
      apply PurgeInv_stable sb.1 _ y (hinv y (List.mem_cons_of_mem c0 hy))
      · intro q hq
        exact hrel.2.2.1 q (fun hcon => by
          rw [hdisj y hy q hq] at hcon
          cases hcon)
      · intro q hq
        exact hrel.2.1 q (fun hcon => by
          rw [hdisj y hy q hq] at hcon
          cases hcon)
      · intro q hq _
        exact hrel.1 q (fun hcon => by
          rw [hdisj y hy q hq] at hcon
          cases hcon)
      · exact Or.inl (hrel.1 y (fun hcon => by
          rw [hdisj y hy y (isPre_refl y)] at hcon
          cases hcon))
      · exact hsubf
      · exact hsubd
    have hfuelR : ∀ y, y ∈ rest → ∀ kv,
        kv ∈ ((clean fuel sb.1 c0).1).dirs → isPre y kv.1 = true →
        kv.1.length - y.length < fuel := by
      intro y hy kv hkv hpre
      exact hfuelb y (List.mem_cons_of_mem c0 hy) kv (hsubd.subset hkv) hpre
    have hIH := ihL (fun y hy => hshape y (List.mem_cons_of_mem c0 hy))
      (List.nodup_cons.mp hnodup).2
      ((clean fuel sb.1 c0).1, sb.2 && (clean fuel sb.1 c0).2)
      hinvR hfuelR
    have hT1 : sb.2 = true → ((rest.foldl (fun (acc : Sess × Bool) (c : FPath) =>
        let (s0, ok0) := acc
        let (s1, ok1) := clean fuel s0 c
        (s1, ok0 && ok1))
        ((clean fuel sb.1 c0).1, sb.2 && (clean fuel sb.1 c0).2)).2) = true := by
      intro hok
      apply hIH.1
      show (sb.2 && (clean fuel sb.1 c0).2) = true
      rw [hok, hres.1]
      rfl
    have hT2 : ∀ y, y ∈ c0 :: rest → ∀ q, isPre y q = true →
        FS.get ((rest.foldl (fun (acc : Sess × Bool) (c : FPath) =>
          let (s0, ok0) := acc
          let (s1, ok1) := clean fuel s0 c
          (s1, ok0 && ok1))
        ((clean fuel sb.1 c0).1, sb.2 && (clean fuel sb.1 c0).2)).1).fs q
        = none := by
      intro y hy q hq
      cases List.mem_cons.mp hy with
      | inl hyc =>
        subst hyc
        have hfr := (hIH.2.2.1 q (hdisj0 q hq)).1
        rw [hfr]
        exact hres.2 q hq
      | inr hyr => exact hIH.2.1 y hyr q hq
    have hT3 : ∀ q, (∀ y, y ∈ c0 :: rest → isPre y q = false) →
        FS.get ((rest.foldl (fun (acc : Sess × Bool) (c : FPath) =>
          let (s0, ok0) := acc
          let (s1, ok1) := clean fuel s0 c
          (s1, ok0 && ok1))
        ((clean fuel sb.1 c0).1, sb.2 && (clean fuel sb.1 c0).2)).1).fs q
          = FS.get sb.1.fs q ∧
        alookup ((rest.foldl (fun (acc : Sess × Bool) (c : FPath) =>
          let (s0, ok0) := acc
          let (s1, ok1) := clean fuel s0 c
          (s1, ok0 && ok1))
        ((clean fuel sb.1 c0).1, sb.2 && (clean fuel sb.1 c0).2)).1).dirs q
          = alookup sb.1.dirs q ∧
        alookup ((rest.foldl (fun (acc : Sess × Bool) (c : FPath) =>
          let (s0, ok0) := acc
          let (s1, ok1) := clean fuel s0 c
          (s1, ok0 && ok1))
        ((clean fuel sb.1 c0).1, sb.2 && (clean fuel sb.1 c0).2)).1).files q
          = alookup sb.1.files q := by
      intro q hall
      have hno : ∀ y, y ∈ rest → isPre y q = false :=
        fun y hy => hall y (List.mem_cons_of_mem c0 hy)
      have hc0no : isPre c0 q = false := hall c0 (List.mem_cons_self c0 rest)
      have hfr := hIH.2.2.1 q hno
      have hcon : ¬ isPre c0 q = true := fun hcon => by
        rw [hc0no] at hcon
        cases hcon
      exact ⟨by rw [hfr.1]; exact hrel.1 q hcon,
        by rw [hfr.2.1]; exact hrel.2.2.1 q hcon,
        by rw [hfr.2.2]; exact hrel.2.1 q hcon⟩
    have hT4 := hIH.2.2.2.1.trans hsubf
    have hT5 := hIH.2.2.2.2.trans hsubd
    exact ⟨hT1, hT2, hT3, hT4, hT5⟩

/-- Cleanup of a tracked speculative node with the purge invariant:
it succeeds and leaves nothing on disk at or below the node. -/
theorem clean_purge : ∀ (fuel : Nat) (s : Sess) (p : FPath),
    p ≠ [] → PurgeInv s p →
    (∀ kv, kv ∈ s.dirs → isPre p kv.1 = true →
      kv.1.length - p.length < fuel) →
    (clean fuel s p).2 = true ∧
    (∀ q, isPre p q = true → FS.get ((clean fuel s p).1).fs q = none)
  | 0, s, p, hp, hinv, hfuel =>
    absurd (hfuel (p, true) (alookup_mem hinv.1) (isPre_refl p)) (by omega)
  | fuel + 1, s, p, hp, hinv, hfuel => by
    have hFKshape : ∀ kv, kv ∈ (s.files.filter (fun kv => (FS.childName? p kv.1).isSome)) → ∃ n, kv.1 = p ++ [n] := by
      intro kv hkv
      have hpred := (List.mem_filter.mp hkv).2
      exact FS.childName?_isSome_iff.mp (by simpa using hpred)
    have hFKnodup : ((s.files.filter (fun kv => (FS.childName? p kv.1).isSome)).map Prod.fst).Nodup :=
      (hinv.2.2.2.2.2.2.2.1).sublist ((List.filter_sublist _).map Prod.fst)
    have hAok : (((s.files.filter (fun kv => (FS.childName? p kv.1).isSome)).foldl disposeStep (s, true)).2) = true := by
      apply fold_dispose_ok _ (s, true) hFKnodup rfl
      intro kv hkv hn he
      obtain ⟨n, hkvn⟩ := hFKshape kv hkv
      have hmem := (List.mem_filter.mp hkv).1
      have hlook := mem_alookup_of_nodup hinv.2.2.2.2.2.2.2.1 hmem
      have hpre : isPre p kv.1 = true := by
        rw [hkvn]
        exact isPre_append p [n]
      have hnep : kv.1 ≠ p := by
        rw [hkvn]
        exact fun he2 => ne_append_cons p n [] he2.symm
      exact hinv.2.2.2.2.2.2.1 kv.1 kv.2 hpre hnep hlook hn he
    have hAmaps := fold_dispose_maps (s.files.filter (fun kv => (FS.childName? p kv.1).isSome)) (s, true)
    have hshapeAll : ∀ y, y ∈ (s.dirs.filterMap (fun kv => if (FS.childName? p kv.1).isSome then some kv.1 else none)) → ∃ m, y = p ++ [m] := by
      intro y hy
      obtain ⟨kv, hkvmem, hkv⟩ := List.mem_filterMap.mp hy
      by_cases hsome : (FS.childName? p kv.1).isSome = true
      · rw [if_pos hsome] at hkv
        cases hkv with
        | refl =>
          obtain ⟨m, hm⟩ := FS.childName?_isSome_iff.mp hsome
          exact ⟨m, hm⟩
      · rw [if_neg hsome] at hkv
        cases hkv
    have hDKtrack : ∀ y, y ∈ (s.dirs.filterMap (fun kv => if (FS.childName? p kv.1).isSome then some kv.1 else none)) → alookup s.dirs y = some true := by
      intro y hy
      obtain ⟨kv, hkvm, hkveq⟩ := List.mem_filterMap.mp hy
      by_cases hsome : (FS.childName? p kv.1).isSome = true
      · rw [if_pos hsome] at hkveq
        injection hkveq with hkv1
        have hlook := mem_alookup_of_nodup hinv.2.2.2.2.2.2.2.2 hkvm
        rw [hkv1] at hlook
        have hpre : isPre p y = true := by
          obtain ⟨m, hm⟩ := FS.childName?_isSome_iff.mp hsome
          rw [← hkv1, hm]
          exact isPre_append p [m]
        have hb := hinv.2.2.1 y kv.2 hpre hlook
        rw [hb] at hlook
        exact hlook
      · rw [if_neg hsome] at hkveq
        cases hkveq
    have hDKnodup : ((s.dirs.filterMap (fun kv => if (FS.childName? p kv.1).isSome then some kv.1 else none))).Nodup :=
      (hinv.2.2.2.2.2.2.2.2).sublist (filterMap_key_sublist s.dirs _)
    have hAfs_deep : ∀ q, p.length + 2 ≤ q.length →
        FS.get (((s.files.filter (fun kv => (FS.childName? p kv.1).isSome)).foldl disposeStep (s, true)).1).fs q = FS.get s.fs q := by
      intro q hlen
      apply fold_dispose_keep
      intro kv hkv hk
      exfalso
      obtain ⟨n, hkvn⟩ := hFKshape kv hkv
      rw [hk] at hkvn
      have hql : q.length = p.length + 1 := by
        rw [hkvn]
        simp
      omega
    have hinvA : ∀ y, y ∈ (s.dirs.filterMap (fun kv => if (FS.childName? p kv.1).isSome then some kv.1 else none)) → PurgeInv (((s.files.filter (fun kv => (FS.childName? p kv.1).isSome)).foldl disposeStep (s, true)).1) y := by
      intro y hy
      obtain ⟨m, hm⟩ := hshapeAll y hy
      have hpre : isPre p y = true := by
        rw [hm]
        exact isPre_append p [m]
      have hylen : y.length = p.length + 1 := by
        rw [hm]
        simp
      have hchild := PurgeInv_child s p y hinv hpre (hDKtrack y hy)
      apply PurgeInv_stable s _ y hchild
      · intro q hq
        rw [hAmaps.2]
      · intro q hq
        rw [hAmaps.1]
      · intro q hq hqy
        apply hAfs_deep q
        have h1 := isPre_length_le hq
        have h3 : y.length < q.length := by
          rcases Nat.lt_or_ge y.length q.length with h | h
          · exact h
          · exact absurd (isPre_eq_of_length hq h) hqy
        omega
      · exact fold_dispose_mono _ (s, true) y
      · rw [hAmaps.1]
      · rw [hAmaps.2]
    have hfuelA : ∀ y, y ∈ (s.dirs.filterMap (fun kv => if (FS.childName? p kv.1).isSome then some kv.1 else none)) → ∀ kv, kv ∈ (((s.files.filter (fun kv => (FS.childName? p kv.1).isSome)).foldl disposeStep (s, true)).1).dirs →
        isPre y kv.1 = true → kv.1.length - y.length < fuel := by
      intro y hy kv hkv hpre
      rw [hAmaps.2] at hkv
      obtain ⟨m, hm⟩ := hshapeAll y hy
      have hylen : y.length = p.length + 1 := by
        rw [hm]
        simp
      have hpre2 : isPre p kv.1 = true := by
        apply isPre_trans _ hpre
        rw [hm]
        exact isPre_append p [m]
      have h3 := hfuel kv hkv hpre2
      have h4 := isPre_length_le hpre
      omega
    have hB := purge_fold fuel p
      (fun s2 c hne hi hf => clean_purge fuel s2 c hne hi hf)
      (s.dirs.filterMap (fun kv => if (FS.childName? p kv.1).isSome then some kv.1 else none)) hshapeAll hDKnodup ((s.files.filter (fun kv => (FS.childName? p kv.1).isSome)).foldl disposeStep (s, true)) hinvA hfuelA
    have hBok : (((s.dirs.filterMap (fun kv => if (FS.childName? p kv.1).isSome then some kv.1 else none)).foldl (fun (acc : Sess × Bool) (c : FPath) =>
      let (s0, ok0) := acc
      let (s1, ok1) := clean fuel s0 c
      (s1, ok0 && ok1)) ((s.files.filter (fun kv => (FS.childName? p kv.1).isSome)).foldl disposeStep (s, true))).2) = true := hB.1 hAok
    have hApar : FS.get (((s.files.filter (fun kv => (FS.childName? p kv.1).isSome)).foldl disposeStep (s, true)).1).fs p = FS.get s.fs p := by
      apply fold_dispose_keep
      intro kv hkv hk
      exfalso
      obtain ⟨n, hkvn⟩ := hFKshape kv hkv
      rw [hk] at hkvn
      exact ne_append_cons p n [] hkvn
    have hallp : ∀ y, y ∈ (s.dirs.filterMap (fun kv => if (FS.childName? p kv.1).isSome then some kv.1 else none)) → isPre y p = false := by
      intro y hy
      obtain ⟨m, hm⟩ := hshapeAll y hy
      rw [hm]
      exact isPre_child_self_false p m
    have hBfrp := hB.2.2.1 p hallp
    have hflagB : alookup (((s.dirs.filterMap (fun kv => if (FS.childName? p kv.1).isSome then some kv.1 else none)).foldl (fun (acc : Sess × Bool) (c : FPath) =>
      let (s0, ok0) := acc
      let (s1, ok1) := clean fuel s0 c
      (s1, ok0 && ok1)) ((s.files.filter (fun kv => (FS.childName? p kv.1).isSome)).foldl disposeStep (s, true))).1).dirs p = some true := by
      rw [hBfrp.2.1, hAmaps.2]
      exact hinv.1
    have hdiskB : FS.get (((s.dirs.filterMap (fun kv => if (FS.childName? p kv.1).isSome then some kv.1 else none)).foldl (fun (acc : Sess × Bool) (c : FPath) =>
      let (s0, ok0) := acc
      let (s1, ok1) := clean fuel s0 c
      (s1, ok0 && ok1)) ((s.files.filter (fun kv => (FS.childName? p kv.1).isSome)).foldl disposeStep (s, true))).1).fs p = none ∨
        ∃ pm, FS.get (((s.dirs.filterMap (fun kv => if (FS.childName? p kv.1).isSome then some kv.1 else none)).foldl (fun (acc : Sess × Bool) (c : FPath) =>
      let (s0, ok0) := acc
      let (s1, ok1) := clean fuel s0 c
      (s1, ok0 && ok1)) ((s.files.filter (fun kv => (FS.childName? p kv.1).isSome)).foldl disposeStep (s, true))).1).fs p = some (Entry.dir pm) := by
      rw [hBfrp.1, hApar]
      exact hinv.2.2.2.2.2.1 p (isPre_refl p) hinv.1
    have hmid : ∀ q, isPre p q = true → q ≠ p →
        FS.get (((s.dirs.filterMap (fun kv => if (FS.childName? p kv.1).isSome then some kv.1 else none)).foldl (fun (acc : Sess × Bool) (c : FPath) =>
      let (s0, ok0) := acc
      let (s1, ok1) := clean fuel s0 c
      (s1, ok0 && ok1)) ((s.files.filter (fun kv => (FS.childName? p kv.1).isSome)).foldl disposeStep (s, true))).1).fs q = none := by
      intro q hq hqp
      obtain ⟨t, ht⟩ := isPre_iff.mp hq
      cases t with
      | nil => exact absurd (by rw [ht, List.append_nil]) hqp
      | cons m t2 =>
        have hqc : isPre (p ++ [m]) q = true := by
          rw [ht]
          have hassoc : p ++ m :: t2 = (p ++ [m]) ++ t2 := by simp
          rw [hassoc]
          exact isPre_append _ _
        by_cases hcl : alookup s.dirs (p ++ [m]) = none
        · have hfr : ∀ y, y ∈ (s.dirs.filterMap (fun kv => if (FS.childName? p kv.1).isSome then some kv.1 else none)) → isPre y q = false := by
            intro y hy
            obtain ⟨my, hmy⟩ := hshapeAll y hy
            have hymne : my ≠ m := by
              intro hx
              have htr := hDKtrack y hy
              rw [hmy, hx] at htr
              rw [htr] at hcl
              cases hcl
            rw [hmy]
            exact isPre_child_disjoint (fun hx => hymne hx.symm) hqc
          have hBfr := hB.2.2.1 q hfr
          by_cases hq0 : FS.get s.fs q = none
          · rw [hBfr.1]
            cases fold_dispose_mono _ (s, true) q with
            | inl h =>
              rw [h]
              exact hq0
            | inr h => exact h
          · cases hinv.2.1 q hq hqp hq0 with
            | inl hdir =>
              exact absurd hcl (hinv.2.2.2.2.1 q hq
                (by rw [hdir]; exact fun h => Option.noConfusion h)
                (p ++ [m]) (isPre_append p [m]) hqc)
            | inr hfile =>
              obtain ⟨fut, hfq, hn, he⟩ := hfile
              cases t2 with
              | nil =>
                have hqe : q = p ++ [m] := by
                  rw [ht]
                have hmemF := alookup_mem hfq
                have hmemFK : (q, fut) ∈ (s.files.filter (fun kv => (FS.childName? p kv.1).isSome)) := by
                  apply List.mem_filter.mpr
                  refine ⟨hmemF, ?_⟩
                  show ((FS.childName? p (q, fut).1).isSome) = true
                  rw [show (q, fut).1 = p ++ [m] from hqe,
                    FS.childName?_eq_some.mpr rfl]
                  rfl
                have hA0 := fold_dispose_none _ (s, true) q fut hmemFK hn he
                rw [hBfr.1]
                exact hA0
              | cons m2 t3 =>
                have hqnc : q ≠ p ++ [m] := by
                  rw [ht]
                  intro he2
                  have hlen := congrArg List.length he2
                  simp at hlen
                have hP4 := hinv.2.2.2.1 q fut hq hqp hfq hn he
                exact absurd hcl (hP4.2.2 (p ++ [m]) (isPre_append p [m])
                  (isPre_dropLast hqc hqnc))
        · obtain ⟨b, hb⟩ : ∃ b, alookup s.dirs (p ++ [m]) = some b := by
            cases hx : alookup s.dirs (p ++ [m]) with
            | none => exact absurd hx hcl
            | some b => exact ⟨b, rfl⟩
          have hmemD := alookup_mem hb
          have hmemDK : (p ++ [m]) ∈ (s.dirs.filterMap (fun kv => if (FS.childName? p kv.1).isSome then some kv.1 else none)) := by
            apply List.mem_filterMap.mpr
            refine ⟨(p ++ [m], b), hmemD, ?_⟩
            rw [if_pos (by rw [FS.childName?_eq_some.mpr rfl]; rfl)]
          exact hB.2.1 (p ++ [m]) hmemDK q hqc
    have htail := cleanTail_removes (((s.dirs.filterMap (fun kv => if (FS.childName? p kv.1).isSome then some kv.1 else none)).foldl (fun (acc : Sess × Bool) (c : FPath) =>
      let (s0, ok0) := acc
      let (s1, ok1) := clean fuel s0 c
      (s1, ok0 && ok1)) ((s.files.filter (fun kv => (FS.childName? p kv.1).isSome)).foldl disposeStep (s, true))).1) p hp hflagB hmid hdiskB
    have hclean_eq : clean (fuel + 1) s p = cleanTail (((s.dirs.filterMap (fun kv => if (FS.childName? p kv.1).isSome then some kv.1 else none)).foldl (fun (acc : Sess × Bool) (c : FPath) =>
      let (s0, ok0) := acc
      let (s1, ok1) := clean fuel s0 c
      (s1, ok0 && ok1)) ((s.files.filter (fun kv => (FS.childName? p kv.1).isSome)).foldl disposeStep (s, true))).1) p := by
      simp only [clean]
      split
      next hok =>
        have hok2 : (((s.dirs.filterMap (fun kv => if (FS.childName? p kv.1).isSome then some kv.1 else none)).foldl (fun (acc : Sess × Bool) (c : FPath) =>
      let (s0, ok0) := acc
      let (s1, ok1) := clean fuel s0 c
      (s1, ok0 && ok1)) ((s.files.filter (fun kv => (FS.childName? p kv.1).isSome)).foldl disposeStep (s, true))).2) = false := by simpa using hok
        rw [hok2] at hBok
        cases hBok
      next hok => rfl
    rw [hclean_eq]
    exact ⟨htail.1, htail.2⟩

/-- The invariant of the speculation phase, localized at a subtree rooted
at p, relative to the pre-session filesystem fs0: every disk change is
accounted for by a tracked speculative node or a pending new file,
speculative nodes cover fs0-free regions, tracked nodes sit on disk
directories, pending new files are new and on disk with tracked parent
chains, tracked chains are closed, and the map keys are distinct. -/
def MixedInv (fs0 : FS) (s : Sess) (p : FPath) : Prop :=
  (∀ q, isPre p q = true → q ≠ p → FS.get s.fs q ≠ FS.get fs0 q →
    alookup s.dirs q = some true ∨
    (∃ fut, alookup s.files q = some fut ∧ fut.isNew = true ∧
      fut.err = false)) ∧
  (∀ q, isPre p q = true → alookup s.dirs q = some true →
    ∀ r, isPre q r = true → FS.get fs0 r = none) ∧
  (∀ q b, isPre p q = true → alookup s.dirs q = some b →
    q = [] ∨ ∃ pm, FS.get s.fs q = some (Entry.dir pm)) ∧
  (∀ q fut, isPre p q = true → alookup s.files q = some fut →
    fut.isNew = true → fut.err = false →
    FS.get fs0 q = none ∧ (∃ c pm, FS.get s.fs q = some (Entry.file c pm)) ∧
    alookup s.dirs q = none) ∧
  (∀ q fut, isPre p q = true → alookup s.files q = some fut →
    fut.isNew = true → fut.err = false →
    q ≠ [] ∧ isPre p q.dropLast = true ∧
    (∀ r, isPre p r = true → isPre r q.dropLast = true →
      alookup s.dirs r ≠ none)) ∧
  (∀ q, isPre p q = true → alookup s.dirs q ≠ none →
    ∀ r, isPre p r = true → isPre r q = true → alookup s.dirs r ≠ none) ∧
  (s.files.map Prod.fst).Nodup ∧
  (s.dirs.map Prod.fst).Nodup

theorem MixedInv_stable (fs0 : FS) (s s' : Sess) (p : FPath)
    (h : MixedInv fs0 s p)
    (h1 : ∀ q, isPre p q = true → alookup s'.dirs q = alookup s.dirs q)
    (h2 : ∀ q, isPre p q = true → alookup s'.files q = alookup s.files q)
    (h3 : ∀ q, isPre p q = true → FS.get s'.fs q = FS.get s.fs q)
    (h5 : s'.files.Sublist s.files)
    (h6 : s'.dirs.Sublist s.dirs) : MixedInv fs0 s' p := by
  obtain ⟨M1, M2, M3, M4, M5, M6, M7, M8⟩ := h
  refine ⟨?_, ?_, ?_, ?_, ?_, ?_, ?_, ?_⟩
  · intro q hq hqp hfs
    rw [h3 q hq] at hfs
    rw [h1 q hq, h2 q hq]
    exact M1 q hq hqp hfs
  · intro q hq hd r hr
    rw [h1 q hq] at hd
    exact M2 q hq hd r hr
  · intro q b hq hb
    rw [h1 q hq] at hb
    rw [h3 q hq]
    exact M3 q b hq hb
  · intro q fut hq hf hn he
    rw [h2 q hq] at hf
    rw [h3 q hq, h1 q hq]
    exact M4 q fut hq hf hn he
  · intro q fut hq hf hn he
    rw [h2 q hq] at hf
    obtain ⟨ha, hb, hc⟩ := M5 q fut hq hf hn he
    exact ⟨ha, hb, fun r hr1 hr2 => by rw [h1 r hr1]; exact hc r hr1 hr2⟩
  · intro q hq hd r hr1 hr2
    rw [h1 q hq] at hd
    rw [h1 r hr1]
    exact M6 q hq hd r hr1 hr2
  · exact M7.sublist (h5.map Prod.fst)
  · exact M8.sublist (h6.map Prod.fst)

/-- A tracked speculative node inside a mixed subtree satisfies the
purge invariant. -/
theorem MixedInv_purge (fs0 : FS) (s : Sess) (p c : FPath)
    (h : MixedInv fs0 s p) (hpc : isPre p c = true) (hcp : c ≠ p)
    (hcne : c ≠ [])
    (hflag : alookup s.dirs c = some true) : PurgeInv s c := by
  obtain ⟨M1, M2, M3, M4, M5, M6, M7, M8⟩ := h
  have hnep : ∀ q : FPath, isPre c q = true → q ≠ p := by
    intro q hq he
    subst he
    exact hcp (isPre_antisymm hq hpc)
  have hqnil : ∀ q : FPath, isPre c q = true → q ≠ [] := by
    intro q hq he
    subst he
    cases c with
    | nil => exact hcne rfl
    | cons a as => cases hq
  have hfs0 : ∀ q, isPre c q = true → FS.get fs0 q = none :=
    fun q hq => M2 c hpc hflag q hq
  refine ⟨hflag, ?_, ?_, ?_, ?_, ?_, ?_, M7, M8⟩
  · intro q hq hqc hfs
    apply M1 q (isPre_trans hpc hq) (hnep q hq)
    rw [hfs0 q hq]
    exact hfs
  · intro q b hq hb
    cases b with
    | true => rfl
    | false =>
      exfalso
      cases M3 q false (isPre_trans hpc hq) hb with
      | inl he => exact hqnil q hq he
      | inr hdir =>
        obtain ⟨pm, hdir⟩ := hdir
        have hne : FS.get s.fs q ≠ FS.get fs0 q := by
          rw [hdir, hfs0 q hq]
          exact fun hcon => Option.noConfusion hcon
        cases M1 q (isPre_trans hpc hq) (hnep q hq) hne with
        | inl htr =>
          rw [htr] at hb
          injection hb with hb2
          cases hb2
        | inr hfile =>
          obtain ⟨fut, hfq, hn, he⟩ := hfile
          have hnone := (M4 q fut (isPre_trans hpc hq) hfq hn he).2.2
          rw [hnone] at hb
          cases hb
  · intro q fut hq hqc hf hn he
    obtain ⟨ha, _, hc2⟩ := M5 q fut (isPre_trans hpc hq) hf hn he
    refine ⟨ha, isPre_dropLast hq hqc, ?_⟩
    intro r hr1 hr2
    exact hc2 r (isPre_trans hpc hr1) hr2
  · intro q hq hd r hr1 hr2
    exact M6 q (isPre_trans hpc hq) hd r (isPre_trans hpc hr1) hr2
  · intro q hq hd
    cases M3 q true (isPre_trans hpc hq) hd with
    | inl he => exact absurd he (hqnil q hq)
    | inr hdir => exact Or.inr hdir
  · intro q fut hq hqc hf hn he
    obtain ⟨_, ⟨cc, pm, hdisk⟩, _⟩ := M4 q fut (isPre_trans hpc hq) hf hn he
    rw [hdisk]
    exact fun hcon => Option.noConfusion hcon

/-- MixedInv restricts to a tracked non-speculative node inside the
subtree. -/
theorem MixedInv_child (fs0 : FS) (s : Sess) (p c : FPath)
    (h : MixedInv fs0 s p) (hpc : isPre p c = true) (hcp : c ≠ p)
    (hflag : alookup s.dirs c = some false) : MixedInv fs0 s c := by
  obtain ⟨M1, M2, M3, M4, M5, M6, M7, M8⟩ := h
  have hnep : ∀ q : FPath, isPre c q = true → q ≠ p := by
    intro q hq he
    subst he
    exact hcp (isPre_antisymm hq hpc)
  refine ⟨?_, ?_, ?_, ?_, ?_, ?_, M7, M8⟩
  · intro q hq hqc hfs
    exact M1 q (isPre_trans hpc hq) (hnep q hq) hfs
  · intro q hq hd r hr
    exact M2 q (isPre_trans hpc hq) hd r hr
  · intro q b hq hb
    exact M3 q b (isPre_trans hpc hq) hb
  · intro q fut hq hf hn he
    exact M4 q fut (isPre_trans hpc hq) hf hn he
  · intro q fut hq hf hn he
    obtain ⟨ha, _, hc2⟩ := M5 q fut (isPre_trans hpc hq) hf hn he
    have hqc : q ≠ c := by
      intro he2
      subst he2
      have hnone := (M4 q fut (isPre_trans hpc hq) hf hn he).2.2
      rw [hnone] at hflag
      cases hflag
    refine ⟨ha, isPre_dropLast hq hqc, ?_⟩
    intro r hr1 hr2
    exact hc2 r (isPre_trans hpc hr1) hr2
  · intro q hq hd r hr1 hr2
    exact M6 q (isPre_trans hpc hq) hd r (isPre_trans hpc hr1) hr2

/-- The recursive child pass of clean at a mixed (non-speculative) node:
every child's subtree is restored to the pre-session filesystem, and
everything outside the children's subtrees is untouched. -/
theorem mixed_fold (fuel : Nat) (p : FPath) (fs0 : FS)
    (ihr : ∀ (s : Sess) (c : FPath), alookup s.dirs c = some false →
      MixedInv fs0 s c →
      (∀ kv, kv ∈ s.dirs → isPre c kv.1 = true →
        kv.1.length - c.length < fuel) →
      (∀ q, isPre c q = true → q ≠ c →
        FS.get ((clean fuel s c).1).fs q = FS.get fs0 q) ∧
      FS.get ((clean fuel s c).1).fs c = FS.get s.fs c) :
    ∀ (L : List FPath), (∀ y, y ∈ L → ∃ m, y = p ++ [m]) → L.Nodup →
    ∀ (sb : Sess × Bool),
    (∀ y, y ∈ L → y ≠ [] ∧ ∃ b, alookup sb.1.dirs y = some b ∧
      (b = true → PurgeInv sb.1 y ∧
        (∀ q, isPre y q = true → FS.get fs0 q = none)) ∧
      (b = false → MixedInv fs0 sb.1 y ∧
        FS.get sb.1.fs y = FS.get fs0 y)) →
    (∀ y, y ∈ L → ∀ kv, kv ∈ sb.1.dirs → isPre y kv.1 = true →
      kv.1.length - y.length < fuel) →
    (∀ y, y ∈ L → ∀ q, isPre y q = true →
      FS.get ((L.foldl (fun (acc : Sess × Bool) (c : FPath) =>
      let (s0, ok0) := acc
      let (s1, ok1) := clean fuel s0 c
      (s1, ok0 && ok1)) sb).1).fs q = FS.get fs0 q) ∧
    (∀ q, (∀ y, y ∈ L → isPre y q = false) →
      FS.get ((L.foldl (fun (acc : Sess × Bool) (c : FPath) =>
      let (s0, ok0) := acc
      let (s1, ok1) := clean fuel s0 c
      (s1, ok0 && ok1)) sb).1).fs q = FS.get sb.1.fs q ∧
      alookup ((L.foldl (fun (acc : Sess × Bool) (c : FPath) =>
      let (s0, ok0) := acc
      let (s1, ok1) := clean fuel s0 c
      (s1, ok0 && ok1)) sb).1).dirs q = alookup sb.1.dirs q ∧
      alookup ((L.foldl (fun (acc : Sess × Bool) (c : FPath) =>
      let (s0, ok0) := acc
      let (s1, ok1) := clean fuel s0 c
      (s1, ok0 && ok1)) sb).1).files q = alookup sb.1.files q) ∧
    ((L.foldl (fun (acc : Sess × Bool) (c : FPath) =>
      let (s0, ok0) := acc
      let (s1, ok1) := clean fuel s0 c
      (s1, ok0 && ok1)) sb).1).files.Sublist sb.1.files ∧
    ((L.foldl (fun (acc : Sess × Bool) (c : FPath) =>
      let (s0, ok0) := acc
      let (s1, ok1) := clean fuel s0 c
      (s1, ok0 && ok1)) sb).1).dirs.Sublist sb.1.dirs := by
  intro L
  induction L with
  | nil =>
    intro _ _ sb _ _
    exact ⟨fun y hy => absurd hy (by simp),
      fun q _ => ⟨rfl, rfl, rfl⟩, List.Sublist.refl _, List.Sublist.refl _⟩
  | cons c0 rest ihL =>
    intro hshape hnodup sb hinv hfuelb
    obtain ⟨m0, hm0⟩ := hshape c0 (List.mem_cons_self c0 rest)
    obtain ⟨hc0ne, b0, hb0, htru, hfls⟩ := hinv c0 (List.mem_cons_self c0 rest)
    have hrel := clean_rel fuel sb.1 c0
    have hsubf := (clean_maps_sublist fuel sb.1 c0).1
    have hsubd := (clean_maps_sublist fuel sb.1 c0).2
    have hdisj : ∀ y, y ∈ rest → ∀ q, isPre y q = true →
        isPre c0 q = false := by
      intro y hy q hq
      obtain ⟨my, hmy⟩ := hshape y (List.mem_cons_of_mem c0 hy)
      have hyne : y ≠ c0 := by
        intro he
        rw [he] at hy
        exact (List.nodup_cons.mp hnodup).1 hy
      have hmne : my ≠ m0 := fun hx => hyne (by rw [hmy, hm0, hx])
      rw [hm0]
      exact isPre_child_disjoint hmne (by rw [← hmy]; exact hq)
    have hdisj0 : ∀ q, isPre c0 q = true → ∀ y, y ∈ rest →
        isPre y q = false := by
      intro q hq y hy
      obtain ⟨my, hmy⟩ := hshape y (List.mem_cons_of_mem c0 hy)
      have hyne : y ≠ c0 := by
        intro he
        rw [he] at hy
        exact (List.nodup_cons.mp hnodup).1 hy
      have hmne : m0 ≠ my := fun hx => hyne (by rw [hmy, hm0, hx])
      rw [hmy]
      exact isPre_child_disjoint hmne (by rw [← hm0]; exact hq)
    -- the step restores c0's subtree
    have hstep0 : ∀ q, isPre c0 q = true →
        FS.get ((clean fuel sb.1 c0).1).fs q = FS.get fs0 q := by
      intro q hq
      cases b0 with
      | true =>
        obtain ⟨hpi, hfs0n⟩ := htru rfl
        have hres := clean_purge fuel sb.1 c0 hc0ne hpi
          (hfuelb c0 (List.mem_cons_self c0 rest))
        rw [hres.2 q hq, hfs0n q hq]
      | false =>
        obtain ⟨hmi, hfy⟩ := hfls rfl
        have hres := ihr sb.1 c0 hb0 hmi
          (hfuelb c0 (List.mem_cons_self c0 rest))
        by_cases hqc : q = c0
        · rw [hqc, hres.2, hfy]
        · exact hres.1 q hq hqc
    have hinvR : ∀ y, y ∈ rest → y ≠ [] ∧
        ∃ b, alookup ((clean fuel sb.1 c0).1).dirs y = some b ∧
        (b = true → PurgeInv ((clean fuel sb.1 c0).1) y ∧
          (∀ q, isPre y q = true → FS.get fs0 q = none)) ∧
        (b = false → MixedInv fs0 ((clean fuel sb.1 c0).1) y ∧
          FS.get ((clean fuel sb.1 c0).1).fs y = FS.get fs0 y) := by
      intro y hy
      obtain ⟨hyne2, b, hb, htr, hfl⟩ := hinv y (List.mem_cons_of_mem c0 hy)
      have hout : ∀ q, isPre y q = true → ¬ isPre c0 q = true := by
        intro q hq hcon
        rw [hdisj y hy q hq] at hcon
        cases hcon
      refine ⟨hyne2, b, ?_, ?_, ?_⟩
      · rw [hrel.2.2.1 y (hout y (isPre_refl y))]
        exact hb
      · intro hbt
        obtain ⟨hpi, hfs0n⟩ := htr hbt
        refine ⟨?_, hfs0n⟩
        apply PurgeInv_stable sb.1 _ y hpi
        · intro q hq
          exact hrel.2.2.1 q (hout q hq)
        · intro q hq
          exact hrel.2.1 q (hout q hq)
        · intro q hq _
          exact hrel.1 q (hout q hq)
        · exact Or.inl (hrel.1 y (hout y (isPre_refl y)))
        · exact hsubf
        · exact hsubd
      · intro hbf
        obtain ⟨hmi, hfy⟩ := hfl hbf
        refine ⟨?_, ?_⟩
        · apply MixedInv_stable fs0 sb.1 _ y hmi
          · intro q hq
            exact hrel.2.2.1 q (hout q hq)
          · intro q hq
            exact hrel.2.1 q (hout q hq)
          · intro q hq
            exact hrel.1 q (hout q hq)
          · exact hsubf
          · exact hsubd
        · rw [hrel.1 y (hout y (isPre_refl y))]
          exact hfy
    have hfuelR : ∀ y, y ∈ rest → ∀ kv,
        kv ∈ ((clean fuel sb.1 c0).1).dirs → isPre y kv.1 = true →
        kv.1.length - y.length < fuel := by
      intro y hy kv hkv hpre
      exact hfuelb y (List.mem_cons_of_mem c0 hy) kv (hsubd.subset hkv) hpre
    have hIH := ihL (fun y hy => hshape y (List.mem_cons_of_mem c0 hy))
      (List.nodup_cons.mp hnodup).2
      ((clean fuel sb.1 c0).1, sb.2 && (clean fuel sb.1 c0).2)
      hinvR hfuelR
    have hT1 : ∀ y, y ∈ c0 :: rest → ∀ q, isPre y q = true →
        FS.get ((rest.foldl (fun (acc : Sess × Bool) (c : FPath) =>
      let (s0, ok0) := acc
      let (s1, ok1) := clean fuel s0 c
      (s1, ok0 && ok1)) ((clean fuel sb.1 c0).1, sb.2 && (clean fuel sb.1 c0).2)).1).fs q = FS.get fs0 q := by
      intro y hy q hq
      cases List.mem_cons.mp hy with
      | inl hyc =>
        subst hyc
        have hfr := (hIH.2.1 q (hdisj0 q hq)).1
        rw [hfr]
        exact hstep0 q hq
      | inr hyr => exact hIH.1 y hyr q hq
    have hT2 : ∀ q, (∀ y, y ∈ c0 :: rest → isPre y q = false) →
        FS.get ((rest.foldl (fun (acc : Sess × Bool) (c : FPath) =>
      let (s0, ok0) := acc
      let (s1, ok1) := clean fuel s0 c
      (s1, ok0 && ok1)) ((clean fuel sb.1 c0).1, sb.2 && (clean fuel sb.1 c0).2)).1).fs q = FS.get sb.1.fs q ∧
        alookup ((rest.foldl (fun (acc : Sess × Bool) (c : FPath) =>
      let (s0, ok0) := acc
      let (s1, ok1) := clean fuel s0 c
      (s1, ok0 && ok1)) ((clean fuel sb.1 c0).1, sb.2 && (clean fuel sb.1 c0).2)).1).dirs q = alookup sb.1.dirs q ∧
        alookup ((rest.foldl (fun (acc : Sess × Bool) (c : FPath) =>
      let (s0, ok0) := acc
      let (s1, ok1) := clean fuel s0 c
      (s1, ok0 && ok1)) ((clean fuel sb.1 c0).1, sb.2 && (clean fuel sb.1 c0).2)).1).files q = alookup sb.1.files q := by
      intro q hall
      have hno : ∀ y, y ∈ rest → isPre y q = false :=
        fun y hy => hall y (List.mem_cons_of_mem c0 hy)
      have hc0no : isPre c0 q = false := hall c0 (List.mem_cons_self c0 rest)
      have hfr := hIH.2.1 q hno
      have hcon : ¬ isPre c0 q = true := fun hcon => by
        rw [hc0no] at hcon
        cases hcon
      exact ⟨by rw [hfr.1]; exact hrel.1 q hcon,
        by rw [hfr.2.1]; exact hrel.2.2.1 q hcon,
        by rw [hfr.2.2]; exact hrel.2.1 q hcon⟩
    have hT3 := hIH.2.2.1.trans hsubf
    have hT4 := hIH.2.2.2.trans hsubd
    exact ⟨hT1, hT2, hT3, hT4⟩

/-- Cleanup of a tracked non-speculative node under the mixed invariant:
the subtree below is restored exactly to the pre-session filesystem and
the node's own disk entry is untouched. -/
theorem clean_restore : ∀ (fuel : Nat) (fs0 : FS) (s : Sess) (p : FPath),
    alookup s.dirs p = some false →
    MixedInv fs0 s p →
    (∀ kv, kv ∈ s.dirs → isPre p kv.1 = true →
      kv.1.length - p.length < fuel) →
    (∀ q, isPre p q = true → q ≠ p →
      FS.get ((clean fuel s p).1).fs q = FS.get fs0 q) ∧
    FS.get ((clean fuel s p).1).fs p = FS.get s.fs p
  | 0, fs0, s, p, hflag, hinv, hfuel =>
    absurd (hfuel (p, false) (alookup_mem hflag) (isPre_refl p)) (by omega)
  | fuel + 1, fs0, s, p, hflag, hinv, hfuel => by
    have hFKshape : ∀ kv, kv ∈ (s.files.filter (fun kv => (FS.childName? p kv.1).isSome)) → ∃ n, kv.1 = p ++ [n] := by
      intro kv hkv
      have hpred := (List.mem_filter.mp hkv).2
      exact FS.childName?_isSome_iff.mp (by simpa using hpred)
    have hAmaps := fold_dispose_maps (s.files.filter (fun kv => (FS.childName? p kv.1).isSome)) (s, true)
    have hAdeep : ∀ q, p.length + 2 ≤ q.length →
        FS.get (((s.files.filter (fun kv => (FS.childName? p kv.1).isSome)).foldl disposeStep (s, true)).1).fs q = FS.get s.fs q := by
      intro q hlen
      apply fold_dispose_keep
      intro kv hkv hk
      exfalso
      obtain ⟨n, hkvn⟩ := hFKshape kv hkv
      rw [hk] at hkvn
      have hql : q.length = p.length + 1 := by
        rw [hkvn]
        simp
      omega
    have hAeq : ∀ q, alookup s.dirs q ≠ none →
        FS.get (((s.files.filter (fun kv => (FS.childName? p kv.1).isSome)).foldl disposeStep (s, true)).1).fs q = FS.get s.fs q := by
      intro q htr
      apply fold_dispose_keep
      intro kv hkv hk hcon
      have hmem := (List.mem_filter.mp hkv).1
      have hlook := mem_alookup_of_nodup hinv.2.2.2.2.2.2.1 hmem
      rw [hk] at hlook
      have hq : isPre p q = true := by
        obtain ⟨n, hkvn⟩ := hFKshape kv hkv
        rw [← hk, hkvn]
        exact isPre_append p [n]
      have hnone := (hinv.2.2.2.1 q kv.2 hq hlook hcon.1 hcon.2).2.2
      exact htr hnone
    have hfseq : ∀ q, isPre p q = true → q ≠ p →
        alookup s.dirs q = some false →
        (∀ fut, alookup s.files q = some fut →
          ¬ (fut.isNew = true ∧ fut.err = false)) →
        FS.get s.fs q = FS.get fs0 q := by
      intro q hq hqp hqf hnofile
      by_contra hne
      cases hinv.1 q hq hqp hne with
      | inl htr =>
        rw [htr] at hqf
        injection hqf with hb
        cases hb
      | inr hfile =>
        obtain ⟨fut, hfq, hn, he⟩ := hfile
        exact hnofile fut hfq ⟨hn, he⟩
    have hshapeAll : ∀ y, y ∈ (s.dirs.filterMap (fun kv => if (FS.childName? p kv.1).isSome then some kv.1 else none)) → ∃ m, y = p ++ [m] := by
      intro y hy
      obtain ⟨kv, hkvmem, hkv⟩ := List.mem_filterMap.mp hy
      by_cases hsome : (FS.childName? p kv.1).isSome = true
      · rw [if_pos hsome] at hkv
        cases hkv with
        | refl =>
          obtain ⟨m, hm⟩ := FS.childName?_isSome_iff.mp hsome
          exact ⟨m, hm⟩
      · rw [if_neg hsome] at hkv
        cases hkv
    have hDKlook : ∀ y, y ∈ (s.dirs.filterMap (fun kv => if (FS.childName? p kv.1).isSome then some kv.1 else none)) → ∃ b, alookup s.dirs y = some b := by
      intro y hy
      obtain ⟨kv, hkvm, hkveq⟩ := List.mem_filterMap.mp hy
      by_cases hsome : (FS.childName? p kv.1).isSome = true
      · rw [if_pos hsome] at hkveq
        injection hkveq with hkv1
        have hlook := mem_alookup_of_nodup hinv.2.2.2.2.2.2.2 hkvm
        rw [hkv1] at hlook
        exact ⟨kv.2, hlook⟩
      · rw [if_neg hsome] at hkveq
        cases hkveq
    have hDKnodup : ((s.dirs.filterMap (fun kv => if (FS.childName? p kv.1).isSome then some kv.1 else none))).Nodup :=
      (hinv.2.2.2.2.2.2.2).sublist (filterMap_key_sublist s.dirs _)
    have hchildfacts : ∀ y, y ∈ (s.dirs.filterMap (fun kv => if (FS.childName? p kv.1).isSome then some kv.1 else none)) →
        isPre p y = true ∧ y ≠ p ∧ y ≠ [] ∧ y.length = p.length + 1 := by
      intro y hy
      obtain ⟨m, hm⟩ := hshapeAll y hy
      refine ⟨by rw [hm]; exact isPre_append p [m], ?_, by rw [hm]; simp,
        by rw [hm]; simp⟩
      rw [hm]
      exact fun he => ne_append_cons p m [] he.symm
    have hinvCH : ∀ y, y ∈ (s.dirs.filterMap (fun kv => if (FS.childName? p kv.1).isSome then some kv.1 else none)) → y ≠ [] ∧
        ∃ b, alookup (((s.files.filter (fun kv => (FS.childName? p kv.1).isSome)).foldl disposeStep (s, true)).1).dirs y = some b ∧
        (b = true → PurgeInv (((s.files.filter (fun kv => (FS.childName? p kv.1).isSome)).foldl disposeStep (s, true)).1) y ∧
          (∀ q, isPre y q = true → FS.get fs0 q = none)) ∧
        (b = false → MixedInv fs0 (((s.files.filter (fun kv => (FS.childName? p kv.1).isSome)).foldl disposeStep (s, true)).1) y ∧
          FS.get (((s.files.filter (fun kv => (FS.childName? p kv.1).isSome)).foldl disposeStep (s, true)).1).fs y = FS.get fs0 y) := by
      intro y hy
      obtain ⟨hpre, hynp, hynil, hylen⟩ := hchildfacts y hy
      obtain ⟨b, hb⟩ := hDKlook y hy
      have hstrict : ∀ q, isPre y q = true → q ≠ y →
          p.length + 2 ≤ q.length := by
        intro q hq hqy
        have h1 := isPre_length_le hq
        have h3 : y.length < q.length := by
          rcases Nat.lt_or_ge y.length q.length with h | h
          · exact h
          · exact absurd (isPre_eq_of_length hq h) hqy
        omega
      refine ⟨hynil, b, by rw [hAmaps.2]; exact hb, ?_, ?_⟩
      · intro hbt
        rw [hbt] at hb
        refine ⟨?_, fun q hq => hinv.2.1 y hpre hb q hq⟩
        apply PurgeInv_stable s _ y (MixedInv_purge fs0 s p y hinv hpre hynp
          hynil hb)
        · intro q hq
          rw [hAmaps.2]
        · intro q hq
          rw [hAmaps.1]
        · intro q hq hqy
          exact hAdeep q (hstrict q hq hqy)
        · exact fold_dispose_mono _ (s, true) y
        · rw [hAmaps.1]
        · rw [hAmaps.2]
      · intro hbf
        rw [hbf] at hb
        have hAy : FS.get (((s.files.filter (fun kv => (FS.childName? p kv.1).isSome)).foldl disposeStep (s, true)).1).fs y = FS.get s.fs y :=
          hAeq y (by rw [hb]; exact fun h => Option.noConfusion h)
        refine ⟨?_, ?_⟩
        · apply MixedInv_stable fs0 s _ y (MixedInv_child fs0 s p y hinv hpre
            hynp hb)
          · intro q hq
            rw [hAmaps.2]
          · intro q hq
            rw [hAmaps.1]
          · intro q hq
            by_cases hqy : q = y
            · rw [hqy]
              exact hAy
            · exact hAdeep q (hstrict q hq hqy)
          · rw [hAmaps.1]
          · rw [hAmaps.2]
        · rw [hAy]
          apply hfseq y hpre hynp hb
          intro fut hfq hcon
          have hnone := (hinv.2.2.2.1 y fut hpre hfq hcon.1 hcon.2).2.2
          rw [hnone] at hb
          cases hb
    have hfuelA : ∀ y, y ∈ (s.dirs.filterMap (fun kv => if (FS.childName? p kv.1).isSome then some kv.1 else none)) → ∀ kv, kv ∈ (((s.files.filter (fun kv => (FS.childName? p kv.1).isSome)).foldl disposeStep (s, true)).1).dirs →
        isPre y kv.1 = true → kv.1.length - y.length < fuel := by
      intro y hy kv hkv hpre
      rw [hAmaps.2] at hkv
      obtain ⟨hpre2, _, _, hylen⟩ := hchildfacts y hy
      have h3 := hfuel kv hkv (isPre_trans hpre2 hpre)
      have h4 := isPre_length_le hpre
      omega
    have hB := mixed_fold fuel p fs0
      (fun s2 c hb hm hf => clean_restore fuel fs0 s2 c hb hm hf)
      (s.dirs.filterMap (fun kv => if (FS.childName? p kv.1).isSome then some kv.1 else none)) hshapeAll hDKnodup ((s.files.filter (fun kv => (FS.childName? p kv.1).isSome)).foldl disposeStep (s, true)) hinvCH hfuelA
    have hmid : ∀ q, isPre p q = true → q ≠ p →
        FS.get (((s.dirs.filterMap (fun kv => if (FS.childName? p kv.1).isSome then some kv.1 else none)).foldl (fun (acc : Sess × Bool) (c : FPath) =>
      let (s0, ok0) := acc
      let (s1, ok1) := clean fuel s0 c
      (s1, ok0 && ok1)) ((s.files.filter (fun kv => (FS.childName? p kv.1).isSome)).foldl disposeStep (s, true))).1).fs q = FS.get fs0 q := by
      intro q hq hqp
      obtain ⟨t, ht⟩ := isPre_iff.mp hq
      cases t with
      | nil => exact absurd (by rw [ht, List.append_nil]) hqp
      | cons m t2 =>
        have hqc : isPre (p ++ [m]) q = true := by
          rw [ht]
          have hassoc : p ++ m :: t2 = (p ++ [m]) ++ t2 := by simp
          rw [hassoc]
          exact isPre_append _ _
        by_cases hcl : alookup s.dirs (p ++ [m]) = none
        · have hfr : ∀ y, y ∈ (s.dirs.filterMap (fun kv => if (FS.childName? p kv.1).isSome then some kv.1 else none)) → isPre y q = false := by
            intro y hy
            obtain ⟨my, hmy⟩ := hshapeAll y hy
            have hymne : my ≠ m := by
              intro hx
              obtain ⟨by2, hby2⟩ := hDKlook y hy
              rw [hmy, hx] at hby2
              rw [hby2] at hcl
              cases hcl
            rw [hmy]
            exact isPre_child_disjoint (fun hx => hymne hx.symm) hqc
          have hBfr := hB.2.1 q hfr
          cases hfq : alookup s.files q with
          | some fut =>
            by_cases hnn : fut.isNew = true ∧ fut.err = false
            · by_cases hqe : q = p ++ [m]
              · have hfs0 := (hinv.2.2.2.1 q fut hq hfq hnn.1 hnn.2).1
                have hmemF := alookup_mem hfq
                have hmemFK : (q, fut) ∈ (s.files.filter (fun kv => (FS.childName? p kv.1).isSome)) := by
                  apply List.mem_filter.mpr
                  refine ⟨hmemF, ?_⟩
                  show ((FS.childName? p (q, fut).1).isSome) = true
                  rw [show (q, fut).1 = p ++ [m] from hqe,
                    FS.childName?_eq_some.mpr rfl]
                  rfl
                have hA0 := fold_dispose_none _ (s, true) q fut hmemFK
                  hnn.1 hnn.2
                rw [hBfr.1, hA0, hfs0]
              · have hP5 := hinv.2.2.2.2.1 q fut hq hfq hnn.1 hnn.2
                exact absurd hcl (hP5.2.2 (p ++ [m]) (isPre_append p [m])
                  (isPre_dropLast hqc hqe))
            · have hkeep : FS.get (((s.files.filter (fun kv => (FS.childName? p kv.1).isSome)).foldl disposeStep (s, true)).1).fs q = FS.get s.fs q := by
                apply fold_dispose_keep
                intro kv hkv hk
                have hmem := (List.mem_filter.mp hkv).1
                have hlook := mem_alookup_of_nodup hinv.2.2.2.2.2.2.1 hmem
                rw [hk, hfq] at hlook
                injection hlook with hlk
                rw [← hlk]
                exact hnn
              have hsf : FS.get s.fs q = FS.get fs0 q := by
                by_contra hne
                cases hinv.1 q hq hqp hne with
                | inl htr =>
                  exact absurd hcl (hinv.2.2.2.2.2.1 q hq
                    (by rw [htr]; exact fun h => Option.noConfusion h)
                    (p ++ [m]) (isPre_append p [m]) hqc)
                | inr hfile =>
                  obtain ⟨fut2, hfq2, hn2, he2⟩ := hfile
                  rw [hfq] at hfq2
                  injection hfq2 with hf2
                  rw [← hf2] at hn2 he2
                  exact hnn ⟨hn2, he2⟩
              rw [hBfr.1, hkeep, hsf]
          | none =>
            have hkeep : FS.get (((s.files.filter (fun kv => (FS.childName? p kv.1).isSome)).foldl disposeStep (s, true)).1).fs q = FS.get s.fs q := by
              apply fold_dispose_keep
              intro kv hkv hk
              have hmem := (List.mem_filter.mp hkv).1
              have hlook := mem_alookup_of_nodup hinv.2.2.2.2.2.2.1 hmem
              rw [hk, hfq] at hlook
              cases hlook
            have hsf : FS.get s.fs q = FS.get fs0 q := by
              by_contra hne
              cases hinv.1 q hq hqp hne with
              | inl htr =>
                exact absurd hcl (hinv.2.2.2.2.2.1 q hq
                  (by rw [htr]; exact fun h => Option.noConfusion h)
                  (p ++ [m]) (isPre_append p [m]) hqc)
              | inr hfile =>
                obtain ⟨fut2, hfq2, _, _⟩ := hfile
                rw [hfq] at hfq2
                cases hfq2
            rw [hBfr.1, hkeep, hsf]
        · obtain ⟨b, hb⟩ : ∃ b, alookup s.dirs (p ++ [m]) = some b := by
            cases hx : alookup s.dirs (p ++ [m]) with
            | none => exact absurd hx hcl
            | some b => exact ⟨b, rfl⟩
          have hmemD := alookup_mem hb
          have hmemDK : (p ++ [m]) ∈ (s.dirs.filterMap (fun kv => if (FS.childName? p kv.1).isSome then some kv.1 else none)) := by
            apply List.mem_filterMap.mpr
            refine ⟨(p ++ [m], b), hmemD, ?_⟩
            rw [if_pos (by rw [FS.childName?_eq_some.mpr rfl]; rfl)]
          exact hB.1 (p ++ [m]) hmemDK q hqc
    have hallp : ∀ y, y ∈ (s.dirs.filterMap (fun kv => if (FS.childName? p kv.1).isSome then some kv.1 else none)) → isPre y p = false := by
      intro y hy
      obtain ⟨m, hm⟩ := hshapeAll y hy
      rw [hm]
      exact isPre_child_self_false p m
    have hBfrp := hB.2.1 p hallp
    have hApar : FS.get (((s.files.filter (fun kv => (FS.childName? p kv.1).isSome)).foldl disposeStep (s, true)).1).fs p = FS.get s.fs p :=
      hAeq p (by rw [hflag]; exact fun h => Option.noConfusion h)
    have hBp : FS.get (((s.dirs.filterMap (fun kv => if (FS.childName? p kv.1).isSome then some kv.1 else none)).foldl (fun (acc : Sess × Bool) (c : FPath) =>
      let (s0, ok0) := acc
      let (s1, ok1) := clean fuel s0 c
      (s1, ok0 && ok1)) ((s.files.filter (fun kv => (FS.childName? p kv.1).isSome)).foldl disposeStep (s, true))).1).fs p = FS.get s.fs p := by
      rw [hBfrp.1, hApar]
    have hflagB : alookup (((s.dirs.filterMap (fun kv => if (FS.childName? p kv.1).isSome then some kv.1 else none)).foldl (fun (acc : Sess × Bool) (c : FPath) =>
      let (s0, ok0) := acc
      let (s1, ok1) := clean fuel s0 c
      (s1, ok0 && ok1)) ((s.files.filter (fun kv => (FS.childName? p kv.1).isSome)).foldl disposeStep (s, true))).1).dirs p = some false := by
      rw [hBfrp.2.1, hAmaps.2]
      exact hflag
    have hres_fs : ((clean (fuel + 1) s p).1).fs = (((s.dirs.filterMap (fun kv => if (FS.childName? p kv.1).isSome then some kv.1 else none)).foldl (fun (acc : Sess × Bool) (c : FPath) =>
      let (s0, ok0) := acc
      let (s1, ok1) := clean fuel s0 c
      (s1, ok0 && ok1)) ((s.files.filter (fun kv => (FS.childName? p kv.1).isSome)).foldl disposeStep (s, true))).1).fs := by
      simp only [clean]
      split
      next hok => rfl
      next hok => exact cleanTail_skip (((s.dirs.filterMap (fun kv => if (FS.childName? p kv.1).isSome then some kv.1 else none)).foldl (fun (acc : Sess × Bool) (c : FPath) =>
      let (s0, ok0) := acc
      let (s1, ok1) := clean fuel s0 c
      (s1, ok0 && ok1)) ((s.files.filter (fun kv => (FS.childName? p kv.1).isSome)).foldl disposeStep (s, true))).1) p hflagB
    constructor
    · intro q hq hqp
      rw [show FS.get ((clean (fuel + 1) s p).1).fs q
          = FS.get (((s.dirs.filterMap (fun kv => if (FS.childName? p kv.1).isSome then some kv.1 else none)).foldl (fun (acc : Sess × Bool) (c : FPath) =>
      let (s0, ok0) := acc
      let (s1, ok1) := clean fuel s0 c
      (s1, ok0 && ok1)) ((s.files.filter (fun kv => (FS.childName? p kv.1).isSome)).foldl disposeStep (s, true))).1).fs q by rw [hres_fs]]
      exact hmid q hq hqp
    · rw [show FS.get ((clean (fuel + 1) s p).1).fs p
          = FS.get (((s.dirs.filterMap (fun kv => if (FS.childName? p kv.1).isSome then some kv.1 else none)).foldl (fun (acc : Sess × Bool) (c : FPath) =>
      let (s0, ok0) := acc
      let (s1, ok1) := clean fuel s0 c
      (s1, ok0 && ok1)) ((s.files.filter (fun kv => (FS.childName? p kv.1).isSome)).foldl disposeStep (s, true))).1).fs p by rw [hres_fs]]
      exact hBp

/-! ## The global speculation invariant (claim C1) -/

/-- Well-formedness of the initial on-disk state: nothing is stored at
the root path itself, and every proper nonempty prefix of a stored path
carries a directory. -/
def WFfs (fs0 : FS) : Prop :=
  FS.get fs0 [] = none ∧
  ∀ kv, kv ∈ fs0 → kv.1 ≠ [] ∧
    ∀ r, r ∈ prefixes kv.1 → r ≠ [] → r ≠ kv.1 → FS.isDirB fs0 r = true

instance (fs0 : FS) : Decidable (WFfs fs0) := by
  unfold WFfs
  infer_instance

theorem WFfs_dir_of_below {fs0 : FS} (hwf : WFfs fs0) {c r : FPath}
    (hpre : isPre c r = true) (hcnil : c ≠ []) (hcr : c ≠ r)
    (hr : FS.get fs0 r ≠ none) :
    ∃ pm, FS.get fs0 c = some (Entry.dir pm) := by
  obtain ⟨e, he⟩ : ∃ e, FS.get fs0 r = some e := by
    cases hx : FS.get fs0 r with
    | none => exact absurd hx hr
    | some e => exact ⟨e, rfl⟩
  have hmem : (r, e) ∈ fs0 := by
    rw [FS.get_eq_alookup] at he
    exact alookup_mem he
  have hb := (hwf.2 (r, e) hmem).2 c (mem_prefixes.mpr hpre) hcnil hcr
  cases c with
  | nil => exact absurd rfl hcnil
  | cons c0 cs =>
    have hb2 : (match FS.get fs0 (c0 :: cs) with
      | some (Entry.dir _) => true
      | _ => false) = true := hb
    cases hg : FS.get fs0 (c0 :: cs) with
    | none => rw [hg] at hb2; cases hb2
    | some e2 =>
      cases e2 with
      | file c pm => rw [hg] at hb2; cases hb2
      | dir pm => exact ⟨pm, rfl⟩

/-- The invariant maintained across a sequence of speculate requests:
the mixed cleanup invariant holds at the root, the root node is tracked
non-speculative, the root path itself is untouched on disk, and the
session is not yet finalized. -/
def SpecInv (fs0 : FS) (s : Sess) : Prop :=
  MixedInv fs0 s [] ∧
  alookup s.dirs [] = some false ∧
  FS.get s.fs [] = FS.get fs0 [] ∧
  s.finalized = false

theorem specinv_fs0_none {fs0 : FS} {s : Sess} (hinv : SpecInv fs0 s)
    {q : FPath} (hq : q ≠ []) (hfs : FS.get s.fs q = none) :
    FS.get fs0 q = none := by
  by_contra hne
  have hd := hinv.1.1 q (isPre_nil q) hq
    (by rw [hfs]; exact fun h => hne h.symm)
  cases hd with
  | inl htr =>
    cases hinv.1.2.2.1 q true (isPre_nil q) htr with
    | inl h0 => exact hq h0
    | inr hdir =>
      obtain ⟨pm, hpm⟩ := hdir
      rw [hfs] at hpm
      cases hpm
  | inr hfile =>
    obtain ⟨fut, hf, hn2, he2⟩ := hfile
    obtain ⟨_, ⟨c, pm, hc⟩, _⟩ := hinv.1.2.2.2.1 q fut (isPre_nil q) hf hn2 he2
    rw [hfs] at hc
    cases hc

theorem specinv_dirs_none {fs0 : FS} {s : Sess} (hinv : SpecInv fs0 s)
    {q : FPath} (hq : q ≠ []) (hfs : FS.get s.fs q = none) :
    alookup s.dirs q = none := by
  cases hd : alookup s.dirs q with
  | none => rfl
  | some b =>
    exfalso
    cases hinv.1.2.2.1 q b (isPre_nil q) hd with
    | inl h0 => exact hq h0
    | inr hdir =>
      obtain ⟨pm, hpm⟩ := hdir
      rw [hfs] at hpm
      cases hpm

theorem specinv_fresh (fs0 : FS) (u : Nat) :
    SpecInv fs0 (freshSession fs0 u) := by
  refine ⟨⟨?_, ?_, ?_, ?_, ?_, ?_, ?_, ?_⟩, ?_, rfl, rfl⟩
  · intro q hq hqp hne
    exact absurd rfl hne
  · intro q hq hd r hr
    exfalso
    have hd2 : alookup [(([] : FPath), false)] q = some true := hd
    rw [alookup_cons] at hd2
    by_cases h0 : ([] : FPath) = q
    · rw [if_pos h0] at hd2
      exact Bool.noConfusion (Option.some.inj hd2)
    · rw [if_neg h0, alookup_nil] at hd2
      exact Option.noConfusion hd2
  · intro q b hq hb
    have hb2 : alookup [(([] : FPath), false)] q = some b := hb
    rw [alookup_cons] at hb2
    by_cases h0 : ([] : FPath) = q
    · exact Or.inl h0.symm
    · rw [if_neg h0, alookup_nil] at hb2
      exact Option.noConfusion hb2
  · intro q fut hq hf
    have hf2 : alookup ([] : List (FPath × FutFile)) q = some fut := hf
    rw [alookup_nil] at hf2
    exact absurd hf2 (fun h => Option.noConfusion h)
  · intro q fut hq hf
    have hf2 : alookup ([] : List (FPath × FutFile)) q = some fut := hf
    rw [alookup_nil] at hf2
    exact absurd hf2 (fun h => Option.noConfusion h)
  · intro q hq hd r hr1 hr2
    have hd2 : alookup [(([] : FPath), false)] q ≠ none := hd
    have hq0 : q = [] := by
      by_contra hqn
      apply hd2
      rw [alookup_cons, if_neg (fun h => hqn h.symm), alookup_nil]
    rw [hq0] at hr2
    have hr0 : r = [] := by
      cases r with
      | nil => rfl
      | cons a as => cases hr2
    intro hx
    have hx2 : alookup [(([] : FPath), false)] r = none := hx
    rw [hr0, alookup_cons, if_pos rfl] at hx2
    exact Option.noConfusion hx2
  · exact List.nodup_nil
  · show ([([] : FPath)].Nodup)
    exact List.nodup_singleton _
  · show alookup [(([] : FPath), false)] [] = some false
    rw [alookup_cons, if_pos rfl]

/-- Registering a futureFile that is not a successful creation (either a
pre-existing file was opened or the open errored) preserves the
speculation invariant: only the files map and the handle bookkeeping
change. -/
theorem specinv_addfile_trivial (fs0 : FS) (s : Sess) (path : FPath)
    (fut0 : FutFile) (H : List (Nat × Bool)) (N : Nat)
    (hinv : SpecInv fs0 s)
    (hnofile : alookup s.files path = none)
    (hnn : ¬ (fut0.isNew = true ∧ fut0.err = false)) :
    SpecInv fs0 { s with handles := H, nextHandle := N,
                         files := aset s.files path fut0 } := by
  obtain ⟨⟨M1, M2, M3, M4, M5, M6, M7, M8⟩, hroot, hfs0r, hfin⟩ := hinv
  refine ⟨⟨?_, ?_, ?_, ?_, ?_, ?_, ?_, ?_⟩, hroot, hfs0r, hfin⟩
  · intro q hq hqp hne
    cases M1 q hq hqp hne with
    | inl h => exact Or.inl h
    | inr h =>
      obtain ⟨fut, hf, hn, he⟩ := h
      refine Or.inr ⟨fut, ?_, hn, he⟩
      show alookup (aset s.files path fut0) q = some fut
      rw [alookup_aset]
      by_cases hqp2 : q = path
      · exfalso
        rw [hqp2, hnofile] at hf
        exact Option.noConfusion hf
      · rw [if_neg hqp2]
        exact hf
  · exact M2
  · exact M3
  · intro q fut hq hf hn he
    have hf2 : alookup (aset s.files path fut0) q = some fut := hf
    rw [alookup_aset] at hf2
    by_cases hqp2 : q = path
    · rw [if_pos hqp2] at hf2
      injection hf2 with hfe
      rw [← hfe] at hn he
      exact absurd ⟨hn, he⟩ hnn
    · rw [if_neg hqp2] at hf2
      exact M4 q fut hq hf2 hn he
  · intro q fut hq hf hn he
    have hf2 : alookup (aset s.files path fut0) q = some fut := hf
    rw [alookup_aset] at hf2
    by_cases hqp2 : q = path
    · rw [if_pos hqp2] at hf2
      injection hf2 with hfe
      rw [← hfe] at hn he
      exact absurd ⟨hn, he⟩ hnn
    · rw [if_neg hqp2] at hf2
      exact M5 q fut hq hf2 hn he
  · exact M6
  · show ((aset s.files path fut0).map Prod.fst).Nodup
    exact nodup_aset s.files path fut0 M7
  · exact M8

/-- Registering a successfully created futureFile (isNew, no error)
preserves the speculation invariant, given that the walk has tracked
every directory on the way to the parent. -/
theorem specinv_addfile_create (fs0 : FS) (s : Sess) (path : FPath)
    (h : Nat) (H : List (Nat × Bool)) (N : Nat) (mode : Nat)
    (hinv : SpecInv fs0 s)
    (hpne : path ≠ [])
    (hnofile : alookup s.files path = none)
    (hget : FS.get s.fs path = none)
    (hchain : ∀ r, isPre r path.dropLast = true → alookup s.dirs r ≠ none) :
    SpecInv fs0 { s with handles := H, nextHandle := N,
                         fs := FS.set s.fs path (Entry.file [] mode),
                         files := aset s.files path ⟨false, true, h⟩ } := by
  have hfs0 : FS.get fs0 path = none := specinv_fs0_none hinv hpne hget
  have hdnone : alookup s.dirs path = none := specinv_dirs_none hinv hpne hget
  obtain ⟨⟨M1, M2, M3, M4, M5, M6, M7, M8⟩, hroot, hfs0r, hfin⟩ := hinv
  have hgets : ∀ q, FS.get (FS.set s.fs path (Entry.file [] mode)) q =
      if q = path then some (Entry.file [] mode) else FS.get s.fs q :=
    fun q => FS.get_set s.fs path (Entry.file [] mode) q
  refine ⟨⟨?_, ?_, ?_, ?_, ?_, ?_, ?_, ?_⟩, hroot, ?_, hfin⟩
  · intro q hq hqp hne
    by_cases hqp2 : q = path
    · refine Or.inr ⟨⟨false, true, h⟩, ?_, rfl, rfl⟩
      show alookup (aset s.files path ⟨false, true, h⟩) q =
        some ⟨false, true, h⟩
      rw [alookup_aset, if_pos hqp2]
    · have hne2 : FS.get s.fs q ≠ FS.get fs0 q := by
        intro hx
        apply hne
        show FS.get (FS.set s.fs path (Entry.file [] mode)) q = FS.get fs0 q
        rw [hgets q, if_neg hqp2]
        exact hx
      cases M1 q hq hqp hne2 with
      | inl hd => exact Or.inl hd
      | inr hfile =>
        obtain ⟨fut, hf, hn, he⟩ := hfile
        refine Or.inr ⟨fut, ?_, hn, he⟩
        show alookup (aset s.files path ⟨false, true, h⟩) q = some fut
        rw [alookup_aset, if_neg hqp2]
        exact hf
  · exact M2
  · intro q b hq hb
    have hb2 : alookup s.dirs q = some b := hb
    by_cases hqp2 : q = path
    · exfalso
      rw [hqp2, hdnone] at hb2
      exact Option.noConfusion hb2
    · cases M3 q b hq hb2 with
      | inl h0 => exact Or.inl h0
      | inr hdir =>
        obtain ⟨pm, hpm⟩ := hdir
        refine Or.inr ⟨pm, ?_⟩
        show FS.get (FS.set s.fs path (Entry.file [] mode)) q =
          some (Entry.dir pm)
        rw [hgets q, if_neg hqp2]
        exact hpm
  · intro q fut hq hf hn he
    have hf2 : alookup (aset s.files path ⟨false, true, h⟩) q = some fut := hf
    rw [alookup_aset] at hf2
    by_cases hqp2 : q = path
    · refine ⟨by rw [hqp2]; exact hfs0, ?_, ?_⟩
      · refine ⟨[], mode, ?_⟩
        show FS.get (FS.set s.fs path (Entry.file [] mode)) q =
          some (Entry.file [] mode)
        rw [hgets q, if_pos hqp2]
      · show alookup s.dirs q = none
        rw [hqp2]
        exact hdnone
    · rw [if_neg hqp2] at hf2
      obtain ⟨h1, ⟨c, pm, hc⟩, h3⟩ := M4 q fut hq hf2 hn he
      refine ⟨h1, ⟨c, pm, ?_⟩, h3⟩
      show FS.get (FS.set s.fs path (Entry.file [] mode)) q =
        some (Entry.file c pm)
      rw [hgets q, if_neg hqp2]
      exact hc
  · intro q fut hq hf hn he
    have hf2 : alookup (aset s.files path ⟨false, true, h⟩) q = some fut := hf
    rw [alookup_aset] at hf2
    by_cases hqp2 : q = path
    · refine ⟨by rw [hqp2]; exact hpne, by rw [hqp2]; exact isPre_nil _, ?_⟩
      intro r hr1 hr2
      rw [hqp2] at hr2
      exact hchain r hr2
    · rw [if_neg hqp2] at hf2
      exact M5 q fut hq hf2 hn he
  · exact M6
  · show ((aset s.files path ⟨false, true, h⟩).map Prod.fst).Nodup
    exact nodup_aset s.files path ⟨false, true, h⟩ M7
  · exact M8
  · show FS.get (FS.set s.fs path (Entry.file [] mode)) [] = FS.get fs0 []
    rw [hgets [], if_neg (fun hx => hpne hx.symm)]
    exact hfs0r

/-- dirTree.speculateFile preserves the speculation invariant, for any
leaf whose registration slot is still empty. -/
theorem speculateFile_inv (fs0 : FS) (s : Sess) (cur : FPath) (n : Seg)
    (hinv : SpecInv fs0 s)
    (hcur : alookup s.dirs cur ≠ none)
    (hnofile : alookup s.files (cur ++ [n]) = none) :
    SpecInv fs0 (speculateFile s cur n) := by
  have hpne : cur ++ [n] ≠ [] := by simp
  have hdl : (cur ++ [n]).dropLast = cur := by
    rw [List.dropLast_concat]
  cases hget : FS.get s.fs (cur ++ [n]) with
  | some e =>
    cases e with
    | file c pm =>
      have hred : speculateFile s cur n =
          { s with handles := s.handles ++ [(s.nextHandle, true)],
                   nextHandle := s.nextHandle + 1,
                   files := aset s.files (cur ++ [n])
                     ⟨false, false, s.nextHandle⟩ } := by
        simp only [speculateFile, osOpenWrite, hget, Sess.alloc]
      rw [hred]
      exact specinv_addfile_trivial fs0 s (cur ++ [n])
        ⟨false, false, s.nextHandle⟩ _ _ hinv hnofile (by simp)
    | dir pm =>
      have hred : speculateFile s cur n =
          { s with files := aset s.files (cur ++ [n]) ⟨true, false, 0⟩ } := by
        simp only [speculateFile, osOpenWrite, osOpenCreate, hget, Sess.alloc]
      rw [hred]
      exact specinv_addfile_trivial fs0 s (cur ++ [n]) ⟨true, false, 0⟩
        s.handles s.nextHandle hinv hnofile (by simp)
  | none =>
    by_cases hpar : (cur ++ [n] ≠ [] ∧ FS.isDirB s.fs (cur ++ [n]).dropLast = true)
    · have hred : speculateFile s cur n =
          { s with handles := s.handles ++ [(s.nextHandle, true)],
                   nextHandle := s.nextHandle + 1,
                   fs := FS.set s.fs (cur ++ [n])
                     (Entry.file [] (applyUmask 0o666 s.umask)),
                   files := aset s.files (cur ++ [n])
                     ⟨false, true, s.nextHandle⟩ } := by
        simp only [speculateFile, osOpenWrite, osOpenCreate, hget, Sess.alloc,
          if_pos hpar]
      rw [hred]
      refine specinv_addfile_create fs0 s (cur ++ [n]) s.nextHandle _ _
        (applyUmask 0o666 s.umask) hinv hpne hnofile hget ?_
      intro r hr
      rw [hdl] at hr
      exact hinv.1.2.2.2.2.2.1 cur (isPre_nil cur) hcur r (isPre_nil r) hr
    · have hred : speculateFile s cur n =
          { s with files := aset s.files (cur ++ [n]) ⟨true, false, 0⟩ } := by
        simp only [speculateFile, osOpenWrite, osOpenCreate, hget, Sess.alloc,
          if_neg hpar]
      rw [hred]
      exact specinv_addfile_trivial fs0 s (cur ++ [n]) ⟨true, false, 0⟩
        s.handles s.nextHandle hinv hnofile (by simp)

/-- Creating a missing directory on disk and tracking it as a
speculative node preserves the speculation invariant. -/
theorem specinv_adddir_create (fs0 : FS) (s : Sess) (path : FPath)
    (mode : Nat) (hwf : WFfs fs0)
    (hinv : SpecInv fs0 s) (hpne : path ≠ [])
    (hdnone : alookup s.dirs path = none)
    (hget : FS.get s.fs path = none)
    (hchain : ∀ r, isPre r path.dropLast = true → alookup s.dirs r ≠ none) :
    SpecInv fs0 { s with fs := FS.set s.fs path (Entry.dir mode),
                         dirs := aset s.dirs path true } := by
  have hfs0 : FS.get fs0 path = none := specinv_fs0_none hinv hpne hget
  obtain ⟨⟨M1, M2, M3, M4, M5, M6, M7, M8⟩, hroot, hfs0r, hfin⟩ := hinv
  have hgets : ∀ q, FS.get (FS.set s.fs path (Entry.dir mode)) q =
      if q = path then some (Entry.dir mode) else FS.get s.fs q :=
    fun q => FS.get_set s.fs path (Entry.dir mode) q
  have hlookd : ∀ q, alookup (aset s.dirs path true) q =
      if q = path then some true else alookup s.dirs q :=
    fun q => alookup_aset s.dirs path true q
  refine ⟨⟨?_, ?_, ?_, ?_, ?_, ?_, ?_, ?_⟩, ?_, ?_, hfin⟩
  · intro q hq hqp hne
    by_cases hqp2 : q = path
    · refine Or.inl ?_
      show alookup (aset s.dirs path true) q = some true
      rw [hlookd q, if_pos hqp2]
    · have hne2 : FS.get s.fs q ≠ FS.get fs0 q := by
        intro hx
        apply hne
        show FS.get (FS.set s.fs path (Entry.dir mode)) q = FS.get fs0 q
        rw [hgets q, if_neg hqp2]
        exact hx
      cases M1 q hq hqp hne2 with
      | inl hd =>
        refine Or.inl ?_
        show alookup (aset s.dirs path true) q = some true
        rw [hlookd q, if_neg hqp2]
        exact hd
      | inr hfile => exact Or.inr hfile
  · intro q hq hd r hr
    have hd2 : alookup (aset s.dirs path true) q = some true := hd
    rw [hlookd q] at hd2
    by_cases hqp2 : q = path
    · rw [hqp2] at hr
      by_cases hrp : r = path
      · rw [hrp]
        exact hfs0
      · by_contra hrne
        obtain ⟨pm, hpm⟩ := WFfs_dir_of_below hwf hr hpne
          (fun h => hrp h.symm) hrne
        rw [hpm] at hfs0
        exact Option.noConfusion hfs0
    · rw [if_neg hqp2] at hd2
      exact M2 q hq hd2 r hr
  · intro q b hq hb
    have hb2 : alookup (aset s.dirs path true) q = some b := hb
    rw [hlookd q] at hb2
    by_cases hqp2 : q = path
    · refine Or.inr ⟨mode, ?_⟩
      show FS.get (FS.set s.fs path (Entry.dir mode)) q = some (Entry.dir mode)
      rw [hgets q, if_pos hqp2]
    · rw [if_neg hqp2] at hb2
      cases M3 q b hq hb2 with
      | inl h0 => exact Or.inl h0
      | inr hdir =>
        obtain ⟨pm, hpm⟩ := hdir
        refine Or.inr ⟨pm, ?_⟩
        show FS.get (FS.set s.fs path (Entry.dir mode)) q = some (Entry.dir pm)
        rw [hgets q, if_neg hqp2]
        exact hpm
  · intro q fut hq hf hn he
    have hf2 : alookup s.files q = some fut := hf
    by_cases hqp2 : q = path
    · exfalso
      obtain ⟨_, ⟨c, pm, hc⟩, _⟩ := M4 q fut hq hf2 hn he
      rw [hqp2, hget] at hc
      exact Option.noConfusion hc
    · obtain ⟨h1, ⟨c, pm, hc⟩, h3⟩ := M4 q fut hq hf2 hn he
      refine ⟨h1, ⟨c, pm, ?_⟩, ?_⟩
      · show FS.get (FS.set s.fs path (Entry.dir mode)) q =
          some (Entry.file c pm)
        rw [hgets q, if_neg hqp2]
        exact hc
      · show alookup (aset s.dirs path true) q = none
        rw [hlookd q, if_neg hqp2]
        exact h3
  · intro q fut hq hf hn he
    have hf2 : alookup s.files q = some fut := hf
    by_cases hqp2 : q = path
    · exfalso
      obtain ⟨_, ⟨c, pm, hc⟩, _⟩ := M4 q fut hq hf2 hn he
      rw [hqp2, hget] at hc
      exact Option.noConfusion hc
    · obtain ⟨h1, h2, h3⟩ := M5 q fut hq hf2 hn he
      refine ⟨h1, h2, ?_⟩
      intro r hr1 hr2
      show alookup (aset s.dirs path true) r ≠ none
      rw [hlookd r]
      by_cases hrp : r = path
      · rw [if_pos hrp]
        exact fun h => Option.noConfusion h
      · rw [if_neg hrp]
        exact h3 r hr1 hr2
  · intro q hq hd r hr1 hr2
    have hd2 : alookup (aset s.dirs path true) q ≠ none := hd
    show alookup (aset s.dirs path true) r ≠ none
    rw [hlookd r]
    by_cases hrp : r = path
    · rw [if_pos hrp]
      exact fun h => Option.noConfusion h
    · rw [if_neg hrp]
      by_cases hqp2 : q = path
      · rw [hqp2] at hr2
        have hrdl : isPre r path.dropLast = true :=
          isPre_dropLast hr2 (fun h => hrp h.symm)
        exact hchain r hrdl
      · rw [hlookd q, if_neg hqp2] at hd2
        exact M6 q hq hd2 r hr1 hr2
  · exact M7
  · show ((aset s.dirs path true).map Prod.fst).Nodup
    exact nodup_aset s.dirs path true M8
  · show alookup (aset s.dirs path true) [] = some false
    rw [hlookd [], if_neg (fun hx => hpne hx.symm)]
    exact hroot
  · show FS.get (FS.set s.fs path (Entry.dir mode)) [] = FS.get fs0 []
    rw [hgets [], if_neg (fun hx => hpne hx.symm)]
    exact hfs0r

/-- Tracking an already-existing on-disk directory as a non-speculative
node preserves the speculation invariant. -/
theorem specinv_adddir_exists (fs0 : FS) (s : Sess) (path : FPath)
    (pm0 : Nat)
    (hinv : SpecInv fs0 s) (hpne : path ≠ [])
    (hdnone : alookup s.dirs path = none)
    (hget : FS.get s.fs path = some (Entry.dir pm0))
    (hchain : ∀ r, isPre r path.dropLast = true → alookup s.dirs r ≠ none) :
    SpecInv fs0 { s with dirs := aset s.dirs path false } := by
  obtain ⟨⟨M1, M2, M3, M4, M5, M6, M7, M8⟩, hroot, hfs0r, hfin⟩ := hinv
  have hlookd : ∀ q, alookup (aset s.dirs path false) q =
      if q = path then some false else alookup s.dirs q :=
    fun q => alookup_aset s.dirs path false q
  refine ⟨⟨?_, ?_, ?_, ?_, ?_, ?_, ?_, ?_⟩, ?_, hfs0r, hfin⟩
  · intro q hq hqp hne
    cases M1 q hq hqp hne with
    | inl hd =>
      by_cases hqp2 : q = path
      · exfalso
        rw [hqp2, hdnone] at hd
        exact Option.noConfusion hd
      · refine Or.inl ?_
        show alookup (aset s.dirs path false) q = some true
        rw [hlookd q, if_neg hqp2]
        exact hd
    | inr hfile => exact Or.inr hfile
  · intro q hq hd r hr
    have hd2 : alookup (aset s.dirs path false) q = some true := hd
    rw [hlookd q] at hd2
    by_cases hqp2 : q = path
    · rw [if_pos hqp2] at hd2
      exact absurd (Option.some.inj hd2) (by simp)
    · rw [if_neg hqp2] at hd2
      exact M2 q hq hd2 r hr
  · intro q b hq hb
    have hb2 : alookup (aset s.dirs path false) q = some b := hb
    rw [hlookd q] at hb2
    by_cases hqp2 : q = path
    · refine Or.inr ⟨pm0, ?_⟩
      show FS.get s.fs q = some (Entry.dir pm0)
      rw [hqp2]
      exact hget
    · rw [if_neg hqp2] at hb2
      exact M3 q b hq hb2
  · intro q fut hq hf hn he
    have hf2 : alookup s.files q = some fut := hf
    by_cases hqp2 : q = path
    · exfalso
      obtain ⟨_, ⟨c, pm, hc⟩, _⟩ := M4 q fut hq hf2 hn he
      rw [hqp2, hget] at hc
      exact Entry.noConfusion (Option.some.inj hc)
    · obtain ⟨h1, h2, h3⟩ := M4 q fut hq hf2 hn he
      refine ⟨h1, h2, ?_⟩
      show alookup (aset s.dirs path false) q = none
      rw [hlookd q, if_neg hqp2]
      exact h3
  · intro q fut hq hf hn he
    obtain ⟨h1, h2, h3⟩ := M5 q fut hq hf hn he
    refine ⟨h1, h2, ?_⟩
    intro r hr1 hr2
    show alookup (aset s.dirs path false) r ≠ none
    rw [hlookd r]
    by_cases hrp : r = path
    · rw [if_pos hrp]
      exact fun h => Option.noConfusion h
    · rw [if_neg hrp]
      exact h3 r hr1 hr2
  · intro q hq hd r hr1 hr2
    have hd2 : alookup (aset s.dirs path false) q ≠ none := hd
    show alookup (aset s.dirs path false) r ≠ none
    rw [hlookd r]
    by_cases hrp : r = path
    · rw [if_pos hrp]
      exact fun h => Option.noConfusion h
    · rw [if_neg hrp]
      by_cases hqp2 : q = path
      · rw [hqp2] at hr2
        exact hchain r (isPre_dropLast hr2 (fun h => hrp h.symm))
      · rw [hlookd q, if_neg hqp2] at hd2
        exact M6 q hq hd2 r hr1 hr2
  · exact M7
  · show ((aset s.dirs path false).map Prod.fst).Nodup
    exact nodup_aset s.dirs path false M8
  · show alookup (aset s.dirs path false) [] = some false
    rw [hlookd [], if_neg (fun hx => hpne hx.symm)]
    exact hroot

/-- The three outcomes of createDirTree with the speculative flag
requested: failure without mutation, an on-disk mkdir yielding a
speculative node, or an existing directory yielding a real node. -/
theorem createDirTree_cases (s : Sess) (cur : FPath) (n : Seg) :
    (createDirTree s cur n true = (s, none)) ∨
    (FS.get s.fs (cur ++ [n]) = none ∧
      createDirTree s cur n true =
        ({ s with fs := FS.set s.fs (cur ++ [n])
                          (Entry.dir (applyUmask 0o755 s.umask)) },
         some true)) ∨
    (∃ pm, FS.get s.fs (cur ++ [n]) = some (Entry.dir pm) ∧
      createDirTree s cur n true = (s, some false)) := by
  have hpne : cur ++ [n] ≠ [] := by simp
  cases hget : FS.get s.fs (cur ++ [n]) with
  | some e =>
    cases e with
    | file c pm =>
      refine Or.inl ?_
      simp only [createDirTree, hget]
    | dir pm =>
      refine Or.inr (Or.inr ⟨pm, rfl, ?_⟩)
      simp only [createDirTree, hget]
  | none =>
    by_cases hpar : FS.isDirB s.fs (cur ++ [n]).dropLast = true
    · refine Or.inr (Or.inl ⟨rfl, ?_⟩)
      simp only [createDirTree, osMkdir, hget, if_neg hpne, hpar, if_true]
    · refine Or.inl ?_
      simp only [createDirTree, osMkdir, hget, if_neg hpne, if_neg hpar]

/-- dirTree.addFileInternal preserves the speculation invariant along
the whole walk, under the invariant that the node it starts from is
tracked. -/
theorem addFileInternal_inv (fs0 : FS) (hwf : WFfs fs0) :
    ∀ (segs : List Seg) (s : Sess) (cur : FPath),
      SpecInv fs0 s → alookup s.dirs cur ≠ none →
      SpecInv fs0 (addFileInternal s cur segs).1
  | [], s, cur, hinv, _ => hinv
  | [n], s, cur, hinv, hcur => by
    unfold addFileInternal
    cases hf : alookup s.files (cur ++ [n]) with
    | some fut => exact hinv
    | none => exact speculateFile_inv fs0 s cur n hinv hcur hf
  | n :: m :: rest, s, cur, hinv, hcur => by
    unfold addFileInternal
    cases hd : alookup s.dirs (cur ++ [n]) with
    | some b =>
      exact addFileInternal_inv fs0 hwf (m :: rest) s (cur ++ [n]) hinv
        (by rw [hd]; exact fun h => Option.noConfusion h)
    | none =>
      have hchain : ∀ r, isPre r (cur ++ [n]).dropLast = true →
          alookup s.dirs r ≠ none := by
        intro r hr
        rw [List.dropLast_concat] at hr
        exact hinv.1.2.2.2.2.2.1 cur (isPre_nil cur) hcur r (isPre_nil r) hr
      rcases createDirTree_cases s cur n with hc | ⟨hget, hc⟩ | ⟨pm, hget, hc⟩
      · rw [hc]
        exact hinv
      · rw [hc]
        have hinv2 := specinv_adddir_create fs0 s (cur ++ [n])
          (applyUmask 0o755 s.umask) hwf hinv (by simp) hd hget hchain
        exact addFileInternal_inv fs0 hwf (m :: rest)
          { s with fs := FS.set s.fs (cur ++ [n])
                           (Entry.dir (applyUmask 0o755 s.umask)),
                   dirs := aset s.dirs (cur ++ [n]) true }
          (cur ++ [n]) hinv2
          (by show alookup (aset s.dirs (cur ++ [n]) true) (cur ++ [n]) ≠ none
              rw [alookup_aset, if_pos rfl]
              exact fun h => Option.noConfusion h)
      · rw [hc]
        have hinv2 := specinv_adddir_exists fs0 s (cur ++ [n]) pm hinv
          (by simp) hd hget hchain
        exact addFileInternal_inv fs0 hwf (m :: rest)
          { s with dirs := aset s.dirs (cur ++ [n]) false }
          (cur ++ [n]) hinv2
          (by show alookup (aset s.dirs (cur ++ [n]) false) (cur ++ [n]) ≠ none
              rw [alookup_aset, if_pos rfl]
              exact fun h => Option.noConfusion h)

/-- Under the speculation invariant, finalization restores the disk to
the pre-session filesystem, everywhere. -/
theorem specinv_finalize (fs0 : FS) (s : Sess) (hinv : SpecInv fs0 s) :
    ∀ q, FS.get (sessFinalize s).fs q = FS.get fs0 q := by
  have hfuel : ∀ kv, kv ∈ s.dirs → isPre [] kv.1 = true →
      kv.1.length - ([] : FPath).length < cleanFuel s := by
    intro kv hkv _
    have hle := mem_key_length_le (show (kv.1, kv.2) ∈ s.dirs from hkv)
    unfold cleanFuel
    simp only [List.length_nil, Nat.sub_zero]
    omega
  have hcr := clean_restore (cleanFuel s) fs0 s [] hinv.2.1 hinv.1 hfuel
  intro q
  have hfse : (sessFinalize s).fs = ((clean (cleanFuel s) s []).1).fs := by
    unfold sessFinalize
    rw [if_neg (by rw [hinv.2.2.2]; exact Bool.false_ne_true)]
  rw [hfse]
  by_cases hq0 : q = []
  · rw [hq0, hcr.2, hinv.2.2.1]
  · exact hcr.1 q (isPre_nil q) hq0

/-- session.speculateFile preserves the speculation invariant. -/
theorem sessSpeculate_inv (fs0 : FS) (hwf : WFfs fs0) (s : Sess) (p : FPath)
    (hinv : SpecInv fs0 s) : SpecInv fs0 (sessSpeculate s p) := by
  cases p with
  | nil => exact hinv
  | cons a as =>
    exact addFileInternal_inv fs0 hwf (a :: as) s [] hinv
      (by rw [hinv.2.1]; exact fun h => Option.noConfusion h)

/-- A whole sequence of speculate requests preserves the speculation
invariant. -/
theorem runReqs_speculate_inv (fs0 : FS) (hwf : WFfs fs0) :
    ∀ (ps : List FPath) (s : Sess), SpecInv fs0 s →
      SpecInv fs0 (runReqs s (ps.map Req.speculate))
  | [], _, hinv => hinv
  | p :: ps, s, hinv =>
    runReqs_speculate_inv fs0 hwf ps (sessSpeculate s p)
      (sessSpeculate_inv fs0 hwf s p hinv)

/-- C1: for every sequence of speculate requests followed by finalize,
with no intervening copy, create, or mkdir, the filesystem after
finalize equals the filesystem before the speculations at every path:
files and directories created by the speculative opens are removed, and
every pre-existing entry keeps its content and permission bits. -/
theorem claim1_speculation_purity (fs0 : FS) (u : Nat) (ps : List FPath)
    (hwf : WFfs fs0) (q : FPath) :
    FS.get (sessFinalize (runReqs (freshSession fs0 u)
      (ps.map Req.speculate))).fs q = FS.get fs0 q :=
  specinv_finalize fs0 _
    (runReqs_speculate_inv fs0 hwf ps (freshSession fs0 u)
      (specinv_fresh fs0 u)) q

theorem claim1_witness :
    WFfs fsW ∧
    FS.get (sessFinalize (runReqs (freshSession fsW 18)
      ([["w", "sub", "x.txt"], ["w", "t.txt"]].map Req.speculate))).fs
      ["w", "sub"] = FS.get fsW ["w", "sub"] :=
  ⟨by decide, claim1_speculation_purity fsW 18
    [["w", "sub", "x.txt"], ["w", "t.txt"]] (by decide) ["w", "sub"]⟩
